import Mathlib

/-!
zgwstore: the user directory client and its lock.

A shallow embedding of `src/zgwstore/zgw_store.cc`.  The client (`ZgwStore`) talks to a
key-value server through `redisCommand`; the server and the client library are not part of
the file, so they are modelled here as an explicit environment `Env`:

* `Redis` is the data held by the server: the lock key `zgw_lock` with its expiry deadline,
  the sets, the hashes, and a clock in milliseconds that only `sleep_for` advances;
* every `redisCommand` call is appended to a log, and consumes one entry of a script of
  `Fault`s that says whether the server answers that call honestly, answers with some
  other reply, or does not answer at all;
* every `redisConnectWithTimeout` call is logged too and consumes one entry of a script of
  connection outcomes.

As in the data model of the directory (a lock, a membership set, one record per
`display_name`), the three key families (the lock key, the set `kZgwUserList`, the hashes
`kZgwUserPrefix ++ display_name`) are kept in separate components of `Redis`: the constants
`kZgwUserList` and `kZgwUserPrefix` are declared in a header outside the file and are
parameters here, and the families are taken to be disjoint (no record key
`kZgwUserPrefix ++ display_name` is `kZgwUserList` or `zgw_lock`).

`Lock` loops until the server grants the lock, so `Lock` and `AddUser` take a bound on
the number of rounds and return `none` when it is used up; the theorems that say an
operation returns give a bound that is enough.

Three features of the source are kept explicit:

* strings cross the boundary to the client library as C strings: what is sent as
  `.c_str()` and what is read from a reply through `char*` ends at its first U+0000
  (`c_str`);
* the script of `UnLock` is sent as text, with the identity of the client pasted between
  two double quotes, and the server runs what the text says (`readScript`): the
  compare-and-delete for an identity that the quotes enclose, something else or nothing
  for another identity; a text the model does not read is run by an interpreter about
  which nothing is assumed (`Redis.lua`);
* the order in which the two arguments of the pair built by `GenUserFromReply` are
  evaluated is left open by the language; it is a parameter (`ArgOrder`) of
  `GenUserFromReply` and of `ListUsers`.
-/

namespace zgwstore

/-! ## Status (slash::Status) -/

/-- The status values the file builds. -/
inductive Status where
  | OK : Status
  | IOError (msg : String) : Status
  | Corruption (msg : String) : Status
  | InvalidArgument (msg : String) : Status
  deriving DecidableEq, Repr

/-- Returns true on `Status::OK()`. -/
def Status.ok : Status → Bool
  | .OK => true
  | _ => false

/-- Tells an `IOError` from the rest. -/
def Status.IsIOError : Status → Bool
  | .IOError _ => true
  | _ => false

/-- Tells a `Corruption` from the rest. -/
def Status.IsCorruption : Status → Bool
  | .Corruption _ => true
  | _ => false

/-- The text of a status, used when the outcome of `UnLock` is appended to a message. -/
def Status.ToString : Status → String
  | .OK => "OK"
  | .IOError m => "IO error: " ++ m
  | .Corruption m => "Corruption: " ++ m
  | .InvalidArgument m => "Invalid argument: " ++ m

/-! ## Data model -/

/-- The map `key_pairs`, as the list of its entries in iteration order. -/
abbrev KeyPairs := List (String × String)

/-- The effect of `std::map::insert`: an entry whose key is already there is not stored. -/
def KeyPairs.insert (m : KeyPairs) (k v : String) : KeyPairs :=
  if m.any (fun e => e.1 == k) then m else m ++ [(k, v)]

/-- A directory entry. -/
structure User where
  user_id : String
  display_name : String
  key_pairs : KeyPairs
  deriving DecidableEq, Repr

/-- What `User user;` declares: empty strings and an empty map. -/
def User.empty : User := ⟨"", "", []⟩

/-- The replies of the client library (`redisReply`); a missing reply (NULL) is `none`
at the call site. -/
inductive Reply where
  | status (str : String) : Reply
  | integer (n : Int) : Reply
  | array (elements : List String) : Reply
  | error (str : String) : Reply
  | nil : Reply
  deriving DecidableEq, Repr

/-- The field `reply->integer`: zero for every reply that is not an integer. -/
def Reply.integerVal : Reply → Int
  | .integer n => n
  | _ => 0

/-- The field `reply->elements`/`reply->element`: empty for every reply that is not an
array. -/
def Reply.elems : Reply → List String
  | .array xs => xs
  | _ => []

/-- The commands the client sends, one constructor per call site format. -/
inductive Cmd where
  /-- The call `"SET zgw_lock %s NX PX %lu"`; `ttl` is the number printed for
  `lock_ttl_`. -/
  | setNxPx (value : String) (ttl : Int) : Cmd
  /-- The call `"EVAL %s %d"` with the text of a script and no key. -/
  | eval (script : String) : Cmd
  /-- The call `"SADD %s %s"`. -/
  | sadd (key member : String) : Cmd
  /-- The call `"DEL %s%s"`: the two pieces form one argument. -/
  | del (key : String) : Cmd
  /-- The call `redisCommand(redis_cli_, add_cmd.c_str())`: the text itself is the format. -/
  | text (cmd : String) : Cmd
  /-- The call `"SMEMBERS %s"`. -/
  | smembers (key : String) : Cmd
  /-- The call `"HGETALL %s%s"`: the two pieces form one argument. -/
  | hgetall (key : String) : Cmd
  deriving DecidableEq, Repr

/-- What is recorded of the client's traffic: the connection attempts, and the
commands with the reply the client got (`none` for NULL). -/
inductive Event where
  | connect (ip : String) (port : Int) : Event
  | command (c : Cmd) (reply : Option Reply) : Event
  deriving DecidableEq, Repr

/-- How the server treats one call. -/
inductive Fault where
  /-- The command is executed and its reply delivered. -/
  | ok : Fault
  /-- No reply reaches the client; `applied` tells whether the command was executed. -/
  | lost (applied : Bool) : Fault
  /-- The command is not executed and the given reply is delivered instead. -/
  | answer (r : Reply) : Fault
  deriving DecidableEq, Repr

/-- The outcome of `redisConnectWithTimeout`. -/
inductive ConnResult where
  /-- A NULL handle. -/
  | null : ConnResult
  /-- A handle whose `err` is set. -/
  | err : ConnResult
  /-- A usable handle. -/
  | good : ConnResult
  deriving DecidableEq, Repr

/-- The data held by the server. -/
structure Redis where
  /-- Milliseconds elapsed. -/
  now : Nat
  /-- Value and expiry deadline of the key `zgw_lock`. -/
  lock : Option (String × Nat)
  /-- The members of each set, in the order `SMEMBERS` lists them. -/
  sets : String → List String
  /-- The field/value entries of each hash, in the order `HGETALL` lists them;
  a key with no entry does not exist. -/
  hashes : String → List (String × String)
  /-- The script interpreter on a script text that `readScript` below does not read,
  given the clock, the lock key, the sets and the hashes: the reply, and the lock key,
  the sets and the hashes the script leaves.  Nothing is assumed about it. -/
  lua : String → Nat → Option (String × Nat) → (String → List String) →
    (String → List (String × String)) →
    Reply × Option (String × Nat) × (String → List String) ×
      (String → List (String × String))

/-- The server together with the scripts and the log. -/
structure Env where
  redis : Redis
  faults : List Fault
  conns : List ConnResult
  log : List Event

/-- The fields of the client object that the operations read or write. -/
structure ZgwStore where
  redis_ip_ : String
  redis_port_ : Int
  lock_name_ : String
  lock_ttl_ : Int
  redis_error_ : Bool
  deriving DecidableEq, Repr

/-! ## C strings

The source hands its strings to the client library as `.c_str()`, and reads the strings
of a reply as `char*`: in both directions a string ends at its first NUL.  The two
constants `kZgwUserList` and `kZgwUserPrefix` are initialised from string literals and
are taken to hold no NUL, so that their `.c_str()` is the whole constant. -/

/-- The character NUL. -/
def nul : Char := Char.ofNat 0

/-- The double quote. -/
def dquote : Char := Char.ofNat 34

/-- The single quote. -/
def squote : Char := Char.ofNat 39

/-- The backslash. -/
def backslash : Char := Char.ofNat 92

/-- The line feed. -/
def lf : Char := Char.ofNat 10

/-- The carriage return. -/
def cr : Char := Char.ofNat 13

/-- The characters before the first NUL. -/
def cutNul : List Char → List Char
  | [] => []
  | c :: cs => if c = nul then [] else c :: cutNul cs

/-- What a C function sees of a string passed as `.c_str()` or read through a `char*`:
the characters before the first NUL. -/
def c_str (s : String) : String := ⟨cutNul s.data⟩

/-! ## The script of UnLock and the interpreter -/

/-- The text of the script before the pasted identity (line 271). -/
def scriptHead : String := "if redis.call(\"get\", \"zgw_lock\") == \""

/-- The text of the script after the pasted identity (lines 271-276). -/
def scriptTail : String :=
  "\" " ++ "then " ++ "return redis.call(\"del\", \"zgw_lock\") " ++ "else " ++ "return 0 "
    ++ "end "

/-- The text `del_cmd` built at lines 271-276. -/
def del_cmd (lock_name_ : String) : String :=
  scriptHead ++ lock_name_ ++ scriptTail

/-- The pieces of a text between its double quotes. -/
def splitQuote : List Char → List (List Char)
  | [] => [[]]
  | c :: cs =>
    if c = dquote then [] :: splitQuote cs
    else
      match splitQuote cs with
      | seg :: segs => (c :: seg) :: segs
      | [] => [[c]]

/-- Removes the characters of `head` from the front of a text, if they are there. -/
def stripHead : List Char → List Char → Option (List Char)
  | [], xs => some xs
  | _ :: _, [] => none
  | h :: hs, x :: xs => if h = x then stripHead hs xs else none

/-- The pieces of `scriptTail` after its first double quote. -/
def tailSegs : List (List Char) := (splitQuote scriptTail.data).tail

/-- What the interpreter makes of a script text, as far as the model reads it. -/
inductive Script where
  /-- The text `if redis.call("get", "zgw_lock") == "h" then return
  redis.call("del", "zgw_lock") else return 0 end`. -/
  | compareDel (h : String) : Script
  /-- The same text with the condition `... == "s1" or "s2"=="s3"`. -/
  | compareOrDel (s1 s2 s3 : String) : Script
  /-- The same text with the condition
  `... == "s1" or redis.call("del", "key") == 1 or "s2"=="s3"`. -/
  | compareOrCallDel (s1 key s2 s3 : String) : Script
  /-- A text that does not compile. -/
  | broken : Script
  /-- A text the model does not read. -/
  | unread : Script
  deriving DecidableEq, Repr

/-- Reads a script text.  Only texts that start with `scriptHead` and hold no
backslash, line break or NUL after it are read, so that every double quote of the rest
ends or starts a string.  The rest is cut at its double quotes: the pieces at even
positions are the contents of strings (the first one continues the string that
`scriptHead` has opened), the pieces at odd positions are code.  When the pieces are a
string followed by the pieces of `scriptTail`, the script is the compare-and-delete
with that string; when they are `s1`, ` or `, `s2`, `==`, `s3` followed by the pieces
of `scriptTail`, the condition is `get == "s1" or "s2" == "s3"`; when they are `s1`,
` or redis.call(`, `del`, `, `, `key`, `) == 1 or `, `s2`, `==`, `s3` followed by the
pieces of `scriptTail`, the condition has the call `redis.call("del", "key") == 1`
between the two.  When the number of
double quotes is even, the last string is not closed, and if the code pieces cannot
start a comment or another kind of string (no `-`, no `[`, no single quote anywhere)
the text does not compile. -/
def readScript (script : String) : Script :=
  match stripHead scriptHead.data script.data with
  | none => .unread
  | some rest =>
    if backslash ∈ rest ∨ lf ∈ rest ∨ cr ∈ rest ∨ nul ∈ rest then .unread
    else
      match splitQuote rest with
      | [h, a, b, c, d, e] =>
        if [a, b, c, d, e] = tailSegs then .compareDel ⟨h⟩ else .unread
      | [s1, o, s2, q, s3, a, b, c, d, e] =>
        if o = " or ".data ∧ q = "==".data ∧ [a, b, c, d, e] = tailSegs then
          .compareOrDel ⟨s1⟩ ⟨s2⟩ ⟨s3⟩
        else .unread
      | [s1, o, f, sep, key, t, s2, q, s3, a, b, c, d, e] =>
        if o = " or redis.call(".data ∧ f = "del".data ∧ sep = ", ".data ∧
            t = ") == 1 or ".data ∧ q = "==".data ∧ [a, b, c, d, e] = tailSegs then
          .compareOrCallDel ⟨s1⟩ ⟨key⟩ ⟨s2⟩ ⟨s3⟩
        else .unread
      | segs =>
        if segs.length % 2 = 1 ∧ squote ∉ rest ∧ '[' ∉ rest ∧ '-' ∉ rest then .broken
        else .unread

/-! ## The client library and the server -/

/-- The argument splitter of the command formatter on a text without conversion
specifications: a blank ends the current argument when one was started, every other
character is appended to the current argument. -/
def splitArgs : List Char → List Char → List (List Char)
  | [], cur => if cur = [] then [] else [cur]
  | c :: cs, cur =>
    if c = ' ' then
      (if cur = [] then splitArgs cs [] else cur :: splitArgs cs [])
    else splitArgs cs (cur ++ [c])

/-- The formatter applied to a text used as the format itself.  In such a text a percent
sign starts a conversion specification for which no argument was supplied; what the
library then does (a format error, a literal percent sign for `%%` or at the very end, a
read of an argument that is not there) is outside the model, which reports a format
error (`none`) for every text that holds a percent sign.  The theorems on texts sent to
the server ask for texts without a percent sign where the difference matters. -/
def formatCommand (cmd : String) : Option (List String) :=
  if '%' ∈ cmd.data then none else some ((splitArgs cmd.data []).map String.mk)

/-- Groups a token list two by two; a last token left alone is dropped. -/
def pairUp : List String → List (String × String)
  | f :: v :: rest => (f, v) :: pairUp rest
  | _ => []

/-- Stores one field of a hash: an existing field keeps its place and takes the new
value, a new field goes to the end. -/
def hset : List (String × String) → String → String → List (String × String)
  | [], f, v => [(f, v)]
  | (g, w) :: rest, f, v => if g = f then (g, v) :: rest else (g, w) :: hset rest f v

/-- Stores the fields of `HMSET` from left to right. -/
def hmset (h : List (String × String)) (fvs : List (String × String)) :
    List (String × String) :=
  fvs.foldl (fun acc fv => hset acc fv.1 fv.2) h

/-- The tokens `HGETALL` lists: field, value, field, value, ... -/
def flatten : List (String × String) → List String
  | [] => []
  | (f, v) :: rest => f :: v :: flatten rest

/-- The holder stored under `zgw_lock`, if the key has not expired. -/
def Redis.holder (r : Redis) : Option String :=
  match r.lock with
  | some (h, deadline) => if r.now < deadline then some h else none
  | none => none

/-- Replaces the value of a function at one point. -/
def upd {β : Type} (f : String → β) (k : String) (v : β) : String → β :=
  fun x => if x = k then v else f x

/-- The effect of `redis.call("del", key)` in a script: the key is deleted, whatever it
holds. -/
def Redis.delKey (r : Redis) (key : String) : Redis :=
  { r with
    lock := (if key = "zgw_lock" then none else r.lock)
    sets := upd r.sets key []
    hashes := upd r.hashes key [] }

/-- Whether a key exists: a set with a member, a hash with a field, or the lock key
with a live value. -/
def Redis.hasKey (r : Redis) (key : String) : Bool :=
  decide (r.sets key ≠ []) || decide (r.hashes key ≠ []) ||
    (decide (key = "zgw_lock") && r.holder.isSome)

/-- Execution of an argument vector received as plain text. -/
def Redis.execArgs (r : Redis) : List String → Reply × Redis
  | "HMSET" :: key :: rest =>
    if rest = [] ∨ rest.length % 2 ≠ 0 then
      (.error "ERR wrong number of arguments for HMSET", r)
    else
      (.status "OK", { r with hashes := upd r.hashes key (hmset (r.hashes key) (pairUp rest)) })
  | ["HMSET"] => (.error "ERR wrong number of arguments for HMSET", r)
  | _ => (.error "ERR unknown command", r)

/-- Execution of one command by the server.  `SET ... NX PX` stores the value with a
deadline when the lock key has no live value; `EVAL` runs the script as `readScript`
reads it (a script that does not compile is answered with an error and changes
nothing; in the condition `a or b or c` the call in `b` is made only when `a` is
false). -/
def Redis.exec (r : Redis) : Cmd → Option (Reply × Redis)
  | .setNxPx v ttl =>
    if ttl ≤ 0 then some (.error "ERR invalid expire time in set", r)
    else match r.holder with
      | some _ => some (.nil, r)
      | none => some (.status "OK", { r with lock := some (v, r.now + ttl.toNat) })
  | .eval script =>
    match readScript script with
    | .compareDel h =>
      if r.holder = some h then some (.integer 1, { r with lock := none })
      else some (.integer 0, r)
    | .compareOrDel s1 s2 s3 =>
      if r.holder = some s1 ∨ s2 = s3 then
        some (.integer (if r.holder = none then 0 else 1), { r with lock := none })
      else some (.integer 0, r)
    | .compareOrCallDel s1 key s2 s3 =>
      if r.holder = some s1 then some (.integer 1, { r with lock := none })
      else if r.hasKey key = true ∨ s2 = s3 then
        some (.integer (if (r.delKey key).holder = none then 0 else 1),
          { (r.delKey key) with lock := none })
      else some (.integer 0, r.delKey key)
    | .broken => some (.error "ERR Error compiling script", r)
    | .unread =>
      some ((r.lua script r.now r.lock r.sets r.hashes).1,
        { r with
          lock := (r.lua script r.now r.lock r.sets r.hashes).2.1
          sets := (r.lua script r.now r.lock r.sets r.hashes).2.2.1
          hashes := (r.lua script r.now r.lock r.sets r.hashes).2.2.2 })
  | .sadd key m =>
    if m ∈ r.sets key then some (.integer 0, r)
    else some (.integer 1, { r with sets := upd r.sets key (r.sets key ++ [m]) })
  | .del key =>
    if r.hashes key = [] then some (.integer 0, r)
    else some (.integer 1, { r with hashes := upd r.hashes key [] })
  | .text cmd =>
    match formatCommand cmd with
    | none => none
    | some args => some (r.execArgs args)
  | .smembers key => some (.array (r.sets key), r)
  | .hgetall key => some (.array (flatten (r.hashes key)), r)

/-- The environment after a call that was sent: the call is logged with the reply the
client got, one entry of the fault script is used up, and the server holds `r`. -/
def Env.after (env : Env) (c : Cmd) (reply : Option Reply) (r : Redis) : Env :=
  { env with log := env.log ++ [.command c reply], faults := env.faults.tail, redis := r }

/-- One `redisCommand` call.  A text the formatter rejects is not sent and yields NULL
(`none`).  Otherwise the call takes the next entry of the fault script (an exhausted
script means an honest server) and yields the reply, `none` for NULL.  The call is
logged in both cases. -/
def redisCommand (env : Env) (c : Cmd) : Option Reply × Env :=
  match env.redis.exec c with
  | none => (none, { env with log := env.log ++ [.command c none] })
  | some (rep, r) =>
    match env.faults.head?.getD .ok with
    | .ok => (some rep, env.after c (some rep) r)
    | .lost applied => (none, env.after c none (if applied then r else env.redis))
    | .answer rep1 => (some rep1, env.after c (some rep1) env.redis)

/-- One `redisConnectWithTimeout` call: it is logged and takes the next entry of the
connection script (an exhausted script means a usable handle). -/
def redisConnectWithTimeout (env : Env) (ip : String) (port : Int) : ConnResult × Env :=
  (env.conns.head?.getD .good,
   { env with log := env.log ++ [.connect ip port], conns := env.conns.tail })

/-- The call `std::this_thread::sleep_for(std::chrono::milliseconds(ms))`. -/
def sleep_for (env : Env) (ms : Nat) : Env :=
  { env with redis := { env.redis with now := env.redis.now + ms } }

/-! ## The client (zgw_store.cc)

Freeing replies and handles has no counterpart here.  The `assert`s on reply shapes
(lines 118, 158 and 177) are taken as compiled out; they hold on every reply of an
honest server.  Every operation takes the client and the environment and returns them
with its result. -/

/-- The method `ZgwStore::MaybeHandleRedisError` (lines 192-207). -/
def MaybeHandleRedisError (self : ZgwStore) (env : Env) : Bool × ZgwStore × Env :=
  if !self.redis_error_ then (true, self, env)
  else
    match redisConnectWithTimeout env (c_str self.redis_ip_) self.redis_port_ with
    | (.good, env1) => (true, { self with redis_error_ := true }, env1)
    | (_, env1) => (false, self, env1)

/-- The method `ZgwStore::HandleIOError` (lines 209-213). -/
def HandleIOError (self : ZgwStore) (env : Env) (func_name : String) :
    Status × ZgwStore × Env :=
  (.IOError func_name, { self with redis_error_ := true }, env)

/-- The method `ZgwStore::UnLock` (lines 266-291).  The script text is built around
`lock_name_` and sent as `del_cmd.c_str()`; the reply is looked at but nothing depends
on it. -/
def UnLock (self : ZgwStore) (env : Env) : Status × ZgwStore × Env :=
  match MaybeHandleRedisError self env with
  | (false, self1, env1) => (.IOError "Reconnect", self1, env1)
  | (true, self1, env1) =>
    match redisCommand env1 (.eval (c_str (del_cmd self1.lock_name_))) with
    | (none, env2) => HandleIOError self1 env2 "UnLock"
    | (some _, env2) => (.OK, self1, env2)

/-- The method `ZgwStore::HandleLogicError` (lines 215-224). -/
def HandleLogicError (self : ZgwStore) (env : Env) (str_err : String)
    (should_unlock : Bool) : Status × ZgwStore × Env :=
  if should_unlock then
    match UnLock self env with
    | (s, self1, env1) => (.Corruption (str_err ++ ", UnLock ret: " ++ s.ToString), self1, env1)
  else (.Corruption str_err, self, env)

/-- The test of line 256, `reply->type == REDIS_REPLY_STATUS && !strcmp(reply->str,
"OK")`: a status reply whose text, read as a C string, is `OK`. -/
def Reply.isOK : Reply → Bool
  | .status str => c_str str == "OK"
  | _ => false

/-- The `while (true)` loop of `ZgwStore::Lock` (lines 250-262); `none` when the fuel
runs out before the loop is left. -/
def Lock.loop (self : ZgwStore) : Nat → Env → Option (Status × ZgwStore × Env)
  | 0, _ => none
  | fuel + 1, env =>
    match redisCommand env (.setNxPx (c_str self.lock_name_) self.lock_ttl_) with
    | (none, env1) => some (HandleIOError self env1 "Lock")
    | (some reply, env1) =>
      if reply.isOK then some (.OK, self, env1)
      else Lock.loop self fuel (sleep_for env1 500)

/-- The method `ZgwStore::Lock` (lines 244-264). -/
def Lock (fuel : Nat) (self : ZgwStore) (env : Env) : Option (Status × ZgwStore × Env) :=
  match MaybeHandleRedisError self env with
  | (false, self1, env1) => some (.IOError "Reconnect", self1, env1)
  | (true, self1, env1) => Lock.loop self1 fuel env1

/-- The text `add_cmd` built at lines 90-95. -/
def add_cmd (kZgwUserPrefix : String) (user : User) : String :=
  user.key_pairs.foldl (fun acc iter => acc ++ (" " ++ iter.1 ++ " " ++ iter.2))
    ("HMSET " ++ kZgwUserPrefix ++ user.display_name
      ++ (" uid " ++ user.user_id) ++ (" name " ++ user.display_name))

/-- The method `ZgwStore::AddUser` from line 103 on: the part after the lock is taken.
`display_name` and the text `add_cmd` are passed as `.c_str()`. -/
def AddUser.locked (kZgwUserPrefix kZgwUserList : String) (user : User)
    (self : ZgwStore) (env : Env) : Status × ZgwStore × Env :=
  match redisCommand env (.sadd kZgwUserList (c_str user.display_name)) with
  | (none, env1) => HandleIOError self env1 "AddUser::SADD"
  | (some (.error str), env1) =>
    HandleLogicError self env1 ("AddUser::SADD ret: " ++ c_str str) true
  | (some reply, env1) =>
    if reply.integerVal = 0 then HandleLogicError self env1 "User Already Exist" true
    else
      match redisCommand env1 (.del (kZgwUserPrefix ++ c_str user.display_name)) with
      | (none, env2) => HandleIOError self env2 "AddUser::DEL"
      | (some _, env2) =>
        match redisCommand env2 (.text (c_str (add_cmd kZgwUserPrefix user))) with
        | (none, env3) => HandleIOError self env3 "AddUser::HMSET"
        | (some (.error str), env3) =>
          HandleLogicError self env3 ("AddUser::HMSET ret: " ++ c_str str) true
        | (some _, env3) => UnLock self env3

/-- The method `ZgwStore::AddUser` (lines 85-139). -/
def AddUser (kZgwUserPrefix kZgwUserList : String) (fuel : Nat) (user : User)
    (self : ZgwStore) (env : Env) : Option (Status × ZgwStore × Env) :=
  match MaybeHandleRedisError self env with
  | (false, self1, env1) => some (.IOError "Reconnect", self1, env1)
  | (true, self1, env1) =>
    match Lock fuel self1 env1 with
    | none => none
    | some (s, self2, env2) =>
      if !s.ok then some (s, self2, env2)
      else some (AddUser.locked kZgwUserPrefix kZgwUserList user self2 env2)

/-- The order in which the compiled code evaluates the two arguments of the constructor
call `std::pair<std::string, std::string>(reply->element[i]->str,
reply->element[++i]->str)` of lines 236-237.  The language leaves it open. -/
inductive ArgOrder where
  /-- The first argument is evaluated first: it reads `element[i]`. -/
  | leftToRight : ArgOrder
  /-- The second argument, with its `++i`, is evaluated first: both arguments read
  `element[i + 1]`. -/
  | rightToLeft : ArgOrder
  deriving DecidableEq, Repr

/-- The user built by `GenUserFromReply` together with the indices of `reply->element`
it read: `fieldReads` for the reads that yield a field name (the comparisons with
`uid` and `name`, and the first argument of the pair), `valueReads` for the reads of
`element[++i]`. -/
structure GenTrace where
  user : User
  fieldReads : List Nat
  valueReads : List Nat
  deriving DecidableEq, Repr

/-- The `for` loop of `ZgwStore::GenUserFromReply` (lines 228-240) from index `i` on.
Each round compares `element[i]` with `uid` and `name`; the first two branches then read
`element[++i]`; the third builds a pair from `element[i]` and `element[++i]` in the
order `order`; the loop header adds one more to `i`.  The strings are read through
`char*`.  A read past the end is undefined in the source; here it yields the empty
string and is recorded like every other read.  The fuel bounds the number of rounds. -/
def GenUserFromReply.loop (order : ArgOrder) (element : List String) :
    Nat → Nat → GenTrace → GenTrace
  | 0, _, acc => acc
  | fuel + 1, i, acc =>
    if i < element.length then
      let f := c_str (element.getD i "")
      let v := c_str (element.getD (i + 1) "")
      let fr := acc.fieldReads ++ [i]
      let vr := acc.valueReads ++ [i + 1]
      if f = "uid" then
        GenUserFromReply.loop order element fuel (i + 2)
          ⟨{ acc.user with user_id := v }, fr, vr⟩
      else if f = "name" then
        GenUserFromReply.loop order element fuel (i + 2)
          ⟨{ acc.user with display_name := v }, fr, vr⟩
      else
        match order with
        | .leftToRight =>
          GenUserFromReply.loop order element fuel (i + 2)
            ⟨{ acc.user with key_pairs := acc.user.key_pairs.insert f v }, fr ++ [i], vr⟩
        | .rightToLeft =>
          GenUserFromReply.loop order element fuel (i + 2)
            ⟨{ acc.user with key_pairs := acc.user.key_pairs.insert v v }, fr ++ [i + 1], vr⟩
    else acc

/-- The method `ZgwStore::GenUserFromReply` (lines 226-242), with its reads.  The index
grows in every round, so `element.length` rounds are enough. -/
def GenUserFromReply.traced (order : ArgOrder) (element : List String) : GenTrace :=
  GenUserFromReply.loop order element element.length 0 ⟨User.empty, [], []⟩

/-- The method `ZgwStore::GenUserFromReply` (lines 226-242). -/
def GenUserFromReply (order : ArgOrder) (element : List String) : User :=
  (GenUserFromReply.traced order element).user

/-- The `for` loop of `ZgwStore::ListUsers` (lines 165-186) over the members still to
visit; `users` is the output vector.  The member name is read through `char*`. -/
def ListUsers.loop (order : ArgOrder) (kZgwUserPrefix : String) (self : ZgwStore) :
    List String → List User → Env → Status × List User × ZgwStore × Env
  | [], users, env => (.OK, users, self, env)
  | m :: rest, users, env =>
    match redisCommand env (.hgetall (kZgwUserPrefix ++ c_str m)) with
    | (none, env1) =>
      match HandleIOError self env1 "ListUsers::HGETALL" with
      | (s, self1, env2) => (s, users, self1, env2)
    | (some (.error str), env1) =>
      match HandleLogicError self env1 ("ListUser::HGETALL ret: " ++ c_str str) false with
      | (s, self1, env2) => (s, users, self1, env2)
    | (some t_reply, env1) =>
      if t_reply.elems.length = 0 then
        ListUsers.loop order kZgwUserPrefix self rest users env1
      else if t_reply.elems.length % 2 ≠ 0 then
        match HandleLogicError self env1 "ListUser::HGETALL: elements % 2 != 0" false with
        | (s, self1, env2) => (s, users, self1, env2)
      else
        ListUsers.loop order kZgwUserPrefix self rest
          (users ++ [GenUserFromReply order t_reply.elems]) env1

/-- The method `ZgwStore::ListUsers` (lines 141-190); the second component is the
output vector `users` as the caller finds it. -/
def ListUsers (order : ArgOrder) (kZgwUserPrefix kZgwUserList : String) (self : ZgwStore)
    (env : Env) : Status × List User × ZgwStore × Env :=
  match MaybeHandleRedisError self env with
  | (false, self1, env1) => (.IOError "Reconnect", [], self1, env1)
  | (true, self1, env1) =>
    match redisCommand env1 (.smembers kZgwUserList) with
    | (none, env2) =>
      match HandleIOError self1 env2 "ListUsers::SEMBMBERS" with
      | (s, self2, env3) => (s, [], self2, env3)
    | (some (.error str), env2) =>
      match HandleLogicError self1 env2 ("ListUser::SMEMBERS ret: " ++ c_str str) false with
      | (s, self2, env3) => (s, [], self2, env3)
    | (some reply, env2) =>
      if reply.elems.length = 0 then (.OK, [], self1, env2)
      else ListUsers.loop order kZgwUserPrefix self1 reply.elems [] env2

/-! ## Sample data for evaluation -/

/-- A server with nothing stored. -/
def Redis.init : Redis :=
  ⟨0, none, fun _ => [], fun _ => [], fun _ _ l s h => (.error "ERR", l, s, h)⟩

/-- A server with nothing stored but the lock, held by `h` until `deadline`. -/
def Redis.heldBy (h : String) (deadline : Nat) : Redis :=
  { Redis.init with lock := some (h, deadline) }

/-- An honest environment around a server. -/
def Env.honest (r : Redis) : Env := ⟨r, [], [], []⟩

/-- A client named `name` with the given lease, in the state `Open` leaves it in. -/
def ZgwStore.mk0 (name : String) (ttl : Int) : ZgwStore := ⟨"127.0.0.1", 6379, name, ttl, false⟩

/-- The time the lock key still has to live. -/
def Redis.remaining (r : Redis) : Nat :=
  match r.lock with
  | some (_, deadline) => deadline - r.now
  | none => 0

/-- A number of rounds of the `Lock` loop that is enough on an honest server when no
other client touches the lock: the rounds it takes the present lease to expire. -/
def Redis.enoughFuel (r : Redis) : Nat := r.remaining / 500 + 2

/-- One round of the loop of `GenUserFromReply` on the pair `(f, v)`. -/
def GenUserFromReply.step (order : ArgOrder) (user : User) (fv : String × String) :
    User :=
  if fv.1 = "uid" then { user with user_id := fv.2 }
  else if fv.1 = "name" then { user with display_name := fv.2 }
  else
    match order with
    | .leftToRight => { user with key_pairs := user.key_pairs.insert fv.1 fv.2 }
    | .rightToLeft => { user with key_pairs := user.key_pairs.insert fv.2 fv.2 }

/-- The users a listing builds from the stored records of the given members, in order:
a member without a record is skipped. -/
def listedUsers (order : ArgOrder) (kZgwUserPrefix : String) (r : Redis)
    (names : List String) : List User :=
  (names.filter (fun n => r.hashes (kZgwUserPrefix ++ c_str n) ≠ [])).map
    (fun n => GenUserFromReply order (flatten (r.hashes (kZgwUserPrefix ++ c_str n))))

/-- A server whose directory holds the members `a` and `b`, with a record for `a`. -/
def Redis.sample : Redis :=
  ⟨0, none, fun k => if k = "list" then ["a", "b"] else [],
    fun k => if k = "user_a" then [("uid", "1"), ("name", "a")] else [],
    fun _ _ l s h => (.error "ERR", l, s, h)⟩

/-- A server whose directory holds the member `a` with its record. -/
def Redis.one : Redis :=
  ⟨0, none, fun k => if k = "list" then ["a"] else [],
    fun k => if k = "user_a" then [("uid", "1"), ("name", "a")] else [],
    fun _ _ l s h => (.error "ERR", l, s, h)⟩

/-- An identity that puts the call `redis.call("del", "user_a")` into the condition of
the script of `UnLock`. -/
def callName : String := "x\" or redis.call(\"del\", \"user_a\") == 1 or \"1\"==\"2"

/-- The name `a`, U+0000, `b`. -/
def nulName : String := ⟨['a', nul, 'b']⟩

/-- A server whose membership set `list` holds `nulName` alone, with a record at
`user_a`. -/
def Redis.nulSample : Redis :=
  ⟨0, none, fun k => if k = "list" then [nulName] else [],
    fun k => if k = "user_a" then [("uid", "1"), ("name", "a")] else [],
    fun _ _ l s h => (.error "ERR", l, s, h)⟩

/-- A string that the formatter passes on as one argument when it stands in a text: it
is not empty and holds neither a blank nor a percent sign. -/
def isToken (s : String) : Prop := s.data ≠ [] ∧ ' ' ∉ s.data ∧ '%' ∉ s.data

instance (s : String) : Decidable (isToken s) := by
  unfold isToken
  exact inferInstance

/-- The characters of a text made of the given pieces, each preceded by one blank. -/
def spaced : List String → List Char
  | [] => []
  | t :: ts => ' ' :: (t.data ++ spaced ts)

/-- The field/value entries `AddUser` writes for a user, in the order of `add_cmd`. -/
def User.record (u : User) : List (String × String) :=
  ("uid", u.user_id) :: ("name", u.display_name) :: u.key_pairs

/-- The entries of `key_pairs` form a map (no key twice) and none of the keys is one of
the two reserved field names. -/
def User.plainKeys (u : User) : Prop :=
  (u.key_pairs.map Prod.fst).Nodup ∧ ∀ e ∈ u.key_pairs, e.1 ≠ "uid" ∧ e.1 ≠ "name"

instance (u : User) : Decidable u.plainKeys := by
  unfold User.plainKeys
  exact inferInstance

/-- Calls `AddUser` once for each user of the list, in order, and collects the statuses. -/
def addEach (kZgwUserPrefix kZgwUserList : String) (fuel : Nat) :
    List User → ZgwStore → Env → Option (List Status × ZgwStore × Env)
  | [], self, env => some ([], self, env)
  | u :: us, self, env =>
    match AddUser kZgwUserPrefix kZgwUserList fuel u self env with
    | none => none
    | some (s, self1, env1) =>
      match addEach kZgwUserPrefix kZgwUserList fuel us self1 env1 with
      | none => none
      | some (ss, self2, env2) => some (s :: ss, self2, env2)

/-- Calls `AddUser` for each user and then `ListUsers`: the statuses of the additions,
the status of the listing and the users listed. -/
def addThenList (order : ArgOrder) (kZgwUserPrefix kZgwUserList : String) (fuel : Nat)
    (users : List User) (self : ZgwStore) (env : Env) :
    Option (List Status × Status × List User) :=
  match addEach kZgwUserPrefix kZgwUserList fuel users self env with
  | none => none
  | some (ss, self1, env1) =>
    some (ss, (ListUsers order kZgwUserPrefix kZgwUserList self1 env1).1,
      (ListUsers order kZgwUserPrefix kZgwUserList self1 env1).2.1)

/-- The directory holds exactly the given users: the membership set lists their names
in order and each name has the record of its user. -/
def holdsUsers (P L : String) (r : Redis) (users : List User) : Prop :=
  r.sets L = users.map (fun u => u.display_name) ∧
  ∀ u ∈ users, r.hashes (P ++ u.display_name) = u.record

/-- A token without NUL: a string that reaches the server whole and as one argument. -/
def isCToken (s : String) : Prop := isToken s ∧ nul ∉ s.data

instance (s : String) : Decidable (isCToken s) := by
  unfold isCToken
  exact inferInstance

/-- Every string of the user that goes into the text of `HMSET` reaches the server
whole and as one argument. -/
def User.tokens (P : String) (u : User) : Prop :=
  isCToken (P ++ u.display_name) ∧ isCToken u.user_id ∧ isCToken u.display_name ∧
  ∀ e ∈ u.key_pairs, isCToken e.1 ∧ isCToken e.2

/-- An identity that the script of `UnLock` compares with as it stands: no double
quote, backslash, line break or NUL in it. -/
def luaPlain (s : String) : Prop :=
  dquote ∉ s.data ∧ backslash ∉ s.data ∧ lf ∉ s.data ∧ cr ∉ s.data ∧ nul ∉ s.data

instance (s : String) : Decidable (luaPlain s) := by
  unfold luaPlain
  exact inferInstance

instance (P : String) (u : User) : Decidable (u.tokens P) := by
  unfold User.tokens
  exact inferInstance

/-- The behaviours of the server that are a success reply, an error reply or a missing
reply. -/
def Fault.plain : Fault → Prop
  | .ok => True
  | .lost _ => True
  | .answer (.error _) => True
  | .answer _ => False

/-- The directory invariant: a record exists at a `display_name` exactly when the
`display_name` is a member of the membership set. -/
def dirInv (P L : String) (r : Redis) : Prop :=
  ∀ d : String, r.hashes (P ++ d) ≠ [] ↔ d ∈ r.sets L

/-- The text of an error reply, `none` for every other reply. -/
def Reply.errStr : Reply → Option String
  | .error str => some str
  | _ => none

/-- What a call of `AddUser` can have done to the directory: either the sets and the
hashes are as before, or the name as sent is new and was added to the membership set,
and then either the status is not OK or the name was sent whole, it has a record and
no other hash has changed. -/
def addOutcome (P L : String) (u : User) (env : Env) (res : Status × ZgwStore × Env) :
    Prop :=
  (res.2.2.redis.sets = env.redis.sets ∧ res.2.2.redis.hashes = env.redis.hashes) ∨
  (c_str u.display_name ∉ env.redis.sets L ∧
    res.2.2.redis.sets
      = upd env.redis.sets L (env.redis.sets L ++ [c_str u.display_name]) ∧
    (res.1 ≠ .OK ∨
      (c_str u.display_name = u.display_name ∧
        res.2.2.redis.hashes (P ++ u.display_name) ≠ [] ∧
        ∀ k2, k2 ≠ P ++ u.display_name → res.2.2.redis.hashes k2 = env.redis.hashes k2)))

/-- No event of the list is a command that got no reply. -/
def noLost (evs : List Event) : Prop := ∀ c : Cmd, Event.command c none ∉ evs

/-- The name under which each call site reports a missing reply to `HandleIOError`. -/
def site : Cmd → String
  | .setNxPx _ _ => "Lock"
  | .eval _ => "UnLock"
  | .sadd _ _ => "AddUser::SADD"
  | .del _ => "AddUser::DEL"
  | .text _ => "AddUser::HMSET"
  | .smembers _ => "ListUsers::SEMBMBERS"
  | .hgetall _ => "ListUsers::HGETALL"

/-- The classification of missing replies by an operation that started with the log
`log0` and returned the status `s`, the client `self1` and the environment `env1`.
Either every call of the operation got a reply, or exactly one got none: it is the last
event of the log, the connection flag is set, and the status is the IOError that names
the call site.  With `exc` set one more shape of status is allowed for a missing reply to
`EVAL`: a Corruption whose message ends with the IOError of `UnLock`. -/
def ioOutcome (exc : Bool) (log0 : List Event) (s : Status) (self1 : ZgwStore)
    (env1 : Env) : Prop :=
  ∃ evs : List Event, env1.log = log0 ++ evs ∧
    (noLost evs ∨
      ∃ (pre : List Event) (c : Cmd), evs = pre ++ [.command c none] ∧ noLost pre ∧
        self1.redis_error_ = true ∧
        (s = .IOError (site c) ∨
          (exc = true ∧ c = .eval (c_str (del_cmd self1.lock_name_)) ∧
            ∃ msg : String, s = .Corruption (msg ++ ", UnLock ret: IO error: UnLock"))))

/-- No event of the list is an `EVAL` call. -/
def noEval (evs : List Event) : Prop :=
  ∀ (h : String) (rep : Option Reply), Event.command (.eval h) rep ∉ evs

/-- The call in the loop of `Lock` (lines 251-252): one attempt to take the lock. -/
def Lock.attempt (self : ZgwStore) (env : Env) : Option Reply × Env :=
  redisCommand env (.setNxPx (c_str self.lock_name_) self.lock_ttl_)

/-- Whether an attempt of `Lock` got the reply on which `Lock` returns OK. -/
def granted : Option Reply → Bool
  | some reply => reply.isOK
  | none => false

/-- The steps of two clients on one server: an attempt of `Lock` or a call of `UnLock`
by the first or by the second client.  No step lets time pass. -/
inductive LockAct where
  | acquire1 : LockAct
  | release1 : LockAct
  | acquire2 : LockAct
  | release2 : LockAct
  deriving DecidableEq, Repr

/-- The shared environment, and for each client whether its last attempt of `Lock`
returned OK with no `UnLock` of its own since. -/
structure LockSys where
  env : Env
  held1 : Bool
  held2 : Bool

/-- One step of the two clients `c1` and `c2`. -/
def LockSys.step (c1 c2 : ZgwStore) (s : LockSys) : LockAct → LockSys
  | .acquire1 =>
    if granted (Lock.attempt c1 s.env).1 then
      { s with env := (Lock.attempt c1 s.env).2, held1 := true }
    else { s with env := (Lock.attempt c1 s.env).2 }
  | .release1 => { s with env := (UnLock c1 s.env).2.2, held1 := false }
  | .acquire2 =>
    if granted (Lock.attempt c2 s.env).1 then
      { s with env := (Lock.attempt c2 s.env).2, held2 := true }
    else { s with env := (Lock.attempt c2 s.env).2 }
  | .release2 => { s with env := (UnLock c2 s.env).2.2, held2 := false }

/-- The state after a sequence of steps. -/
def LockSys.run (c1 c2 : ZgwStore) (s : LockSys) (acts : List LockAct) : LockSys :=
  acts.foldl (LockSys.step c1 c2) s

/-- The server never fails and a client that holds the lock is the holder stored under
the lock key. -/
def LockSys.good (c1 c2 : ZgwStore) (s : LockSys) : Prop :=
  s.env.faults = [] ∧
  (s.held1 = true → s.env.redis.holder = some c1.lock_name_) ∧
  (s.held2 = true → s.env.redis.holder = some c2.lock_name_)

/-! ## Basic facts about the model -/

theorem isOK_status_OK : Reply.isOK (.status "OK") = true := by decide

theorem isOK_nil : Reply.isOK .nil = false := rfl

theorem isOK_error (str : String) : Reply.isOK (.error str) = false := rfl


theorem holder_none_of_remaining_zero (r : Redis) (h : r.remaining = 0) : r.holder = none := by
  unfold Redis.remaining at h
  unfold Redis.holder
  cases hl : r.lock with
  | none => rfl
  | some p =>
    obtain ⟨v, d⟩ := p
    simp only [hl] at h
    simp only
    rw [if_neg]
    omega

theorem Lock_loop_mono (self : ZgwStore) (k : Nat) :
    ∀ (fuel : Nat) (env : Env) (x : Status × ZgwStore × Env),
      Lock.loop self fuel env = some x → Lock.loop self (fuel + k) env = some x := by
  intro fuel
  induction fuel with
  | zero => intro env x h; simp [Lock.loop] at h
  | succ n ih =>
    intro env x h
    rw [Nat.add_right_comm]
    unfold Lock.loop at h ⊢
    cases hc : redisCommand env (.setNxPx (c_str self.lock_name_) self.lock_ttl_) with
    | mk rep env1 =>
      rw [hc] at h
      cases rep with
      | none => simpa using h
      | some reply =>
        simp only at h ⊢
        by_cases hr : reply.isOK = true
        · simpa [hr] using h
        · rw [if_neg hr] at h ⊢
          exact ih _ _ h

/-! ## GenUserFromReply -/

theorem drop_two_step (el : List String) (i : Nat) (h : i + 1 < el.length) :
    el.drop i = el.getD i "" :: el.getD (i + 1) "" :: el.drop (i + 2) := by
  have h0 : i < el.length := by omega
  rw [List.drop_eq_getElem_cons h0, List.drop_eq_getElem_cons h]
  simp [List.getD_eq_getElem?_getD, List.getElem?_eq_getElem h0, List.getElem?_eq_getElem h]

theorem GenUserFromReply_loop_user (order : ArgOrder) (el : List String)
    (hev : el.length % 2 = 0) :
    ∀ (fuel i : Nat) (acc : GenTrace), i % 2 = 0 → el.length ≤ i + 2 * fuel →
      (GenUserFromReply.loop order el fuel i acc).user
        = (pairUp ((el.drop i).map c_str)).foldl (GenUserFromReply.step order) acc.user := by
  intro fuel
  induction fuel with
  | zero =>
    intro i acc _ hle
    have : el.drop i = [] := List.drop_eq_nil_of_le (by omega)
    simp [GenUserFromReply.loop, this, pairUp]
  | succ n ih =>
    intro i acc hi hle
    unfold GenUserFromReply.loop
    by_cases hlt : i < el.length
    · have h1 : i + 1 < el.length := by omega
      rw [if_pos hlt, drop_two_step el i h1]
      simp only [List.map_cons, pairUp, List.foldl_cons]
      by_cases hu : c_str (el.getD i "") = "uid"
      · rw [if_pos hu, ih (i + 2) _ (by omega) (by omega)]
        simp only [GenUserFromReply.step, if_pos hu]
      · by_cases hn : c_str (el.getD i "") = "name"
        · rw [if_neg hu, if_pos hn, ih (i + 2) _ (by omega) (by omega)]
          simp only [GenUserFromReply.step, if_neg hu, if_pos hn]
        · rw [if_neg hu, if_neg hn]
          cases order with
          | leftToRight =>
            simp only
            rw [ih (i + 2) _ (by omega) (by omega)]
            simp only [GenUserFromReply.step, if_neg hu, if_neg hn]
          | rightToLeft =>
            simp only
            rw [ih (i + 2) _ (by omega) (by omega)]
            simp only [GenUserFromReply.step, if_neg hu, if_neg hn]
    · rw [if_neg hlt]
      have : el.drop i = [] := List.drop_eq_nil_of_le (by omega)
      simp [this, pairUp]

/-- C10 (the code departs from it): the pair of the third branch is built from
`element[i]->str` and `element[++i]->str` in one argument list.  When the second
argument is evaluated first, both arguments read `element[i + 1]`: the entry stored for
the pair `k`, `v` is `v`, `v`, and the field name of the pair is read at the odd index 3.
Only when the first argument is evaluated first is the entry `k`, `v`. -/
theorem GenUserFromReply_pair_order :
    GenUserFromReply .rightToLeft ["uid", "7", "k", "v", "name", "bob"]
      = ⟨"7", "bob", [("v", "v")]⟩ ∧
    (GenUserFromReply.traced .rightToLeft ["uid", "7", "k", "v", "name", "bob"]).fieldReads
      = [0, 2, 3, 4] ∧
    GenUserFromReply .leftToRight ["uid", "7", "k", "v", "name", "bob"]
      = ⟨"7", "bob", [("k", "v")]⟩ := by
  decide

theorem MaybeHandleRedisError_log_of_error (self : ZgwStore) (env : Env)
    (herr : self.redis_error_ = true) :
    (MaybeHandleRedisError self env).2.2.log
      = env.log ++ [.connect (c_str self.redis_ip_) self.redis_port_] := by
  unfold MaybeHandleRedisError redisConnectWithTimeout
  simp only [herr, Bool.not_true, Bool.false_eq_true, if_false]
  cases env.conns.head?.getD .good <;> rfl

/-- C4 (the code departs from it): when the connection flag is set and the reconnect
yields a usable handle, `MaybeHandleRedisError` returns true but leaves `redis_error_`
set (line 205 stores `true`), so the next call is not a no-op: it connects once more. -/
theorem MaybeHandleRedisError_leaves_flag_set (self : ZgwStore) (env : Env)
    (herr : self.redis_error_ = true)
    (hgood : env.conns.head?.getD .good = .good) :
    (MaybeHandleRedisError self env).1 = true ∧
    (MaybeHandleRedisError self env).2.1.redis_error_ = true ∧
    (MaybeHandleRedisError self env).2.2.log
      = env.log ++ [.connect (c_str self.redis_ip_) self.redis_port_] ∧
    (MaybeHandleRedisError (MaybeHandleRedisError self env).2.1
        (MaybeHandleRedisError self env).2.2).2.2.log
      = env.log ++ [.connect (c_str self.redis_ip_) self.redis_port_] ++
          [.connect (c_str self.redis_ip_) self.redis_port_] := by
  have h1 : MaybeHandleRedisError self env
      = (true, { self with redis_error_ := true },
          { env with log := env.log ++ [.connect (c_str self.redis_ip_) self.redis_port_],
                     conns := env.conns.tail }) := by
    simp [MaybeHandleRedisError, herr, redisConnectWithTimeout, hgood]
  refine ⟨by rw [h1], by rw [h1], by rw [h1], ?_⟩
  rw [MaybeHandleRedisError_log_of_error _ _ (by rw [h1]), h1]

theorem MaybeHandleRedisError_leaves_flag_set_witness :
    (⟨"127.0.0.1", 6379, "me", 1000, true⟩ : ZgwStore).redis_error_ = true ∧
    (MaybeHandleRedisError ⟨"127.0.0.1", 6379, "me", 1000, true⟩
      (Env.honest Redis.init)).2.1.redis_error_ = true :=
  ⟨rfl, (MaybeHandleRedisError_leaves_flag_set ⟨"127.0.0.1", 6379, "me", 1000, true⟩
      (Env.honest Redis.init) rfl rfl).2.1⟩

/-! ## Lock and UnLock on an honest server -/

theorem exec_setNxPx_free (r : Redis) (v : String) (ttl : Int) (httl : 0 < ttl)
    (h : r.holder = none) :
    r.exec (.setNxPx v ttl)
      = some (.status "OK", { r with lock := some (v, r.now + ttl.toNat) }) := by
  simp [Redis.exec, h, not_le.2 httl]

theorem exec_setNxPx_held (r : Redis) (v w : String) (ttl : Int) (httl : 0 < ttl)
    (h : r.holder = some w) :
    r.exec (.setNxPx v ttl) = some (.nil, r) := by
  simp [Redis.exec, h, not_le.2 httl]

theorem holder_after_set (r : Redis) (v : String) (ttl : Int) (httl : 0 < ttl) :
    ({ r with lock := some (v, r.now + ttl.toNat) } : Redis).holder = some v := by
  have : 0 < ttl.toNat := by omega
  simp [Redis.holder, this]

theorem redisCommand_ok (env : Env) (c : Cmd) (rep : Reply) (r : Redis)
    (hf : env.faults.head?.getD .ok = .ok) (hx : env.redis.exec c = some (rep, r)) :
    redisCommand env c = (some rep, env.after c (some rep) r) := by
  unfold redisCommand
  simp only [hx, hf]

theorem head_ok_of_nil (env : Env) (hf : env.faults = []) :
    env.faults.head?.getD .ok = .ok := by
  simp [hf]

theorem after_faults_nil (env : Env) (c : Cmd) (rep : Option Reply) (r : Redis)
    (hf : env.faults = []) : (env.after c rep r).faults = [] := by
  simp [Env.after, hf]

theorem Lock_loop_honest (self : ZgwStore) (httl : 0 < self.lock_ttl_) :
    ∀ (n : Nat) (env : Env), env.faults = [] → env.redis.remaining ≤ 500 * n →
      ∃ env' : Env, Lock.loop self (n + 1) env = some (.OK, self, env') ∧
        env'.faults = [] ∧ env'.conns = env.conns ∧
        env'.redis.sets = env.redis.sets ∧ env'.redis.hashes = env.redis.hashes ∧
        env'.redis.holder = some (c_str self.lock_name_) := by
  have hfree : ∀ (k : Nat) (env : Env), env.faults = [] → env.redis.holder = none →
      ∃ env' : Env, Lock.loop self (k + 1) env = some (.OK, self, env') ∧
        env'.faults = [] ∧ env'.conns = env.conns ∧
        env'.redis.sets = env.redis.sets ∧ env'.redis.hashes = env.redis.hashes ∧
        env'.redis.holder = some (c_str self.lock_name_) := by
    intro k env hf hh
    refine ⟨env.after (.setNxPx (c_str self.lock_name_) self.lock_ttl_) (some (.status "OK"))
      { env.redis with lock := some (c_str self.lock_name_, env.redis.now + self.lock_ttl_.toNat) },
      ?_, after_faults_nil _ _ _ _ hf, rfl, rfl, rfl, holder_after_set _ _ _ httl⟩
    unfold Lock.loop
    rw [redisCommand_ok env _ _ _ (head_ok_of_nil env hf)
      (exec_setNxPx_free _ _ _ httl hh)]
    simp only [isOK_status_OK, if_true]
  intro n
  induction n with
  | zero =>
    intro env hf hrem
    exact hfree 0 env hf (holder_none_of_remaining_zero _ (by omega))
  | succ m ih =>
    intro env hf hrem
    cases hh : env.redis.holder with
    | none => exact hfree (m + 1) env hf hh
    | some w =>
      have hstep : Lock.loop self (m + 1 + 1) env
          = Lock.loop self (m + 1)
              (sleep_for (env.after (.setNxPx (c_str self.lock_name_) self.lock_ttl_) (some .nil)
                env.redis) 500) := by
        conv_lhs => unfold Lock.loop
        rw [redisCommand_ok env _ _ _ (head_ok_of_nil env hf)
          (exec_setNxPx_held _ _ _ _ httl hh)]
        simp [isOK_nil]
      rw [hstep]
      have hrem2 : (sleep_for (env.after (.setNxPx (c_str self.lock_name_) self.lock_ttl_)
          (some .nil) env.redis) 500).redis.remaining ≤ 500 * m := by
        unfold Redis.remaining at hrem ⊢
        simp only [sleep_for, Env.after]
        cases hl : env.redis.lock with
        | none => simp
        | some p => simp only [hl] at hrem ⊢; omega
      obtain ⟨env', h1, h2, h3, h4, h5, h6⟩ :=
        ih (sleep_for (env.after (.setNxPx (c_str self.lock_name_) self.lock_ttl_) (some .nil)
          env.redis) 500)
          (after_faults_nil _ _ _ _ hf) hrem2
      exact ⟨env', h1, h2, h3, h4, h5, h6⟩

theorem enoughFuel_spec (r : Redis) : r.remaining ≤ 500 * (r.enoughFuel - 1) := by
  unfold Redis.enoughFuel
  omega

theorem Lock_honest (self : ZgwStore) (env : Env) (httl : 0 < self.lock_ttl_)
    (hflag : self.redis_error_ = false) (hf : env.faults = [])
    (fuel : Nat) (hfuel : env.redis.enoughFuel ≤ fuel) :
    ∃ env' : Env, Lock fuel self env = some (.OK, self, env') ∧
      env'.faults = [] ∧ env'.conns = env.conns ∧
      env'.redis.sets = env.redis.sets ∧ env'.redis.hashes = env.redis.hashes ∧
      env'.redis.holder = some (c_str self.lock_name_) := by
  obtain ⟨env', h1, h2⟩ := Lock_loop_honest self httl (env.redis.enoughFuel - 1) env hf
    (enoughFuel_spec _)
  refine ⟨env', ?_, h2⟩
  have hpos : env.redis.enoughFuel - 1 + 1 = env.redis.enoughFuel := by
    unfold Redis.enoughFuel; omega
  rw [hpos] at h1
  have := Lock_loop_mono self (fuel - env.redis.enoughFuel) _ _ _ h1
  rw [Nat.add_sub_cancel' hfuel] at this
  simp [Lock, MaybeHandleRedisError, hflag, this]

theorem MaybeHandleRedisError_healthy (self : ZgwStore) (env : Env)
    (hflag : self.redis_error_ = false) :
    MaybeHandleRedisError self env = (true, self, env) := by
  simp [MaybeHandleRedisError, hflag]

theorem cutNul_of_not_mem (l : List Char) (h : nul ∉ l) : cutNul l = l := by
  induction l with
  | nil => rfl
  | cons c l ih =>
    simp only [List.mem_cons, not_or] at h
    rw [cutNul, if_neg (fun e => h.1 e.symm), ih h.2]

theorem c_str_of_noNul (s : String) (h : nul ∉ s.data) : c_str s = s := by
  unfold c_str
  rw [cutNul_of_not_mem _ h]

theorem luaPlain_c_str (s : String) (h : luaPlain s) : c_str s = s :=
  c_str_of_noNul s h.2.2.2.2

theorem stripHead_append (hd rest : List Char) : stripHead hd (hd ++ rest) = some rest := by
  induction hd with
  | nil => cases rest <;> rfl
  | cons c hd ih => simp [stripHead, ih]

theorem splitQuote_append (h rest : List Char) (hq : dquote ∉ h) :
    splitQuote (h ++ dquote :: rest) = h :: splitQuote rest := by
  induction h with
  | nil => simp [splitQuote]
  | cons c h ih =>
    simp only [List.mem_cons, not_or] at hq
    rw [List.cons_append, splitQuote, if_neg (fun e => hq.1 e.symm), ih hq.2]

theorem readScript_plain (h : String) (hp : luaPlain h) :
    readScript (c_str (del_cmd h)) = .compareDel h := by
  obtain ⟨h1, h2, h3, h4, h5⟩ := hp
  have hdata : (del_cmd h).data = scriptHead.data ++ (h.data ++ scriptTail.data) := by
    simp [del_cmd, String.data_append]
  have hnul : nul ∉ (del_cmd h).data := by
    rw [hdata]
    simp only [List.mem_append, not_or]
    exact ⟨by decide, h5, by decide⟩
  rw [c_str_of_noNul _ hnul]
  unfold readScript
  rw [hdata, stripHead_append]
  simp only
  have hclean : ¬ (backslash ∈ h.data ++ scriptTail.data ∨ lf ∈ h.data ++ scriptTail.data ∨
      cr ∈ h.data ++ scriptTail.data ∨ nul ∈ h.data ++ scriptTail.data) := by
    simp only [List.mem_append, not_or]
    exact ⟨⟨h2, by decide⟩, ⟨h3, by decide⟩, ⟨h4, by decide⟩, ⟨h5, by decide⟩⟩
  rw [if_neg hclean]
  have htail : scriptTail.data = dquote :: scriptTail.data.tail := by decide
  have hsegs : splitQuote scriptTail.data.tail
      = [(" then return redis.call(").data, "del".data, ", ".data, "zgw_lock".data,
          ") else return 0 end ".data] := by decide
  have hsplit : splitQuote (h.data ++ scriptTail.data)
      = [h.data, (" then return redis.call(").data, "del".data, ", ".data, "zgw_lock".data,
          ") else return 0 end ".data] := by
    rw [htail, splitQuote_append _ _ h1, hsegs]
  rw [hsplit]
  simp only
  rw [if_pos (by decide)]

theorem UnLock_ok (self : ZgwStore) (env : Env) (hflag : self.redis_error_ = false)
    (hplain : luaPlain self.lock_name_)
    (hf : env.faults.head?.getD .ok = .ok) :
    UnLock self env
      = (.OK, self,
          if env.redis.holder = some self.lock_name_ then
            env.after (.eval (c_str (del_cmd self.lock_name_))) (some (.integer 1))
              { env.redis with lock := none }
          else env.after (.eval (c_str (del_cmd self.lock_name_))) (some (.integer 0)) env.redis) := by
  unfold UnLock
  rw [MaybeHandleRedisError_healthy self env hflag]
  simp only
  by_cases h : env.redis.holder = some self.lock_name_
  · rw [redisCommand_ok env (.eval (c_str (del_cmd self.lock_name_))) (.integer 1)
      { env.redis with lock := none } hf
      (by simp [Redis.exec, readScript_plain _ hplain, h]), if_pos h]
  · rw [redisCommand_ok env (.eval (c_str (del_cmd self.lock_name_))) (.integer 0) env.redis hf
      (by simp [Redis.exec, readScript_plain _ hplain, h]), if_neg h]

/-- C5, as stated, fails: for the identity `a"b` the script text does not compile, the
server answers with an error, `UnLock` returns OK, and the lock key is still there
although the holder stored under it is the identity of the client. -/
theorem UnLock_quoted_identity_counterexample :
    (Redis.heldBy "a\"b" 700).holder = some "a\"b" ∧
    (UnLock (ZgwStore.mk0 "a\"b" 1000) (Env.honest (Redis.heldBy "a\"b" 700))).1 = .OK ∧
    (UnLock (ZgwStore.mk0 "a\"b" 1000) (Env.honest (Redis.heldBy "a\"b" 700))).2.2.log
      = [.command (.eval (c_str (del_cmd "a\"b")))
          (some (.error "ERR Error compiling script"))] ∧
    (UnLock (ZgwStore.mk0 "a\"b" 1000)
      (Env.honest (Redis.heldBy "a\"b" 700))).2.2.redis.lock = some ("a\"b", 700) := by
  decide

/-- C5 (amended): for an identity without double quote, backslash, line break or NUL,
on a healthy connection, when the server runs the script and answers, `UnLock` returns
OK; the lock key is deleted when the holder stored under it is the identity of the
client, and is left as it was (as are the sets and the hashes) for any other holder or
no holder.  In particular, on a server that never fails and with a positive lease,
`UnLock` after a `Lock` by the same client returns OK and leaves the lock free. -/
theorem UnLock_compare_and_delete (self : ZgwStore) (env : Env)
    (hflag : self.redis_error_ = false) (hplain : luaPlain self.lock_name_)
    (hf : env.faults.head?.getD .ok = .ok) :
    (UnLock self env).1 = .OK ∧
    (env.redis.holder = some self.lock_name_ →
      (UnLock self env).2.2.redis.lock = none ∧ (UnLock self env).2.2.redis.holder = none) ∧
    (env.redis.holder ≠ some self.lock_name_ →
      (UnLock self env).2.2.redis.lock = env.redis.lock ∧
      (UnLock self env).2.2.redis.holder = env.redis.holder) ∧
    (UnLock self env).2.2.redis.sets = env.redis.sets ∧
    (UnLock self env).2.2.redis.hashes = env.redis.hashes ∧
    (env.faults = [] → 0 < self.lock_ttl_ → ∀ fuel, env.redis.enoughFuel ≤ fuel →
      ∃ self1 env1, Lock fuel self env = some (.OK, self1, env1) ∧
        env1.redis.holder = some self.lock_name_ ∧
        (UnLock self1 env1).1 = .OK ∧ (UnLock self1 env1).2.2.redis.holder = none) := by
  rw [UnLock_ok self env hflag hplain hf]
  refine ⟨rfl, ?_, ?_, ?_, ?_, ?_⟩
  · intro h
    simp only [Env.after, if_pos h]
    simp [Redis.holder]
  · intro h
    simp only [Env.after, if_neg h]
    simp [Redis.holder]
  · by_cases h : env.redis.holder = some self.lock_name_ <;> simp [Env.after, h]
  · by_cases h : env.redis.holder = some self.lock_name_ <;> simp [Env.after, h]
  · intro hnil httl fuel hfuel
    obtain ⟨env1, h1, h2, _, _, _, h6⟩ := Lock_honest self env httl hflag hnil fuel hfuel
    rw [luaPlain_c_str _ hplain] at h6
    refine ⟨self, env1, h1, h6, ?_⟩
    rw [UnLock_ok self env1 hflag hplain (head_ok_of_nil env1 h2)]
    simp only [Env.after, if_pos h6]
    simp [Redis.holder]

theorem UnLock_compare_and_delete_witness :
    (ZgwStore.mk0 "me" 1000).redis_error_ = false ∧
    luaPlain (ZgwStore.mk0 "me" 1000).lock_name_ ∧
    (UnLock (ZgwStore.mk0 "me" 1000) (Env.honest (Redis.heldBy "other" 700))).1 = .OK ∧
    (UnLock (ZgwStore.mk0 "me" 1000)
      (Env.honest (Redis.heldBy "other" 700))).2.2.redis.lock = some ("other", 700) :=
  ⟨rfl, by decide,
   (UnLock_compare_and_delete (ZgwStore.mk0 "me" 1000)
      (Env.honest (Redis.heldBy "other" 700)) rfl (by decide) rfl).1,
   ((UnLock_compare_and_delete (ZgwStore.mk0 "me" 1000)
      (Env.honest (Redis.heldBy "other" 700)) rfl (by decide) rfl).2.2.1
        (by decide)).1⟩

/-! ## ListUsers -/

theorem flatten_length (h : List (String × String)) : (flatten h).length = 2 * h.length := by
  induction h with
  | nil => rfl
  | cons p h ih => obtain ⟨f, v⟩ := p; simp [flatten, ih]; omega

theorem flatten_eq_nil (h : List (String × String)) : flatten h = [] ↔ h = [] := by
  cases h with
  | nil => simp [flatten]
  | cons p h => obtain ⟨f, v⟩ := p; simp [flatten]

theorem ListUsers_loop_step_honest (order : ArgOrder) (P : String) (self : ZgwStore) (n : String)
    (rest : List String) (users : List User) (env : Env)
    (hf : env.faults.head?.getD .ok = .ok) :
    ListUsers.loop order P self (n :: rest) users env
      = ListUsers.loop order P self rest (users ++ listedUsers order P env.redis [n])
          (env.after (.hgetall (P ++ c_str n))
            (some (.array (flatten (env.redis.hashes (P ++ c_str n))))) env.redis) := by
  conv_lhs => unfold ListUsers.loop
  rw [redisCommand_ok env (.hgetall (P ++ c_str n)) (.array (flatten (env.redis.hashes (P ++ c_str n))))
    env.redis hf rfl]
  simp only [Reply.elems, flatten_length]
  by_cases h : env.redis.hashes (P ++ c_str n) = []
  · simp [h, listedUsers]
  · have hlen : ¬ 2 * (env.redis.hashes (P ++ c_str n)).length = 0 := by
      have := List.length_pos.2 h
      omega
    rw [if_neg hlen, if_neg (by omega)]
    simp [listedUsers, h]

theorem listedUsers_cons (order : ArgOrder) (P : String) (r : Redis) (n : String) (ns : List String) :
    listedUsers order P r (n :: ns) = listedUsers order P r [n] ++ listedUsers order P r ns := by
  unfold listedUsers
  by_cases h : r.hashes (P ++ c_str n) = [] <;> simp [List.filter_cons, h]

theorem ListUsers_loop_honest_run (order : ArgOrder) (P : String) (self : ZgwStore) :
    ∀ (pre rest : List String) (users : List User) (env : Env) (fs : List Fault),
      env.faults = List.replicate pre.length .ok ++ fs →
      ∃ env' : Env, ListUsers.loop order P self (pre ++ rest) users env
          = ListUsers.loop order P self rest (users ++ listedUsers order P env.redis pre) env' ∧
        env'.faults = fs ∧ env'.redis = env.redis ∧ env'.conns = env.conns := by
  intro pre
  induction pre with
  | nil =>
    intro rest users env fs hf
    exact ⟨env, by simp [listedUsers], by simpa using hf, rfl, rfl⟩
  | cons n pre ih =>
    intro rest users env fs hf
    have hhead : env.faults.head?.getD .ok = .ok := by
      rw [hf]; simp [List.replicate_succ]
    have htail : (env.after (.hgetall (P ++ c_str n))
            (some (.array (flatten (env.redis.hashes (P ++ c_str n))))) env.redis).faults
        = List.replicate pre.length .ok ++ fs := by
      simp [Env.after, hf, List.replicate_succ]
    obtain ⟨env', h1, h2, h3, h4⟩ := ih rest (users ++ listedUsers order P env.redis [n])
      (env.after (.hgetall (P ++ c_str n))
            (some (.array (flatten (env.redis.hashes (P ++ c_str n))))) env.redis) fs htail
    refine ⟨env', ?_, h2, h3, h4⟩
    rw [List.cons_append, ListUsers_loop_step_honest order P self n _ users env hhead, h1,
      listedUsers_cons order P env.redis n pre, List.append_assoc]
    rfl

theorem redisCommand_answer (env : Env) (c : Cmd) (rep rep0 : Reply) (r : Redis)
    (rest : List Fault) (hf : env.faults = .answer rep :: rest)
    (hx : env.redis.exec c = some (rep0, r)) :
    redisCommand env c = (some rep, env.after c (some rep) env.redis) := by
  simp [redisCommand, hx, hf, Env.after]

/-- C3, as stated, fails: with members `a` and `b`, a well-formed record for `a` and a
reply of one token for `b`, `ListUsers` returns a Corruption status and the output
sequence still holds the user built for `a` (the record of `a` has the fields `uid` and
`name` only, so the order in which the arguments of a pair are evaluated plays no
part). -/
theorem ListUsers_partial_results_counterexample :
    (ListUsers .rightToLeft "user_" "list" (ZgwStore.mk0 "me" 1000)
      ⟨Redis.sample, [.ok, .ok, .answer (.array ["uid"])], [], []⟩).1
        = .Corruption "ListUser::HGETALL: elements % 2 != 0" ∧
    (ListUsers .rightToLeft "user_" "list" (ZgwStore.mk0 "me" 1000)
      ⟨Redis.sample, [.ok, .ok, .answer (.array ["uid"])], [], []⟩).2.1
        = [⟨"1", "a", []⟩] ∧
    ¬ (ListUsers .rightToLeft "user_" "list" (ZgwStore.mk0 "me" 1000)
      ⟨Redis.sample, [.ok, .ok, .answer (.array ["uid"])], [], []⟩).2.1 = [] := by
  decide

/-- C3 (amended): on a healthy connection, when the members listed before a member are
answered honestly and that member's `HGETALL` reply has an odd number of tokens,
`ListUsers` returns a Corruption status and the output sequence holds the users built
from the records of the members listed before it (it is not emptied). -/
theorem ListUsers_odd_record (order : ArgOrder) (P L : String) (self : ZgwStore) (env : Env)
    (pre post : List String) (m : String) (toks : List String) (rest : List Fault)
    (hflag : self.redis_error_ = false)
    (hset : env.redis.sets L = pre ++ m :: post)
    (hfaults : env.faults = List.replicate (pre.length + 1) .ok ++ .answer (.array toks) :: rest)
    (hodd : toks.length % 2 = 1) :
    (ListUsers order P L self env).1 = .Corruption "ListUser::HGETALL: elements % 2 != 0" ∧
    (ListUsers order P L self env).2.1 = listedUsers order P env.redis pre := by
  have hhead : env.faults.head?.getD .ok = .ok := by
    rw [hfaults]; simp [List.replicate_succ]
  have htail : (env.after (.smembers L) (some (.array (env.redis.sets L))) env.redis).faults
      = List.replicate pre.length .ok ++ .answer (.array toks) :: rest := by
    simp [Env.after, hfaults, List.replicate_succ]
  obtain ⟨env', h1, h2, h3, _⟩ := ListUsers_loop_honest_run order P self pre (m :: post) []
    (env.after (.smembers L) (some (.array (env.redis.sets L))) env.redis) _ htail
  have hne : ¬ (pre ++ m :: post).length = 0 := by simp
  have hlen0 : ¬ toks.length = 0 := by omega
  have hlen1 : toks.length % 2 ≠ 0 := by omega
  have hloop : ∀ users : List User, ListUsers.loop order P self (m :: post) users env'
      = (.Corruption "ListUser::HGETALL: elements % 2 != 0", users,
          self, env'.after (.hgetall (P ++ c_str m)) (some (.array toks)) env'.redis) := by
    intro users
    conv_lhs => unfold ListUsers.loop
    rw [redisCommand_answer env' (.hgetall (P ++ c_str m)) (.array toks) _ _ rest h2 rfl]
    simp only [Reply.elems, if_neg hlen0, if_pos hlen1, HandleLogicError]
    simp
  unfold ListUsers
  rw [MaybeHandleRedisError_healthy self env hflag]
  simp only
  rw [redisCommand_ok env (.smembers L) (.array (env.redis.sets L)) env.redis hhead rfl]
  simp only [Reply.elems, hset, if_neg hne]
  rw [hset] at h1
  rw [h1, hloop]
  exact ⟨rfl, rfl⟩

theorem ListUsers_odd_record_witness :
    (ZgwStore.mk0 "me" 1000).redis_error_ = false ∧
    Redis.sample.sets "list" = ["a"] ++ "b" :: [] ∧
    ["uid"].length % 2 = 1 ∧
    (ListUsers .rightToLeft "user_" "list" (ZgwStore.mk0 "me" 1000)
      ⟨Redis.sample, [.ok, .ok, .answer (.array ["uid"])], [], []⟩).2.1
        = listedUsers .rightToLeft "user_" Redis.sample ["a"] :=
  ⟨rfl, by decide, by decide,
   (ListUsers_odd_record .rightToLeft "user_" "list" (ZgwStore.mk0 "me" 1000)
      ⟨Redis.sample, [.ok, .ok, .answer (.array ["uid"])], [], []⟩ ["a"] [] "b" ["uid"] []
      rfl (by decide) (by decide) (by decide)).2⟩

/-- C9 (the code departs from it): three call sites do not look for an error reply.
An error reply to `DEL` inside `AddUser` is dropped and `AddUser` returns OK; an error
reply to `EVAL` makes `UnLock` return OK; an error reply to `SET` makes `Lock` sleep and
send the `SET` again, and it returns OK when the second one succeeds. -/
theorem error_reply_not_classified :
    (AddUser "user_" "list" 2 ⟨"1", "a", []⟩ (ZgwStore.mk0 "me" 1000)
      ⟨Redis.init, [.ok, .ok, .answer (.error "ERR")], [], []⟩).map (fun x => x.1)
        = some .OK ∧
    (UnLock (ZgwStore.mk0 "me" 1000) ⟨Redis.init, [.answer (.error "ERR")], [], []⟩).1
        = .OK ∧
    (Lock 2 (ZgwStore.mk0 "me" 1000)
      ⟨Redis.init, [.answer (.error "ERR")], [], []⟩).map (fun x => (x.1, x.2.2.log))
        = some (.OK, [.command (.setNxPx "me" 1000) (some (.error "ERR")),
            .command (.setNxPx "me" 1000) (some (.status "OK"))]) := by
  decide

/-! ## AddUser on an honest server -/

theorem AddUser_of_Lock_ok (P L : String) (fuel : Nat) (u : User) (self : ZgwStore)
    (env env2 : Env) (hflag : self.redis_error_ = false)
    (hlock : Lock fuel self env = some (.OK, self, env2)) :
    AddUser P L fuel u self env = some (AddUser.locked P L u self env2) := by
  unfold AddUser
  rw [MaybeHandleRedisError_healthy self env hflag]
  simp only [hlock]
  rfl

theorem AddUser_locked_duplicate (P L : String) (u : User) (self : ZgwStore) (env : Env)
    (hflag : self.redis_error_ = false) (hplain : luaPlain self.lock_name_)
    (hf : env.faults = [])
    (hmem : c_str u.display_name ∈ env.redis.sets L)
    (hheld : env.redis.holder = some self.lock_name_) :
    AddUser.locked P L u self env
      = (.Corruption "User Already Exist, UnLock ret: OK", self,
          (env.after (.sadd L (c_str u.display_name)) (some (.integer 0)) env.redis).after
            (.eval (c_str (del_cmd self.lock_name_))) (some (.integer 1))
            { env.redis with lock := none }) := by
  unfold AddUser.locked
  rw [redisCommand_ok env (.sadd L (c_str u.display_name)) (.integer 0) env.redis
    (head_ok_of_nil env hf) (by simp [Redis.exec, hmem])]
  simp only [Reply.integerVal, if_true, HandleLogicError]
  rw [UnLock_ok self _ hflag hplain (head_ok_of_nil _ (after_faults_nil _ _ _ _ hf))]
  have h2 : (env.after (.sadd L (c_str u.display_name)) (some (.integer 0))
      env.redis).redis.holder = some self.lock_name_ := hheld
  rw [if_pos h2]
  rfl

theorem Lock_loop_no_lease (self : ZgwStore) (httl : self.lock_ttl_ ≤ 0) :
    ∀ (fuel : Nat) (env : Env), env.faults = [] → Lock.loop self fuel env = none := by
  intro fuel
  induction fuel with
  | zero => intro env _; rfl
  | succ n ih =>
    intro env hf
    unfold Lock.loop
    rw [redisCommand_ok env (.setNxPx (c_str self.lock_name_) self.lock_ttl_)
      (.error "ERR invalid expire time in set") env.redis (head_ok_of_nil env hf)
      (by simp [Redis.exec, httl])]
    simp only
    rw [if_neg (by decide)]
    exact ih _ (by simp [sleep_for, Env.after, hf])

/-- C2, as stated, fails: three calls of `AddUser` for a `display_name` that is
already a member, each on a healthy connection and a server that never fails.  With the
identity `a"b` the script of `UnLock` does not compile: the call returns the Corruption
status, and the lock is still held by the client.  With the `display_name` `a`, U+0000,
`b` the `SADD` carries the name `a`, which is no member: the name `a` is added to the
membership set, the record at `user_a` is deleted, and the `HMSET`, cut after the key, is
refused.  With a lease of 0 the `SET` is refused in every round, and the call does not
return. -/
theorem AddUser_duplicate_counterexample :
    "a" ∈ Redis.sample.sets "list" ∧
    (AddUser "user_" "list" 2 ⟨"9", "a", []⟩ (ZgwStore.mk0 "a\"b" 1000)
      (Env.honest Redis.sample)).map (fun x => (x.1, x.2.2.redis.holder))
        = some (.Corruption "User Already Exist, UnLock ret: OK", some "a\"b") ∧
    nulName ∈ Redis.nulSample.sets "list" ∧
    (AddUser "user_" "list" 2 ⟨"9", nulName, []⟩ (ZgwStore.mk0 "me" 1000)
      (Env.honest Redis.nulSample)).map
        (fun x => (x.1.IsCorruption, x.2.2.redis.sets "list", x.2.2.redis.hashes "user_a"))
        = some (true, [nulName, "a"], []) ∧
    (∀ fuel : Nat, AddUser "user_" "list" fuel ⟨"9", "a", []⟩ (ZgwStore.mk0 "me" 0)
      (Env.honest Redis.sample) = none) := by
  refine ⟨by decide, by decide, by decide, by decide, ?_⟩
  intro fuel
  have h := Lock_loop_no_lease ⟨"127.0.0.1", 6379, "me", 0, false⟩ (by decide) fuel
    (Env.honest Redis.sample) rfl
  simp [AddUser, Lock, MaybeHandleRedisError, ZgwStore.mk0, h]

/-- C2 (amended): when `display_name`, which holds no U+0000, is already a member of the
membership set, the identity of the client holds no double quote, backslash, line break
or U+0000 and the lease is positive, `AddUser` on a healthy connection and a server that
never fails returns the Corruption status `User Already Exist`, leaves every set and
every hash as it was, and has released the lock when it returns: its last call is the
`EVAL` that deleted the lock key, and the key has no holder afterwards. -/
theorem AddUser_duplicate (P L : String) (u : User) (self : ZgwStore) (env : Env)
    (hflag : self.redis_error_ = false) (hf : env.faults = [])
    (httl : 0 < self.lock_ttl_)
    (hplain : luaPlain self.lock_name_)
    (hnul : nul ∉ u.display_name.data)
    (hmem : u.display_name ∈ env.redis.sets L)
    (fuel : Nat) (hfuel : env.redis.enoughFuel ≤ fuel) :
    ∃ (s : Status) (self1 : ZgwStore) (env1 : Env),
      AddUser P L fuel u self env = some (s, self1, env1) ∧
      s.IsCorruption = true ∧
      s = .Corruption "User Already Exist, UnLock ret: OK" ∧
      env1.redis.sets = env.redis.sets ∧
      env1.redis.hashes = env.redis.hashes ∧
      env1.log.getLast?
        = some (.command (.eval (c_str (del_cmd self.lock_name_))) (some (.integer 1))) ∧
      env1.redis.lock = none ∧
      env1.redis.holder = none := by
  obtain ⟨env2, h1, h2, _, h4, h5, h6⟩ := Lock_honest self env httl hflag hf fuel hfuel
  rw [luaPlain_c_str _ hplain] at h6
  rw [AddUser_of_Lock_ok P L fuel u self env env2 hflag h1,
    AddUser_locked_duplicate P L u self env2 hflag hplain h2
      (by rw [h4, c_str_of_noNul _ hnul]; exact hmem) h6]
  refine ⟨_, _, _, rfl, rfl, rfl, h4, h5, ?_, rfl, rfl⟩
  simp [Env.after]

theorem AddUser_duplicate_witness :
    ∃ (s : Status) (self1 : ZgwStore) (env1 : Env),
      AddUser "user_" "list" 2 ⟨"9", "a", []⟩ (ZgwStore.mk0 "me" 1000)
        (Env.honest Redis.sample) = some (s, self1, env1) ∧
      s.IsCorruption = true ∧
      s = .Corruption "User Already Exist, UnLock ret: OK" ∧
      env1.redis.sets = Redis.sample.sets ∧
      env1.redis.hashes = Redis.sample.hashes ∧
      env1.log.getLast?
        = some (.command (.eval (c_str (del_cmd "me"))) (some (.integer 1))) ∧
      env1.redis.lock = none ∧
      env1.redis.holder = none :=
  AddUser_duplicate "user_" "list" ⟨"9", "a", []⟩ (ZgwStore.mk0 "me" 1000)
    (Env.honest Redis.sample) rfl rfl (by decide) (by decide) (by decide) (by decide) 2
    (by decide)

/-! ## The text of HMSET and its arguments -/

theorem splitArgs_append_of_no_blank (t : List Char) (ht : ' ' ∉ t) :
    ∀ (rest cur : List Char), splitArgs (t ++ rest) cur = splitArgs rest (cur ++ t) := by
  induction t with
  | nil => intro rest cur; simp
  | cons c t ih =>
    intro rest cur
    have hc : c ≠ ' ' := fun h => ht (by simp [h])
    have ht2 : ' ' ∉ t := fun h => ht (List.mem_cons_of_mem _ h)
    rw [List.cons_append, splitArgs, if_neg hc, ih ht2]
    simp

theorem splitArgs_blank (rest cur : List Char) (hcur : cur ≠ []) :
    splitArgs (' ' :: rest) cur = cur :: splitArgs rest [] := by
  rw [splitArgs, if_pos rfl, if_neg hcur]

theorem splitArgs_spaced (ts : List String)
    (hts : ∀ t ∈ ts, t.data ≠ [] ∧ ' ' ∉ t.data) :
    ∀ cur : List Char, cur ≠ [] →
      splitArgs (spaced ts) cur = cur :: ts.map (fun t => t.data) := by
  induction ts with
  | nil => intro cur hcur; simp [spaced, splitArgs, hcur]
  | cons t ts ih =>
    intro cur hcur
    have h1 := hts t (List.mem_cons_self _ _)
    rw [spaced, splitArgs_blank _ _ hcur, splitArgs_append_of_no_blank _ h1.2,
      List.nil_append, ih (fun x hx => hts x (List.mem_cons_of_mem _ hx)) _ h1.1]
    rfl

theorem not_mem_spaced (c : Char) (hc : c ≠ ' ') (ts : List String)
    (hts : ∀ t ∈ ts, c ∉ t.data) : c ∉ spaced ts := by
  induction ts with
  | nil => simp [spaced]
  | cons t ts ih =>
    simp only [spaced, List.mem_cons, List.mem_append, not_or]
    exact ⟨hc, hts t (List.mem_cons_self _ _),
      ih (fun x hx => hts x (List.mem_cons_of_mem _ hx))⟩

theorem foldl_pairs_data (kp : KeyPairs) :
    ∀ s : String,
      (kp.foldl (fun acc iter => acc ++ (" " ++ iter.1 ++ " " ++ iter.2)) s).data
        = s.data ++ spaced (flatten kp) := by
  induction kp with
  | nil => intro s; simp [flatten, spaced]
  | cons p kp ih =>
    intro s
    obtain ⟨k, v⟩ := p
    rw [List.foldl_cons, ih]
    simp [flatten, spaced, String.data_append]

theorem add_cmd_data (P : String) (u : User) :
    (add_cmd P u).data
      = "HMSET".data ++ spaced ((P ++ u.display_name) :: "uid" :: u.user_id :: "name"
          :: u.display_name :: flatten u.key_pairs) := by
  unfold add_cmd
  rw [foldl_pairs_data]
  simp [spaced, String.data_append]

theorem map_mk_data (l : List String) :
    (l.map (fun t => t.data)).map String.mk = l := by
  induction l with
  | nil => rfl
  | cons t l ih => rw [List.map_cons, List.map_cons, ih]

theorem isToken_flatten (kp : KeyPairs) (hkp : ∀ e ∈ kp, isToken e.1 ∧ isToken e.2) :
    ∀ t ∈ flatten kp, isToken t := by
  induction kp with
  | nil => intro t ht; simp [flatten] at ht
  | cons p kp ih =>
    intro t ht
    obtain ⟨k, v⟩ := p
    simp only [flatten, List.mem_cons] at ht
    rcases ht with h | h | h
    · rw [h]; exact (hkp (k, v) (List.mem_cons_self _ _)).1
    · rw [h]; exact (hkp (k, v) (List.mem_cons_self _ _)).2
    · exact ih (fun e he => hkp e (List.mem_cons_of_mem _ he)) t h

theorem formatCommand_add_cmd (P : String) (u : User)
    (hkey : isToken (P ++ u.display_name)) (hid : isToken u.user_id)
    (hname : isToken u.display_name)
    (hkp : ∀ e ∈ u.key_pairs, isToken e.1 ∧ isToken e.2) :
    formatCommand (add_cmd P u)
      = some ("HMSET" :: (P ++ u.display_name) :: "uid" :: u.user_id :: "name"
          :: u.display_name :: flatten u.key_pairs) := by
  have hflat := isToken_flatten u.key_pairs hkp
  have hall : ∀ t ∈ (P ++ u.display_name) :: "uid" :: u.user_id :: "name"
      :: u.display_name :: flatten u.key_pairs, isToken t := by
    intro t ht
    simp only [List.mem_cons] at ht
    rcases ht with h | h | h | h | h | h
    · subst h; exact hkey
    · subst h; decide
    · subst h; exact hid
    · subst h; decide
    · subst h; exact hname
    · exact hflat t h
  unfold formatCommand
  rw [add_cmd_data]
  have hpc : '%' ∉ "HMSET".data ++ spaced ((P ++ u.display_name) :: "uid" :: u.user_id
      :: "name" :: u.display_name :: flatten u.key_pairs) := by
    rw [List.mem_append, not_or]
    exact ⟨by decide, not_mem_spaced '%' (by decide) _ (fun t ht => (hall t ht).2.2)⟩
  rw [if_neg hpc, splitArgs_append_of_no_blank _ (by decide), List.nil_append,
    splitArgs_spaced _ (fun t ht => ⟨(hall t ht).1, (hall t ht).2.1⟩) _ (by decide)]
  rw [List.map_cons, map_mk_data]

theorem pairUp_flatten (kp : List (String × String)) : pairUp (flatten kp) = kp := by
  induction kp with
  | nil => rfl
  | cons p kp ih => obtain ⟨k, v⟩ := p; simp [flatten, pairUp, ih]

theorem execArgs_hmset (r : Redis) (key : String) (fvs : List (String × String))
    (hne : fvs ≠ []) :
    r.execArgs ("HMSET" :: key :: flatten fvs)
      = (.status "OK", { r with hashes := upd r.hashes key (hmset (r.hashes key) fvs) }) := by
  have h1 : flatten fvs ≠ [] := fun h => hne ((flatten_eq_nil fvs).1 h)
  have h2 : (flatten fvs).length % 2 = 0 := by rw [flatten_length]; omega
  unfold Redis.execArgs
  simp [h1, h2, pairUp_flatten]

theorem hset_fresh (h : List (String × String)) (f v : String)
    (hf : f ∉ h.map Prod.fst) : hset h f v = h ++ [(f, v)] := by
  induction h with
  | nil => rfl
  | cons p h ih =>
    obtain ⟨g, w⟩ := p
    simp only [List.map_cons, List.mem_cons, not_or] at hf
    have hg : ¬ g = f := fun e => hf.1 e.symm
    rw [hset, if_neg hg, ih hf.2]
    rfl

theorem hmset_fresh (fvs : List (String × String)) :
    ∀ h : List (String × String), (fvs.map Prod.fst).Nodup →
      (∀ e ∈ fvs, e.1 ∉ h.map Prod.fst) → hmset h fvs = h ++ fvs := by
  induction fvs with
  | nil => intro h _ _; simp [hmset]
  | cons p fvs ih =>
    intro h hnd hdis
    obtain ⟨f, v⟩ := p
    simp only [List.map_cons, List.nodup_cons] at hnd
    have h1 : hset h f v = h ++ [(f, v)] := hset_fresh h f v (hdis (f, v) (List.mem_cons_self _ _))
    have := ih (h ++ [(f, v)]) hnd.2 (by
      intro e he
      simp only [List.map_append, List.map_cons, List.map_nil, List.mem_append,
        List.mem_singleton, not_or]
      refine ⟨hdis e (List.mem_cons_of_mem _ he), ?_⟩
      intro heq
      exact hnd.1 (heq ▸ List.mem_map_of_mem Prod.fst he))
    unfold hmset at this ⊢
    rw [List.foldl_cons, h1, this]
    simp

theorem insert_fresh (m : KeyPairs) (k v : String) (hk : k ∉ m.map Prod.fst) :
    KeyPairs.insert m k v = m ++ [(k, v)] := by
  unfold KeyPairs.insert
  rw [if_neg]
  simp only [List.any_eq_true, beq_iff_eq, not_exists, not_and]
  intro e he heq
  exact hk (heq ▸ List.mem_map_of_mem Prod.fst he)

theorem foldl_step_fresh (kp : List (String × String)) :
    ∀ u0 : User, (kp.map Prod.fst).Nodup →
      (∀ e ∈ kp, e.1 ≠ "uid" ∧ e.1 ≠ "name" ∧ e.1 ∉ u0.key_pairs.map Prod.fst) →
      kp.foldl (GenUserFromReply.step .leftToRight) u0
        = { u0 with key_pairs := u0.key_pairs ++ kp } := by
  induction kp with
  | nil => intro u0 _ _; simp
  | cons p kp ih =>
    intro u0 hnd hdis
    obtain ⟨k, v⟩ := p
    simp only [List.map_cons, List.nodup_cons] at hnd
    obtain ⟨h1, h2, h3⟩ := hdis (k, v) (List.mem_cons_self _ _)
    have hstep : GenUserFromReply.step .leftToRight u0 (k, v)
        = { u0 with key_pairs := u0.key_pairs ++ [(k, v)] } := by
      unfold GenUserFromReply.step
      simp only [if_neg h1, if_neg h2, insert_fresh _ _ _ h3]
    rw [List.foldl_cons, hstep, ih _ hnd.2]
    · simp
    · intro e he
      obtain ⟨g1, g2, g3⟩ := hdis e (List.mem_cons_of_mem _ he)
      refine ⟨g1, g2, ?_⟩
      simp only [List.map_append, List.map_cons, List.map_nil, List.mem_append,
        List.mem_singleton, not_or]
      exact ⟨g3, fun heq => hnd.1 (heq ▸ List.mem_map_of_mem Prod.fst he)⟩

theorem foldl_step_ids (order : ArgOrder) (kp : List (String × String)) :
    ∀ u0 : User, (∀ e ∈ kp, e.1 ≠ "uid" ∧ e.1 ≠ "name") →
      (kp.foldl (GenUserFromReply.step order) u0).user_id = u0.user_id ∧
      (kp.foldl (GenUserFromReply.step order) u0).display_name = u0.display_name := by
  induction kp with
  | nil => intro u0 _; exact ⟨rfl, rfl⟩
  | cons p kp ih =>
    intro u0 hdis
    obtain ⟨h1, h2⟩ := hdis p (List.mem_cons_self _ _)
    obtain ⟨g1, g2⟩ := ih (GenUserFromReply.step order u0 p)
      (fun e he => hdis e (List.mem_cons_of_mem _ he))
    rw [List.foldl_cons, g1, g2]
    unfold GenUserFromReply.step
    rw [if_neg h1, if_neg h2]
    cases order <;> exact ⟨rfl, rfl⟩

theorem map_c_str_of_noNul (l : List String) (h : ∀ t ∈ l, nul ∉ t.data) :
    l.map c_str = l := by
  induction l with
  | nil => rfl
  | cons t l ih =>
    rw [List.map_cons, c_str_of_noNul t (h t (List.mem_cons_self _ _)),
      ih (fun x hx => h x (List.mem_cons_of_mem _ hx))]

theorem noNul_flatten (kp : KeyPairs)
    (hkp : ∀ e ∈ kp, nul ∉ e.1.data ∧ nul ∉ e.2.data) :
    ∀ t ∈ flatten kp, nul ∉ t.data := by
  induction kp with
  | nil => intro t ht; simp [flatten] at ht
  | cons p kp ih =>
    intro t ht
    obtain ⟨k, v⟩ := p
    simp only [flatten, List.mem_cons] at ht
    rcases ht with h | h | h
    · rw [h]; exact (hkp (k, v) (List.mem_cons_self _ _)).1
    · rw [h]; exact (hkp (k, v) (List.mem_cons_self _ _)).2
    · exact ih (fun e he => hkp e (List.mem_cons_of_mem _ he)) t h

theorem noNul_record (P : String) (u : User) (ht : u.tokens P) :
    ∀ t ∈ flatten u.record, nul ∉ t.data := by
  intro t hmem
  simp only [User.record, flatten, List.mem_cons] at hmem
  rcases hmem with h | h | h | h | h
  · subst h; decide
  · subst h; exact ht.2.1.2
  · subst h; decide
  · subst h; exact ht.2.2.1.2
  · exact noNul_flatten u.key_pairs
      (fun e he => ⟨(ht.2.2.2 e he).1.2, (ht.2.2.2 e he).2.2⟩) t h

theorem c_str_add_cmd (P : String) (u : User) (ht : u.tokens P) :
    c_str (add_cmd P u) = add_cmd P u := by
  apply c_str_of_noNul
  rw [add_cmd_data, List.mem_append, not_or]
  refine ⟨by decide, not_mem_spaced nul (by decide) _ ?_⟩
  intro t hmem
  rw [List.mem_cons] at hmem
  rcases hmem with h | h
  · subst h; exact ht.1.2
  · exact noNul_record P u ht t h

theorem GenUserFromReply_record (order : ArgOrder) (P : String) (u : User)
    (ht : u.tokens P) (hu : u.plainKeys) :
    (GenUserFromReply order (flatten u.record)).user_id = u.user_id ∧
    (GenUserFromReply order (flatten u.record)).display_name = u.display_name ∧
    (order = .leftToRight → GenUserFromReply order (flatten u.record) = u) := by
  have hev : (flatten u.record).length % 2 = 0 := by rw [flatten_length]; omega
  have := GenUserFromReply_loop_user order (flatten u.record) hev (flatten u.record).length 0
    ⟨User.empty, [], []⟩ rfl (by omega)
  unfold GenUserFromReply GenUserFromReply.traced
  rw [this, List.drop_zero, map_c_str_of_noNul _ (noNul_record P u ht), pairUp_flatten]
  have h1 : GenUserFromReply.step order User.empty ("uid", u.user_id)
      = ⟨u.user_id, "", []⟩ := by
    simp [GenUserFromReply.step, User.empty]
  have hne : ¬ ("name" : String) = "uid" := by decide
  have h2 : GenUserFromReply.step order ⟨u.user_id, "", []⟩ ("name", u.display_name)
      = ⟨u.user_id, u.display_name, []⟩ := by
    simp [GenUserFromReply.step, hne]
  simp only [User.record, List.foldl_cons, h1, h2]
  obtain ⟨g1, g2⟩ := foldl_step_ids order u.key_pairs ⟨u.user_id, u.display_name, []⟩ hu.2
  refine ⟨g1, g2, ?_⟩
  intro ho
  subst ho
  rw [foldl_step_fresh _ _ hu.1 (fun e he => ⟨(hu.2 e he).1, (hu.2 e he).2, by simp⟩)]
  simp

theorem holder_congr (r1 r2 : Redis) (hl : r1.lock = r2.lock) (hn : r1.now = r2.now) :
    r1.holder = r2.holder := by
  unfold Redis.holder
  rw [hl, hn]

theorem upd_same {β : Type} (f : String → β) (k : String) (v : β) : upd f k v k = v := by
  simp [upd]

theorem upd_other {β : Type} (f : String → β) (k k2 : String) (v : β) (h : k2 ≠ k) :
    upd f k v k2 = f k2 := by
  simp [upd, h]

theorem upd_upd {β : Type} (f : String → β) (k : String) (v w : β) :
    upd (upd f k v) k w = upd f k w := by
  funext x
  by_cases h : x = k <;> simp [upd, h]

theorem exec_del (r : Redis) (key : String) :
    ∃ (rep : Reply) (r2 : Redis), r.exec (.del key) = some (rep, r2) ∧
      r2.hashes = upd r.hashes key [] ∧ r2.sets = r.sets ∧ r2.lock = r.lock ∧
      r2.now = r.now := by
  by_cases h : r.hashes key = []
  · refine ⟨.integer 0, r, by simp [Redis.exec, h], ?_, rfl, rfl, rfl⟩
    funext x
    by_cases hx : x = key
    · subst hx; simp [upd, h]
    · simp [upd, hx]
  · exact ⟨.integer 1, { r with hashes := upd r.hashes key [] }, by simp [Redis.exec, h],
      rfl, rfl, rfl, rfl⟩

theorem record_keys_fresh (u : User) (hu : u.plainKeys) :
    hmset [] u.record = u.record := by
  rw [hmset_fresh u.record [] ?_ (by simp), List.nil_append]
  simp only [User.record, List.map_cons, List.nodup_cons, List.mem_cons, List.mem_map,
    not_or, not_exists, not_and]
  refine ⟨⟨by decide, ?_⟩, ?_, hu.1⟩
  · intro e he h; exact (hu.2 e he).1 h
  · intro e he h; exact (hu.2 e he).2 h

theorem exec_add_cmd (r : Redis) (P : String) (u : User)
    (hkey : isToken (P ++ u.display_name)) (hid : isToken u.user_id)
    (hname : isToken u.display_name)
    (hkp : ∀ e ∈ u.key_pairs, isToken e.1 ∧ isToken e.2) :
    r.exec (.text (add_cmd P u))
      = some (.status "OK", { r with hashes := (upd r.hashes (P ++ u.display_name)
          (hmset (r.hashes (P ++ u.display_name)) u.record)) }) := by
  have h := execArgs_hmset r (P ++ u.display_name) u.record (by simp [User.record])
  simp only [Redis.exec, formatCommand_add_cmd P u hkey hid hname hkp]
  exact congrArg some h

theorem AddUser_locked_fresh (P L : String) (u : User) (self : ZgwStore) (env : Env)
    (hflag : self.redis_error_ = false) (hplain : luaPlain self.lock_name_)
    (hf : env.faults = [])
    (hnew : u.display_name ∉ env.redis.sets L)
    (hheld : env.redis.holder = some self.lock_name_)
    (htok : u.tokens P)
    (hu : u.plainKeys) :
    ∃ env' : Env, AddUser.locked P L u self env = (.OK, self, env') ∧
      env'.faults = [] ∧ env'.conns = env.conns ∧
      env'.redis.sets = upd env.redis.sets L (env.redis.sets L ++ [u.display_name]) ∧
      env'.redis.hashes = upd env.redis.hashes (P ++ u.display_name) u.record ∧
      env'.redis.lock = none := by
  -- SADD
  have e1 := redisCommand_ok env (.sadd L u.display_name) (.integer 1)
    { env.redis with sets := upd env.redis.sets L (env.redis.sets L ++ [u.display_name]) }
    (head_ok_of_nil env hf) (by simp [Redis.exec, hnew])
  generalize he1 : env.after (.sadd L u.display_name) (some (.integer 1))
    { env.redis with sets := upd env.redis.sets L (env.redis.sets L ++ [u.display_name]) }
    = env1 at e1
  have f1 : env1.faults = [] := by rw [← he1]; exact after_faults_nil _ _ _ _ hf
  have h1h : env1.redis.hashes = env.redis.hashes := by subst he1; rfl
  have h1s : env1.redis.sets
      = upd env.redis.sets L (env.redis.sets L ++ [u.display_name]) := by subst he1; rfl
  have h1l : env1.redis.lock = env.redis.lock := by subst he1; rfl
  have h1n : env1.redis.now = env.redis.now := by subst he1; rfl
  have h1c : env1.conns = env.conns := by subst he1; rfl
  -- DEL
  obtain ⟨rep2, r2, x2, hh2, hs2, hl2, hn2⟩ := exec_del env1.redis (P ++ u.display_name)
  have e2 := redisCommand_ok env1 (.del (P ++ u.display_name)) rep2 r2
    (head_ok_of_nil env1 f1) x2
  generalize he2 : env1.after (.del (P ++ u.display_name)) (some rep2) r2 = env2 at e2
  have f2 : env2.faults = [] := by rw [← he2]; exact after_faults_nil _ _ _ _ f1
  have hr2 : env2.redis = r2 := by rw [← he2]; rfl
  -- HMSET
  have e3 := redisCommand_ok env2 (.text (add_cmd P u)) _ _ (head_ok_of_nil env2 f2)
    (exec_add_cmd env2.redis P u htok.1.1 htok.2.1.1 htok.2.2.1.1
      (fun e he => ⟨(htok.2.2.2 e he).1.1, (htok.2.2.2 e he).2.1⟩))
  generalize he3 : env2.after (.text (add_cmd P u)) (some (.status "OK"))
    { env2.redis with hashes := (upd env2.redis.hashes (P ++ u.display_name)
      (hmset (env2.redis.hashes (P ++ u.display_name)) u.record)) } = env3 at e3
  have f3 : env3.faults = [] := by rw [← he3]; exact after_faults_nil _ _ _ _ f2
  have hh3 : env3.redis.hashes = upd env.redis.hashes (P ++ u.display_name) u.record := by
    rw [← he3]
    simp only [Env.after, hr2, hh2, upd_same, record_keys_fresh u hu, upd_upd, h1h]
  have hs3 : env3.redis.sets
      = upd env.redis.sets L (env.redis.sets L ++ [u.display_name]) := by
    rw [← he3]
    simp only [Env.after, hr2, hs2, h1s]
  have hd3 : env3.redis.holder = some self.lock_name_ := by
    rw [← hheld]
    apply holder_congr
    · rw [← he3]; simp only [Env.after, hr2, hl2, h1l]
    · rw [← he3]; simp only [Env.after, hr2, hn2, h1n]
  have hc3 : env3.conns = env.conns := by
    rw [← h1c, ← he3, ← he2]; rfl
  -- UnLock
  have e4 := UnLock_ok self env3 hflag hplain (head_ok_of_nil env3 f3)
  rw [if_pos hd3] at e4
  refine ⟨env3.after (.eval (c_str (del_cmd self.lock_name_))) (some (.integer 1))
    { env3.redis with lock := none }, ?_, after_faults_nil _ _ _ _ f3, hc3, hs3, hh3, rfl⟩
  unfold AddUser.locked
  rw [c_str_of_noNul _ htok.2.2.1.2, c_str_add_cmd P u htok, e1]
  simp only [Reply.integerVal]
  rw [if_neg (by decide), e2]
  simp only
  rw [e3]
  simp only
  exact e4

/-! ## The round trip of AddUser and ListUsers -/

theorem append_left_cancel (P a b : String) (h : P ++ a = P ++ b) : a = b := by
  have h2 := congrArg String.data h
  rw [String.data_append, String.data_append] at h2
  exact String.ext (List.append_cancel_left h2)

theorem ListUsers_loop_honest_all (order : ArgOrder) (P : String) (self : ZgwStore) :
    ∀ (names : List String) (users : List User) (env : Env), env.faults = [] →
      ∃ env' : Env, ListUsers.loop order P self names users env
          = (.OK, users ++ listedUsers order P env.redis names, self, env') := by
  intro names
  induction names with
  | nil => intro users env _; exact ⟨env, by simp [ListUsers.loop, listedUsers]⟩
  | cons n names ih =>
    intro users env hf
    obtain ⟨env', h⟩ := ih (users ++ listedUsers order P env.redis [n])
      (env.after (.hgetall (P ++ c_str n)) (some (.array (flatten (env.redis.hashes (P ++ c_str n)))))
        env.redis) (after_faults_nil _ _ _ _ hf)
    refine ⟨env', ?_⟩
    rw [ListUsers_loop_step_honest order P self n names users env (head_ok_of_nil env hf), h,
      listedUsers_cons order P env.redis n names, List.append_assoc]
    rfl

theorem ListUsers_honest (order : ArgOrder) (P L : String) (self : ZgwStore) (env : Env)
    (hflag : self.redis_error_ = false) (hf : env.faults = []) :
    (ListUsers order P L self env).1 = .OK ∧
    (ListUsers order P L self env).2.1 = listedUsers order P env.redis (env.redis.sets L) := by
  unfold ListUsers
  rw [MaybeHandleRedisError_healthy self env hflag]
  simp only
  rw [redisCommand_ok env (.smembers L) (.array (env.redis.sets L)) env.redis
    (head_ok_of_nil env hf) rfl]
  simp only [Reply.elems]
  by_cases h0 : (env.redis.sets L).length = 0
  · rw [if_pos h0]
    have : env.redis.sets L = [] := List.length_eq_zero.1 h0
    simp [this, listedUsers]
  · rw [if_neg h0]
    obtain ⟨env', h⟩ := ListUsers_loop_honest_all order P self (env.redis.sets L) []
      (env.after (.smembers L) (some (.array (env.redis.sets L))) env.redis)
      (after_faults_nil _ _ _ _ hf)
    rw [h]
    exact ⟨rfl, rfl⟩

theorem listedUsers_single (order : ArgOrder) (P : String) (r : Redis) (u : User)
    (hrec : r.hashes (P ++ u.display_name) = u.record) (ht : u.tokens P) :
    listedUsers order P r [u.display_name] = [GenUserFromReply order (flatten u.record)] := by
  have h2 : u.record ≠ [] := by simp [User.record]
  simp only [listedUsers, List.filter_cons, c_str_of_noNul _ ht.2.2.1.2, hrec, h2, ne_eq,
    not_false_eq_true, decide_True, if_true, List.filter_nil, List.map_cons, List.map_nil]

theorem listedUsers_of_holdsUsers (order : ArgOrder) (P : String) (r : Redis) :
    ∀ (users : List User), (∀ u ∈ users, r.hashes (P ++ u.display_name) = u.record) →
      (∀ u ∈ users, u.tokens P) → (∀ u ∈ users, u.plainKeys) →
      (listedUsers order P r (users.map (fun u => u.display_name))).map
          (fun u => (u.user_id, u.display_name))
        = users.map (fun u => (u.user_id, u.display_name)) ∧
      (order = .leftToRight →
        listedUsers order P r (users.map (fun u => u.display_name)) = users) := by
  intro users
  induction users with
  | nil => intro _ _ _; exact ⟨rfl, fun _ => rfl⟩
  | cons u us ih =>
    intro hrec htok hkeys
    obtain ⟨i1, i2⟩ := ih (fun v hv => hrec v (List.mem_cons_of_mem _ hv))
      (fun v hv => htok v (List.mem_cons_of_mem _ hv))
      (fun v hv => hkeys v (List.mem_cons_of_mem _ hv))
    obtain ⟨g1, g2, g3⟩ := GenUserFromReply_record order P u
      (htok u (List.mem_cons_self _ _)) (hkeys u (List.mem_cons_self _ _))
    rw [List.map_cons, listedUsers_cons,
      listedUsers_single order P r u (hrec u (List.mem_cons_self _ _))
        (htok u (List.mem_cons_self _ _))]
    constructor
    · rw [List.singleton_append, List.map_cons, List.map_cons, i1, g1, g2]
    · intro ho
      rw [g3 ho, i2 ho, List.singleton_append]

theorem enoughFuel_of_free (r : Redis) (h : r.lock = none) : r.enoughFuel = 2 := by
  simp [Redis.enoughFuel, Redis.remaining, h]

theorem AddUser_fresh (P L : String) (u : User) (self : ZgwStore) (env : Env)
    (fuel : Nat) (hflag : self.redis_error_ = false) (hf : env.faults = [])
    (httl : 0 < self.lock_ttl_) (hplain : luaPlain self.lock_name_)
    (hfuel : env.redis.enoughFuel ≤ fuel)
    (hnew : u.display_name ∉ env.redis.sets L)
    (htok : u.tokens P) (hu : u.plainKeys) :
    ∃ env' : Env, AddUser P L fuel u self env = some (.OK, self, env') ∧
      env'.faults = [] ∧
      env'.redis.sets = upd env.redis.sets L (env.redis.sets L ++ [u.display_name]) ∧
      env'.redis.hashes = upd env.redis.hashes (P ++ u.display_name) u.record ∧
      env'.redis.lock = none := by
  obtain ⟨env2, h1, h2, _, h4, h5, h6⟩ := Lock_honest self env httl hflag hf fuel hfuel
  rw [luaPlain_c_str _ hplain] at h6
  obtain ⟨env', g1, g2, _, g4, g5, g6⟩ := AddUser_locked_fresh P L u self env2 hflag hplain
    h2 (by rw [h4]; exact hnew) h6 htok hu
  refine ⟨env', ?_, g2, ?_, ?_, g6⟩
  · rw [AddUser_of_Lock_ok P L fuel u self env env2 hflag h1, g1]
  · rw [g4, h4]
  · rw [g5, h5]

theorem addEach_honest (P L : String) (self : ZgwStore) (fuel : Nat)
    (hflag : self.redis_error_ = false) (httl : 0 < self.lock_ttl_)
    (hplain : luaPlain self.lock_name_) (hfuel : 2 ≤ fuel) :
    ∀ (us done : List User) (env : Env), env.faults = [] → env.redis.lock = none →
      holdsUsers P L env.redis done →
      ((done ++ us).map (fun u => u.display_name)).Nodup →
      (∀ u ∈ us, u.tokens P) → (∀ u ∈ us, u.plainKeys) →
      ∃ env' : Env, addEach P L fuel us self env
          = some (List.replicate us.length .OK, self, env') ∧
        env'.faults = [] ∧ holdsUsers P L env'.redis (done ++ us) := by
  intro us
  induction us with
  | nil =>
    intro done env hf _ hdir _ _ _
    exact ⟨env, rfl, hf, by simpa using hdir⟩
  | cons u us ih =>
    intro done env hf hfree hdir hnd htok hkeys
    have hnd2 : ((done ++ [u]) ++ us).map (fun u => u.display_name) |>.Nodup := by
      simpa using hnd
    have hnew : u.display_name ∉ env.redis.sets L := by
      rw [hdir.1]
      intro hmem
      simp only [List.map_append, List.map_cons] at hnd
      have := (List.nodup_append.1 hnd).2.2
      exact this hmem (List.mem_cons_self _ _)
    obtain ⟨env1, a1, a2, a3, a4, a5⟩ := AddUser_fresh P L u self env fuel hflag hf httl
      hplain (by rw [enoughFuel_of_free _ hfree]; exact hfuel) hnew
      (htok u (List.mem_cons_self _ _)) (hkeys u (List.mem_cons_self _ _))
    have hdir1 : holdsUsers P L env1.redis (done ++ [u]) := by
      constructor
      · rw [a3, upd_same, hdir.1]; simp
      · intro v hv
        rw [a4]
        rcases List.mem_append.1 hv with hv | hv
        · have hne : v.display_name ≠ u.display_name := by
            intro heq
            apply hnew
            rw [hdir.1, ← heq]
            exact List.mem_map_of_mem _ hv
          rw [upd_other _ _ _ _ (fun h => hne (append_left_cancel P _ _ h))]
          exact hdir.2 v hv
        · simp only [List.mem_singleton] at hv
          subst hv
          exact upd_same _ _ _
    obtain ⟨env2, b1, b2, b3⟩ := ih (done ++ [u]) env1 a2 a5 hdir1 hnd2
      (fun v hv => htok v (List.mem_cons_of_mem _ hv))
      (fun v hv => hkeys v (List.mem_cons_of_mem _ hv))
    refine ⟨env2, ?_, b2, by simpa using b3⟩
    rw [addEach, a1]
    simp only [b1, List.length_cons, List.replicate_succ]

theorem redisCommand_faults (env : Env) (c : Cmd) :
    (redisCommand env c).2.faults = env.faults.tail ∨
    (redisCommand env c).2.faults = env.faults := by
  unfold redisCommand
  cases env.redis.exec c with
  | none => exact Or.inr rfl
  | some p =>
    obtain ⟨rep, r⟩ := p
    cases env.faults.head?.getD .ok <;> exact Or.inl rfl

theorem redisCommand_plain (env : Env) (c : Cmd) (hp : ∀ f ∈ env.faults, f.plain) :
    ∀ f ∈ (redisCommand env c).2.faults, f.plain := by
  intro f hf
  rcases redisCommand_faults env c with h | h
  · rw [h] at hf; exact hp f (List.mem_of_mem_tail hf)
  · rw [h] at hf; exact hp f hf

theorem head_plain (env : Env) (hp : ∀ f ∈ env.faults, f.plain) :
    (env.faults.head?.getD .ok).plain := by
  cases h : env.faults with
  | nil => simp [Fault.plain]
  | cons f fs => simpa using hp f (by simp [h])

theorem redisCommand_redis (env : Env) (c : Cmd) :
    (redisCommand env c).2.redis = env.redis ∨
    ∃ rep0 : Reply, env.redis.exec c = some (rep0, (redisCommand env c).2.redis) := by
  unfold redisCommand
  cases hx : env.redis.exec c with
  | none => exact Or.inl rfl
  | some p =>
    obtain ⟨rep, r⟩ := p
    cases hfa : env.faults.head?.getD .ok with
    | ok => exact Or.inr ⟨rep, rfl⟩
    | lost applied =>
      cases applied
      · exact Or.inl rfl
      · exact Or.inr ⟨rep, rfl⟩
    | answer rep1 => exact Or.inl rfl

theorem redisCommand_honest_reply (env : Env) (c : Cmd) (x : Reply)
    (hp : (env.faults.head?.getD .ok).plain)
    (hrep : (redisCommand env c).1 = some x) (hx : ∀ str, x ≠ .error str) :
    env.redis.exec c = some (x, (redisCommand env c).2.redis) := by
  unfold redisCommand at hrep ⊢
  cases hex : env.redis.exec c with
  | none => simp [hex] at hrep
  | some p =>
    obtain ⟨rep, r⟩ := p
    simp only [hex] at hrep ⊢
    cases hfa : env.faults.head?.getD .ok with
    | ok =>
      simp only [hfa] at hrep ⊢
      simp only [Option.some.injEq] at hrep
      rw [hrep]
      rfl
    | lost applied => simp [hfa] at hrep
    | answer rep1 =>
      simp only [hfa] at hrep hp
      simp only [Option.some.injEq] at hrep
      subst hrep
      cases rep1 with
      | error str => exact absurd rfl (hx str)
      | status s => exact absurd hp (by simp [Fault.plain])
      | integer n => exact absurd hp (by simp [Fault.plain])
      | array xs => exact absurd hp (by simp [Fault.plain])
      | nil => exact absurd hp (by simp [Fault.plain])

theorem execArgs_keeps (r : Redis) (args : List String) :
    (r.execArgs args).2.sets = r.sets ∧ (r.execArgs args).2.lock = r.lock ∧
    (r.execArgs args).2.now = r.now := by
  unfold Redis.execArgs
  split
  · split <;> exact ⟨rfl, rfl, rfl⟩
  · exact ⟨rfl, rfl, rfl⟩
  · exact ⟨rfl, rfl, rfl⟩

theorem exec_eval_plain (r : Redis) (name : String) (hp : luaPlain name) :
    r.exec (.eval (c_str (del_cmd name)))
      = if r.holder = some name then some (.integer 1, { r with lock := none })
        else some (.integer 0, r) := by
  simp only [Redis.exec, readScript_plain _ hp]

theorem redisCommand_eval_keeps (env : Env) (name : String) (hp : luaPlain name) :
    (redisCommand env (.eval (c_str (del_cmd name)))).2.redis.sets = env.redis.sets ∧
    (redisCommand env (.eval (c_str (del_cmd name)))).2.redis.hashes
      = env.redis.hashes := by
  rcases redisCommand_redis env (.eval (c_str (del_cmd name))) with h | ⟨rep0, h⟩
  · rw [h]; exact ⟨rfl, rfl⟩
  · rw [exec_eval_plain _ _ hp] at h
    split at h <;> simp only [Option.some.injEq, Prod.mk.injEq] at h <;> rw [← h.2] <;>
      exact ⟨rfl, rfl⟩

theorem exec_keeps_sets (r r2 : Redis) (c : Cmd) (rep : Reply)
    (hc : ∀ key m, c ≠ .sadd key m) (he : ∀ script, c ≠ .eval script)
    (hx : r.exec c = some (rep, r2)) :
    r2.sets = r.sets := by
  cases c with
  | setNxPx v ttl =>
    simp only [Redis.exec] at hx
    split at hx
    · simp only [Option.some.injEq, Prod.mk.injEq] at hx; rw [← hx.2]
    · split at hx <;> simp only [Option.some.injEq, Prod.mk.injEq] at hx <;> rw [← hx.2]
  | eval script => exact absurd rfl (he script)
  | sadd key m => exact absurd rfl (hc key m)
  | del key =>
    simp only [Redis.exec] at hx
    split at hx <;> simp only [Option.some.injEq, Prod.mk.injEq] at hx <;> rw [← hx.2]
  | text cmd =>
    simp only [Redis.exec] at hx
    cases hfc : formatCommand cmd with
    | none => simp [hfc] at hx
    | some args =>
      simp only [hfc, Option.some.injEq] at hx
      have := (execArgs_keeps r args).1
      rw [hx] at this
      exact this
  | smembers key =>
    simp only [Redis.exec, Option.some.injEq, Prod.mk.injEq] at hx; rw [← hx.2]
  | hgetall key =>
    simp only [Redis.exec, Option.some.injEq, Prod.mk.injEq] at hx; rw [← hx.2]

theorem exec_keeps_hashes (r r2 : Redis) (c : Cmd) (rep : Reply)
    (hc1 : ∀ key, c ≠ .del key) (hc2 : ∀ cmd, c ≠ .text cmd)
    (he : ∀ script, c ≠ .eval script)
    (hx : r.exec c = some (rep, r2)) :
    r2.hashes = r.hashes := by
  cases c with
  | setNxPx v ttl =>
    simp only [Redis.exec] at hx
    split at hx
    · simp only [Option.some.injEq, Prod.mk.injEq] at hx; rw [← hx.2]
    · split at hx <;> simp only [Option.some.injEq, Prod.mk.injEq] at hx <;> rw [← hx.2]
  | eval script => exact absurd rfl (he script)
  | sadd key m =>
    simp only [Redis.exec] at hx
    split at hx <;> simp only [Option.some.injEq, Prod.mk.injEq] at hx <;> rw [← hx.2]
  | del key => exact absurd rfl (hc1 key)
  | text cmd => exact absurd rfl (hc2 cmd)
  | smembers key =>
    simp only [Redis.exec, Option.some.injEq, Prod.mk.injEq] at hx; rw [← hx.2]
  | hgetall key =>
    simp only [Redis.exec, Option.some.injEq, Prod.mk.injEq] at hx; rw [← hx.2]

theorem exec_keeps_lock (r r2 : Redis) (c : Cmd) (rep : Reply)
    (hc1 : ∀ v ttl, c ≠ .setNxPx v ttl) (hc2 : ∀ h, c ≠ .eval h)
    (hx : r.exec c = some (rep, r2)) :
    r2.lock = r.lock ∧ r2.now = r.now := by
  cases c with
  | setNxPx v ttl => exact absurd rfl (hc1 v ttl)
  | eval h => exact absurd rfl (hc2 h)
  | sadd key m =>
    simp only [Redis.exec] at hx
    split at hx <;> simp only [Option.some.injEq, Prod.mk.injEq] at hx <;> rw [← hx.2] <;>
      exact ⟨rfl, rfl⟩
  | del key =>
    simp only [Redis.exec] at hx
    split at hx <;> simp only [Option.some.injEq, Prod.mk.injEq] at hx <;> rw [← hx.2] <;>
      exact ⟨rfl, rfl⟩
  | text cmd =>
    simp only [Redis.exec] at hx
    cases hfc : formatCommand cmd with
    | none => simp [hfc] at hx
    | some args =>
      simp only [hfc, Option.some.injEq] at hx
      have := (execArgs_keeps r args).2
      rw [hx] at this
      exact this
  | smembers key =>
    simp only [Redis.exec, Option.some.injEq, Prod.mk.injEq] at hx; rw [← hx.2]
    exact ⟨rfl, rfl⟩
  | hgetall key =>
    simp only [Redis.exec, Option.some.injEq, Prod.mk.injEq] at hx; rw [← hx.2]
    exact ⟨rfl, rfl⟩

theorem redisCommand_keeps_sets (env : Env) (c : Cmd) (hc : ∀ key m, c ≠ .sadd key m)
    (he : ∀ script, c ≠ .eval script) :
    (redisCommand env c).2.redis.sets = env.redis.sets := by
  rcases redisCommand_redis env c with h | ⟨rep0, h⟩
  · rw [h]
  · exact exec_keeps_sets _ _ c rep0 hc he h

theorem redisCommand_keeps_hashes (env : Env) (c : Cmd)
    (hc1 : ∀ key, c ≠ .del key) (hc2 : ∀ cmd, c ≠ .text cmd)
    (he : ∀ script, c ≠ .eval script) :
    (redisCommand env c).2.redis.hashes = env.redis.hashes := by
  rcases redisCommand_redis env c with h | ⟨rep0, h⟩
  · rw [h]
  · exact exec_keeps_hashes _ _ c rep0 hc1 hc2 he h

theorem redisCommand_keeps_lock (env : Env) (c : Cmd)
    (hc1 : ∀ v ttl, c ≠ .setNxPx v ttl) (hc2 : ∀ h, c ≠ .eval h) :
    (redisCommand env c).2.redis.lock = env.redis.lock ∧
    (redisCommand env c).2.redis.now = env.redis.now := by
  rcases redisCommand_redis env c with h | ⟨rep0, h⟩
  · rw [h]; exact ⟨rfl, rfl⟩
  · exact exec_keeps_lock _ _ c rep0 hc1 hc2 h

theorem MaybeHandleRedisError_keeps (self : ZgwStore) (env : Env) :
    (MaybeHandleRedisError self env).2.2.redis = env.redis ∧
    (MaybeHandleRedisError self env).2.2.faults = env.faults ∧
    (MaybeHandleRedisError self env).2.1.lock_name_ = self.lock_name_ := by
  unfold MaybeHandleRedisError redisConnectWithTimeout
  by_cases h : self.redis_error_ = true
  · simp only [h, Bool.not_true, Bool.false_eq_true, if_false]
    cases env.conns.head?.getD .good <;> exact ⟨rfl, rfl, rfl⟩
  · have h2 : self.redis_error_ = false := by simpa using h
    simp [h2]

theorem UnLock_keeps (self : ZgwStore) (env : Env) (hplain : luaPlain self.lock_name_) :
    (UnLock self env).2.2.redis.sets = env.redis.sets ∧
    (UnLock self env).2.2.redis.hashes = env.redis.hashes ∧
    ((∀ f ∈ env.faults, f.plain) → ∀ f ∈ (UnLock self env).2.2.faults, f.plain) := by
  have hm := MaybeHandleRedisError_keeps self env
  unfold UnLock
  generalize MaybeHandleRedisError self env = m at hm
  obtain ⟨b, self1, env1⟩ := m
  simp only at hm
  cases b with
  | false =>
    simp only
    rw [hm.1, hm.2.1]
    exact ⟨rfl, rfl, fun h => h⟩
  | true =>
    simp only
    have hp1 : luaPlain self1.lock_name_ := by rw [hm.2.2]; exact hplain
    have h1 := (redisCommand_eval_keeps env1 self1.lock_name_ hp1).1
    have h2 := (redisCommand_eval_keeps env1 self1.lock_name_ hp1).2
    have h3 := redisCommand_plain env1 (.eval (c_str (del_cmd self1.lock_name_)))
    generalize redisCommand env1 (.eval (c_str (del_cmd self1.lock_name_))) = q at h1 h2 h3
    obtain ⟨rep, env2⟩ := q
    simp only at h1 h2 h3
    rw [hm.1] at h1 h2
    rw [hm.2.1] at h3
    cases rep <;> exact ⟨h1, h2, h3⟩

theorem Lock_loop_keeps (self : ZgwStore) :
    ∀ (fuel : Nat) (env : Env) (x : Status × ZgwStore × Env),
      Lock.loop self fuel env = some x →
      x.2.2.redis.sets = env.redis.sets ∧ x.2.2.redis.hashes = env.redis.hashes ∧
      ((∀ f ∈ env.faults, f.plain) → ∀ f ∈ x.2.2.faults, f.plain) := by
  intro fuel
  induction fuel with
  | zero => intro env x h; simp [Lock.loop] at h
  | succ n ih =>
    intro env x h
    unfold Lock.loop at h
    have h1 := redisCommand_keeps_sets env (.setNxPx (c_str self.lock_name_) self.lock_ttl_)
      (by simp) (by simp)
    have h2 := redisCommand_keeps_hashes env (.setNxPx (c_str self.lock_name_) self.lock_ttl_)
      (by simp) (by simp) (by simp)
    have h3 := redisCommand_plain env (.setNxPx (c_str self.lock_name_) self.lock_ttl_)
    generalize redisCommand env (.setNxPx (c_str self.lock_name_) self.lock_ttl_) = q at h h1 h2 h3
    obtain ⟨rep, env1⟩ := q
    simp only at h1 h2 h3
    cases rep with
    | none =>
      simp only [HandleIOError, Option.some.injEq] at h
      rw [← h]
      exact ⟨h1, h2, h3⟩
    | some reply =>
      simp only at h
      by_cases hr : reply.isOK = true
      · rw [if_pos hr] at h
        simp only [Option.some.injEq] at h
        rw [← h]
        exact ⟨h1, h2, h3⟩
      · rw [if_neg hr] at h
        obtain ⟨g1, g2, g3⟩ := ih _ _ h
        exact ⟨by rw [g1]; exact h1, by rw [g2]; exact h2, fun hp => g3 (h3 hp)⟩

theorem Lock_keeps (self : ZgwStore) (fuel : Nat) (env : Env)
    (x : Status × ZgwStore × Env) (h : Lock fuel self env = some x) :
    x.2.2.redis.sets = env.redis.sets ∧ x.2.2.redis.hashes = env.redis.hashes ∧
    ((∀ f ∈ env.faults, f.plain) → ∀ f ∈ x.2.2.faults, f.plain) := by
  have hm := MaybeHandleRedisError_keeps self env
  unfold Lock at h
  generalize MaybeHandleRedisError self env = m at hm h
  obtain ⟨b, self1, env1⟩ := m
  simp only at hm
  cases b with
  | false =>
    simp only [Option.some.injEq] at h
    rw [← h]
    simp only
    rw [hm.1, hm.2.1]
    exact ⟨rfl, rfl, fun h => h⟩
  | true =>
    simp only at h
    have := Lock_loop_keeps self1 fuel env1 x h
    rw [hm.1, hm.2.1] at this
    exact this

theorem cutNul_append_of_not_mem (a b : List Char) (h : nul ∉ a) :
    cutNul (a ++ b) = a ++ cutNul b := by
  induction a with
  | nil => rfl
  | cons c a ih =>
    simp only [List.mem_cons, not_or] at h
    have hc : ¬ c = nul := fun e => h.1 e.symm
    simp only [List.cons_append, cutNul, if_neg hc]
    exact congrArg (List.cons c) (ih h.2)

theorem cutNul_append_of_mem (a b : List Char) (h : nul ∈ a) :
    cutNul (a ++ b) = cutNul a := by
  induction a with
  | nil => simp at h
  | cons c a ih =>
    by_cases hc : c = nul
    · simp [cutNul, hc]
    · have hmem : nul ∈ a := by
        rcases List.mem_cons.1 h with e | e
        · exact absurd e.symm hc
        · exact e
      simp only [List.cons_append, cutNul, if_neg hc]
      exact congrArg (List.cons c) (ih hmem)

theorem not_mem_cutNul (c : Char) (l : List Char) (h : c ∉ l) : c ∉ cutNul l := by
  induction l with
  | nil => simp [cutNul]
  | cons d l ih =>
    simp only [List.mem_cons, not_or] at h
    by_cases hd : d = nul
    · simp [cutNul, hd]
    · simp only [cutNul, if_neg hd, List.mem_cons, not_or]
      exact ⟨h.1, ih h.2⟩

theorem Lock_loop_name (self : ZgwStore) :
    ∀ (fuel : Nat) (env : Env) (x : Status × ZgwStore × Env),
      Lock.loop self fuel env = some x → x.2.1.lock_name_ = self.lock_name_ := by
  intro fuel
  induction fuel with
  | zero => intro env x h; simp [Lock.loop] at h
  | succ n ih =>
    intro env x h
    unfold Lock.loop at h
    generalize redisCommand env (.setNxPx (c_str self.lock_name_) self.lock_ttl_) = q at h
    obtain ⟨rep, env1⟩ := q
    cases rep with
    | none =>
      simp only [HandleIOError, Option.some.injEq] at h
      rw [← h]
    | some reply =>
      simp only at h
      by_cases hr : reply.isOK = true
      · rw [if_pos hr] at h
        simp only [Option.some.injEq] at h
        rw [← h]
      · rw [if_neg hr] at h
        exact ih _ _ h

theorem Lock_name (self : ZgwStore) (fuel : Nat) (env : Env)
    (x : Status × ZgwStore × Env) (h : Lock fuel self env = some x) :
    x.2.1.lock_name_ = self.lock_name_ := by
  have hm := MaybeHandleRedisError_keeps self env
  unfold Lock at h
  generalize MaybeHandleRedisError self env = m at hm h
  obtain ⟨b, self1, env1⟩ := m
  simp only at hm
  cases b with
  | false =>
    simp only [Option.some.injEq] at h
    rw [← h]
    exact hm.2.2
  | true =>
    simp only at h
    rw [Lock_loop_name self1 fuel env1 x h]
    exact hm.2.2

theorem formatCommand_add_cmd_key (P : String) (u : User) (args : List String)
    (hk1 : (P ++ u.display_name).data ≠ []) (hk2 : ' ' ∉ (P ++ u.display_name).data)
    (h : formatCommand (c_str (add_cmd P u)) = some args) :
    (nul ∉ (P ++ u.display_name).data ∧
      ∃ rest : List String, args = "HMSET" :: (P ++ u.display_name) :: rest) ∨
    args = ["HMSET"] ∨ ∃ k : String, args = ["HMSET", k] := by
  unfold formatCommand at h
  split at h
  · simp at h
  · simp only [Option.some.injEq] at h
    have hd : (c_str (add_cmd P u)).data = cutNul (add_cmd P u).data := rfl
    rw [hd, add_cmd_data, spaced, cutNul_append_of_not_mem _ _ (by decide),
      splitArgs_append_of_no_blank _ (by decide), List.nil_append, cutNul,
      if_neg (by decide), splitArgs_blank _ _ (by decide)] at h
    by_cases hn : nul ∈ (P ++ u.display_name).data
    · right
      rw [cutNul_append_of_mem _ _ hn] at h
      have hs := splitArgs_append_of_no_blank (cutNul (P ++ u.display_name).data)
        (not_mem_cutNul ' ' _ hk2) [] []
      rw [List.append_nil, List.nil_append] at hs
      rw [hs] at h
      by_cases hk : cutNul (P ++ u.display_name).data = []
      · left
        rw [← h, hk]
        rfl
      · right
        refine ⟨⟨cutNul (P ++ u.display_name).data⟩, ?_⟩
        rw [← h, splitArgs, if_neg hk]
        rfl
    · left
      refine ⟨hn, ?_⟩
      rw [cutNul_append_of_not_mem _ _ hn, splitArgs_append_of_no_blank _ hk2,
        List.nil_append, spaced, cutNul, if_neg (by decide), splitArgs_blank _ _ hk1] at h
      exact ⟨_, h.symm⟩

theorem hset_ne_nil (h : List (String × String)) (f v : String) : hset h f v ≠ [] := by
  cases h with
  | nil => simp [hset]
  | cons p h =>
    obtain ⟨g, w⟩ := p
    unfold hset
    split <;> simp

theorem hmset_ne_nil (fvs : List (String × String)) :
    ∀ h : List (String × String), (h ≠ [] ∨ fvs ≠ []) → hmset h fvs ≠ [] := by
  induction fvs with
  | nil => intro h hh; simpa [hmset] using hh
  | cons p fvs ih =>
    intro h _
    have := ih (hset h p.1 p.2) (Or.inl (hset_ne_nil _ _ _))
    unfold hmset at this ⊢
    rw [List.foldl_cons]
    exact this

theorem pairUp_ne_nil (rest : List String) (h1 : rest ≠ []) (h2 : rest.length % 2 = 0) :
    pairUp rest ≠ [] := by
  cases rest with
  | nil => exact absurd rfl h1
  | cons a rest =>
    cases rest with
    | nil => simp at h2
    | cons b rest => simp [pairUp]

theorem execArgs_hmset_key (r r2 : Redis) (key : String) (rest : List String) (x : Reply)
    (hx : ∀ str, x ≠ .error str)
    (h : r.execArgs ("HMSET" :: key :: rest) = (x, r2)) :
    r2.hashes key ≠ [] ∧ ∀ k2, k2 ≠ key → r2.hashes k2 = r.hashes k2 := by
  unfold Redis.execArgs at h
  simp only at h
  split at h
  · simp only [Prod.mk.injEq] at h
    exact absurd h.1.symm (hx _)
  · rename_i hcond
    simp only [not_or, ne_eq, Decidable.not_not] at hcond
    simp only [Prod.mk.injEq] at h
    rw [← h.2]
    constructor
    · simp only [upd_same]
      exact hmset_ne_nil _ _ (Or.inr (pairUp_ne_nil rest hcond.1 hcond.2))
    · intro k2 hk2
      exact upd_other _ _ _ _ hk2

theorem exec_add_cmd_key (r r2 : Redis) (P : String) (u : User) (x : Reply)
    (hk1 : (P ++ u.display_name).data ≠ []) (hk2 : ' ' ∉ (P ++ u.display_name).data)
    (hx : ∀ str, x ≠ .error str)
    (h : r.exec (.text (c_str (add_cmd P u))) = some (x, r2)) :
    c_str u.display_name = u.display_name ∧
    r2.hashes (P ++ u.display_name) ≠ [] ∧
    ∀ k2, k2 ≠ P ++ u.display_name → r2.hashes k2 = r.hashes k2 := by
  simp only [Redis.exec] at h
  cases hfc : formatCommand (c_str (add_cmd P u)) with
  | none => simp [hfc] at h
  | some args =>
    simp only [hfc, Option.some.injEq] at h
    rcases formatCommand_add_cmd_key P u args hk1 hk2 hfc with ⟨hn, rest, hargs⟩ | hargs | ⟨k, hargs⟩
    · rw [hargs] at h
      have hdn : nul ∉ u.display_name.data := by
        intro hm
        apply hn
        rw [String.data_append]
        exact List.mem_append_right _ hm
      exact ⟨c_str_of_noNul _ hdn, execArgs_hmset_key r r2 _ rest x hx h⟩
    · rw [hargs] at h
      simp only [Redis.execArgs, Prod.mk.injEq] at h
      exact absurd h.1.symm (hx _)
    · rw [hargs] at h
      simp only [Redis.execArgs, List.length_nil, true_or, if_true, Prod.mk.injEq] at h
      exact absurd h.1.symm (hx _)

/-! ## AddUser under any behaviour of the server -/

theorem errStr_none (x : Reply) (h : x.errStr = none) : ∀ str, x ≠ .error str := by
  intro str hx
  rw [hx] at h
  simp [Reply.errStr] at h

theorem AddUser_locked_eq (P L : String) (u : User) (self : ZgwStore) (env : Env) :
    AddUser.locked P L u self env =
      match redisCommand env (.sadd L (c_str u.display_name)) with
      | (none, env1) => HandleIOError self env1 "AddUser::SADD"
      | (some reply, env1) =>
        match reply.errStr with
        | some str => HandleLogicError self env1 ("AddUser::SADD ret: " ++ c_str str) true
        | none =>
          if reply.integerVal = 0 then HandleLogicError self env1 "User Already Exist" true
          else
            match redisCommand env1 (.del (P ++ c_str u.display_name)) with
            | (none, env2) => HandleIOError self env2 "AddUser::DEL"
            | (some _, env2) =>
              match redisCommand env2 (.text (c_str (add_cmd P u))) with
              | (none, env3) => HandleIOError self env3 "AddUser::HMSET"
              | (some r3, env3) =>
                match r3.errStr with
                | some str => HandleLogicError self env3 ("AddUser::HMSET ret: " ++ c_str str) true
                | none => UnLock self env3 := by
  unfold AddUser.locked
  generalize redisCommand env (.sadd L (c_str u.display_name)) = q1
  obtain ⟨rep1, env1⟩ := q1
  cases rep1 with
  | none => rfl
  | some reply =>
    cases reply with
    | error str => rfl
    | status s => simp only [Reply.errStr, Reply.integerVal, if_true]
    | integer n =>
      simp only [Reply.errStr]
      by_cases hn : (Reply.integer n).integerVal = 0
      · simp only [hn, if_true]
      · simp only [hn, if_false]
        generalize redisCommand env1 (.del (P ++ c_str u.display_name)) = q2
        obtain ⟨rep2, env2⟩ := q2
        cases rep2 with
        | none => rfl
        | some r2 =>
          simp only
          generalize redisCommand env2 (.text (c_str (add_cmd P u))) = q3
          obtain ⟨rep3, env3⟩ := q3
          cases rep3 with
          | none => rfl
          | some r3 => cases r3 <;> rfl
    | array xs => simp only [Reply.errStr, Reply.integerVal, if_true]
    | nil => simp only [Reply.errStr, Reply.integerVal, if_true]

theorem exec_sadd_new (r r2 : Redis) (L d : String) (x : Reply)
    (hx : r.exec (.sadd L d) = some (x, r2)) (h0 : x.integerVal ≠ 0) :
    d ∉ r.sets L ∧ r2.sets = upd r.sets L (r.sets L ++ [d]) := by
  simp only [Redis.exec] at hx
  split at hx
  · simp only [Option.some.injEq, Prod.mk.injEq] at hx
    rw [← hx.1] at h0
    exact absurd rfl h0
  · rename_i hmem
    simp only [Option.some.injEq, Prod.mk.injEq] at hx
    rw [← hx.2]
    exact ⟨hmem, rfl⟩

theorem redisCommand_sadd_sets (env : Env) (L d : String) :
    (redisCommand env (.sadd L d)).2.redis.sets = env.redis.sets ∨
    (d ∉ env.redis.sets L ∧
      (redisCommand env (.sadd L d)).2.redis.sets
        = upd env.redis.sets L (env.redis.sets L ++ [d])) := by
  rcases redisCommand_redis env (.sadd L d) with h | ⟨rep0, h⟩
  · rw [h]; exact Or.inl rfl
  · by_cases h0 : rep0.integerVal = 0
    · simp only [Redis.exec] at h
      split at h
      · simp only [Option.some.injEq, Prod.mk.injEq] at h
        rw [← h.2]; exact Or.inl rfl
      · simp only [Option.some.injEq, Prod.mk.injEq] at h
        rw [← h.1] at h0
        simp [Reply.integerVal] at h0
    · exact Or.inr (exec_sadd_new _ _ L d rep0 h h0)

theorem redisCommand_del_hashes (env : Env) (key k2 : String) (hk : k2 ≠ key) :
    (redisCommand env (.del key)).2.redis.hashes k2 = env.redis.hashes k2 := by
  rcases redisCommand_redis env (.del key) with h | ⟨rep0, h⟩
  · rw [h]
  · obtain ⟨rep, r2, e1, e2, _⟩ := exec_del env.redis key
    rw [e1] at h
    simp only [Option.some.injEq, Prod.mk.injEq] at h
    rw [← h.2, e2, upd_other _ _ _ _ hk]

theorem HandleLogicError_unlock (self : ZgwStore) (env : Env) (msg : String) :
    (HandleLogicError self env msg true).1 ≠ .OK ∧
    (HandleLogicError self env msg true).2.2 = (UnLock self env).2.2 ∧
    (HandleLogicError self env msg true).2.1 = (UnLock self env).2.1 := by
  simp [HandleLogicError]

theorem AddUser_locked_outcome (P L : String) (u : User) (self : ZgwStore) (env : Env)
    (hplain : luaPlain self.lock_name_)
    (hp : ∀ f ∈ env.faults, f.plain)
    (hk1 : (P ++ u.display_name).data ≠ []) (hk2 : ' ' ∉ (P ++ u.display_name).data) :
    addOutcome P L u env (AddUser.locked P L u self env) := by
  rw [AddUser_locked_eq]
  have s1 := redisCommand_sadd_sets env L (c_str u.display_name)
  have s2 := redisCommand_keeps_hashes env (.sadd L (c_str u.display_name)) (by simp)
    (by simp) (by simp)
  have s3 := redisCommand_plain env (.sadd L (c_str u.display_name)) hp
  have s4 := fun x => redisCommand_honest_reply env (.sadd L (c_str u.display_name)) x
    (head_plain env hp)
  generalize redisCommand env (.sadd L (c_str u.display_name)) = q1 at s1 s2 s3 s4
  obtain ⟨rep1, env1⟩ := q1
  simp only at s1 s2 s3 s4
  have early : ∀ res : Status × ZgwStore × Env, res.2.2.redis.sets = env1.redis.sets →
      res.2.2.redis.hashes = env1.redis.hashes → res.1 ≠ .OK → addOutcome P L u env res := by
    intro res e1 e2 e3
    rcases s1 with h | ⟨h, h'⟩
    · exact Or.inl ⟨by rw [e1, h], by rw [e2, s2]⟩
    · exact Or.inr ⟨h, by rw [e1, h'], Or.inl e3⟩
  have viaUnlock : ∀ msg : String,
      addOutcome P L u env (HandleLogicError self env1 msg true) := by
    intro msg
    obtain ⟨a1, a2, _⟩ := HandleLogicError_unlock self env1 msg
    exact early _ (by rw [a2]; exact (UnLock_keeps self env1 hplain).1)
      (by rw [a2]; exact (UnLock_keeps self env1 hplain).2.1) a1
  cases rep1 with
  | none => exact early _ rfl rfl (by simp [HandleIOError])
  | some reply =>
    simp only
    cases he : reply.errStr with
    | some str => exact viaUnlock _
    | none =>
      simp only
      by_cases h0 : reply.integerVal = 0
      · rw [if_pos h0]; exact viaUnlock _
      · rw [if_neg h0]
        obtain ⟨hnew, hsets⟩ := exec_sadd_new _ _ L (c_str u.display_name) reply
          (s4 reply rfl (errStr_none _ he)) h0
        have d1 := redisCommand_keeps_sets env1 (.del (P ++ c_str u.display_name)) (by simp)
          (by simp)
        have d2 := fun k2 hk => redisCommand_del_hashes env1 (P ++ c_str u.display_name) k2 hk
        have d3 := redisCommand_plain env1 (.del (P ++ c_str u.display_name)) s3
        generalize redisCommand env1 (.del (P ++ c_str u.display_name)) = q2 at d1 d2 d3
        obtain ⟨rep2, env2⟩ := q2
        simp only at d1 d2 d3
        cases rep2 with
        | none =>
          exact Or.inr ⟨hnew, by simp only [HandleIOError]; rw [d1, hsets],
            Or.inl (by simp [HandleIOError])⟩
        | some r2 =>
          simp only
          have t1 := redisCommand_keeps_sets env2 (.text (c_str (add_cmd P u))) (by simp)
            (by simp)
          have t3 := redisCommand_plain env2 (.text (c_str (add_cmd P u))) d3
          have t4 := fun x => redisCommand_honest_reply env2 (.text (c_str (add_cmd P u))) x
            (head_plain env2 d3)
          generalize redisCommand env2 (.text (c_str (add_cmd P u))) = q3 at t1 t3 t4
          obtain ⟨rep3, env3⟩ := q3
          simp only at t1 t3 t4
          have hs3 : env3.redis.sets
              = upd env.redis.sets L (env.redis.sets L ++ [c_str u.display_name]) := by
            rw [t1, d1, hsets]
          cases rep3 with
          | none => exact Or.inr ⟨hnew, hs3, Or.inl (by simp [HandleIOError])⟩
          | some r3 =>
            simp only
            cases he3 : r3.errStr with
            | some str =>
              obtain ⟨a1, a2, _⟩ := HandleLogicError_unlock self env3
                ("AddUser::HMSET ret: " ++ c_str str)
              exact Or.inr ⟨hnew, by rw [a2, (UnLock_keeps self env3 hplain).1, hs3], Or.inl a1⟩
            | none =>
              simp only
              obtain ⟨k0, k1, k2⟩ := exec_add_cmd_key _ _ P u r3 hk1 hk2 (errStr_none _ he3)
                (t4 r3 rfl (errStr_none _ he3))
              refine Or.inr ⟨hnew, by rw [(UnLock_keeps self env3 hplain).1, hs3],
                Or.inr ⟨k0, ?_, ?_⟩⟩
              · rw [(UnLock_keeps self env3 hplain).2.1]; exact k1
              · intro k hk
                rw [(UnLock_keeps self env3 hplain).2.1, k2 k hk, d2 k (by rw [k0]; exact hk), s2]

theorem AddUser_outcome (P L : String) (fuel : Nat) (u : User) (self : ZgwStore)
    (env : Env) (res : Status × ZgwStore × Env)
    (hplain : luaPlain self.lock_name_)
    (hp : ∀ f ∈ env.faults, f.plain)
    (hk1 : (P ++ u.display_name).data ≠ []) (hk2 : ' ' ∉ (P ++ u.display_name).data)
    (h : AddUser P L fuel u self env = some res) :
    addOutcome P L u env res := by
  have hm := MaybeHandleRedisError_keeps self env
  unfold AddUser at h
  generalize MaybeHandleRedisError self env = m at hm h
  obtain ⟨b, self1, env1⟩ := m
  simp only at hm
  cases b with
  | false =>
    simp only [Option.some.injEq] at h
    rw [← h]
    exact Or.inl ⟨by rw [hm.1], by rw [hm.1]⟩
  | true =>
    simp only at h
    cases hl : Lock fuel self1 env1 with
    | none => simp [hl] at h
    | some x =>
      obtain ⟨s, self2, env2⟩ := x
      obtain ⟨l1, l2, l3⟩ := Lock_keeps self1 fuel env1 _ hl
      have l4 : self2.lock_name_ = self.lock_name_ := by
        rw [← hm.2.2]
        exact Lock_name self1 fuel env1 _ hl
      simp only at l1 l2 l3
      rw [hm.1] at l1 l2
      rw [hm.2.1] at l3
      simp only [hl] at h
      by_cases hs : s.ok = true
      · simp only [hs, Bool.not_true, Bool.false_eq_true, if_false, Option.some.injEq] at h
        rw [← h]
        have := AddUser_locked_outcome P L u self2 env2 (by rw [l4]; exact hplain) (l3 hp)
          hk1 hk2
        unfold addOutcome at this ⊢
        rw [l1, l2] at this
        exact this
      · have hs2 : s.ok = false := by simpa using hs
        simp only [hs2, Bool.not_false, if_true, Option.some.injEq] at h
        rw [← h]
        exact Or.inl ⟨l1, l2⟩

/-- C7, as stated, fails: on an empty directory (where the invariant holds) with a free
lock, when the reply to `DEL` is missing, `AddUser` returns an IOError and leaves the
name in the membership set without a record.  With a server that never fails, a
`display_name` with a blank in it is added with status OK to the membership set while
the record is written under the key cut at the blank.  And for a client whose identity
is `x" or redis.call("del", "user_a") == 1 or "1"=="2`, on a directory that holds the
member `a` with its record, `AddUser` of another user returns OK after the script of its
`UnLock` has deleted the record of `a`, which stays a member. -/
theorem AddUser_breaks_dirInv_counterexample :
    dirInv "user_" "list" Redis.init ∧
    (AddUser "user_" "list" 2 ⟨"1", "a", []⟩ (ZgwStore.mk0 "me" 1000)
      ⟨Redis.init, [.ok, .ok, .lost false], [], []⟩).map
        (fun x => (x.1, x.2.2.redis.sets "list", x.2.2.redis.hashes ("user_" ++ "a")))
      = some (.IOError "AddUser::DEL", ["a"], []) ∧
    (∀ x, AddUser "user_" "list" 2 ⟨"1", "a", []⟩ (ZgwStore.mk0 "me" 1000)
        ⟨Redis.init, [.ok, .ok, .lost false], [], []⟩ = some x →
      ¬ dirInv "user_" "list" x.2.2.redis) ∧
    (AddUser "user_" "list" 2 ⟨"1", "a b", []⟩ (ZgwStore.mk0 "me" 1000)
      (Env.honest Redis.init)).map
        (fun x => (x.1, x.2.2.redis.sets "list", x.2.2.redis.hashes ("user_" ++ "a b"),
          x.2.2.redis.hashes ("user_" ++ "a")))
      = some (.OK, ["a b"], [], [("b", "uid"), ("1", "name"), ("a", "b")]) ∧
    dirInv "user_" "list" Redis.one ∧
    (AddUser "user_" "list" 2 ⟨"2", "c", []⟩ (ZgwStore.mk0 callName 1000)
      (Env.honest Redis.one)).map
        (fun x => (x.1, x.2.2.redis.sets "list", x.2.2.redis.hashes ("user_" ++ "a"),
          x.2.2.redis.hashes ("user_" ++ "c")))
      = some (.OK, ["a", "c"], [], [("uid", "2"), ("name", "c")]) := by
  have h2 : (AddUser "user_" "list" 2 ⟨"1", "a", []⟩ (ZgwStore.mk0 "me" 1000)
      ⟨Redis.init, [.ok, .ok, .lost false], [], []⟩).map
        (fun x => (x.1, x.2.2.redis.sets "list", x.2.2.redis.hashes ("user_" ++ "a")))
      = some (.IOError "AddUser::DEL", ["a"], []) := by decide
  refine ⟨?_, h2, ?_, by decide, ?_, by decide⟩
  · intro d
    simp [Redis.init]
  · intro x hx hinv
    rw [hx] at h2
    simp only [Option.map_some', Option.some.injEq, Prod.mk.injEq] at h2
    have := (hinv "a").2 (by rw [h2.2.1]; simp)
    exact this h2.2.2
  · intro d
    by_cases hd : d = "a"
    · subst hd
      decide
    · have hk : ¬ "user_" ++ d = "user_a" := fun e => hd (append_left_cancel "user_" d "a" e)
      simp [Redis.one, hk, hd]

/-- C7 (amended): from a state where a record exists at a `display_name` exactly when it
is a member of the membership set, for a client whose identity holds no double quote,
backslash, line break or U+0000, for every user whose record key is passed on as one
argument (not empty, no blank, no percent sign) and every behaviour of the server made
of success replies, error replies and missing replies, the state after `AddUser`
satisfies the same again whenever `AddUser` returns OK, and whenever it returns with
the membership set unchanged. -/
theorem AddUser_keeps_dirInv (P L : String) (fuel : Nat) (u : User) (self : ZgwStore)
    (env : Env) (res : Status × ZgwStore × Env)
    (hinv : dirInv P L env.redis)
    (hplain : luaPlain self.lock_name_)
    (hp : ∀ f ∈ env.faults, f.plain)
    (hkey : isToken (P ++ u.display_name))
    (h : AddUser P L fuel u self env = some res)
    (hok : res.1 = .OK ∨ res.2.2.redis.sets L = env.redis.sets L) :
    dirInv P L res.2.2.redis := by
  rcases AddUser_outcome P L fuel u self env res hplain hp hkey.1 hkey.2.1 h with
    ⟨a1, a2⟩ | ⟨hnew, b1, b2⟩
  · intro d
    rw [a1, a2]
    exact hinv d
  · have hL : res.2.2.redis.sets L = env.redis.sets L ++ [c_str u.display_name] := by
      rw [b1, upd_same]
    rcases b2 with b2 | ⟨c0, c1, c2⟩
    · rcases hok with hok | hok
      · exact absurd hok b2
      · rw [hL] at hok
        have := congrArg List.length hok
        simp at this
    · intro d
      rw [hL, c0]
      by_cases hd : d = u.display_name
      · subst hd
        simp [c1]
      · rw [c2 _ (fun e => hd (append_left_cancel P _ _ e))]
        simp only [List.mem_append, List.mem_singleton, hd, or_false]
        exact hinv d

theorem AddUser_keeps_dirInv_witness :
    dirInv "user_" "list" Redis.init ∧
    dirInv "user_" "list"
      ((AddUser "user_" "list" 2 ⟨"1", "a", []⟩ (ZgwStore.mk0 "me" 1000)
        ⟨Redis.init, [.ok, .ok, .answer (.error "ERR")], [], []⟩).get
          (by decide)).2.2.redis :=
  ⟨fun d => by simp [Redis.init],
   AddUser_keeps_dirInv "user_" "list" 2 ⟨"1", "a", []⟩ (ZgwStore.mk0 "me" 1000)
    ⟨Redis.init, [.ok, .ok, .answer (.error "ERR")], [], []⟩ _
    (fun d => by simp [Redis.init]) (by decide)
    (by intro f hf; simp at hf; rcases hf with rfl | rfl | rfl <;> simp [Fault.plain])
    (by decide) (Option.some_get _).symm (Or.inl (by decide))⟩

/-! ## Missing replies -/

theorem redisCommand_log (env : Env) (c : Cmd) :
    (redisCommand env c).2.log = env.log ++ [.command c (redisCommand env c).1] := by
  unfold redisCommand
  cases env.redis.exec c with
  | none => rfl
  | some p =>
    obtain ⟨rep, r⟩ := p
    cases env.faults.head?.getD .ok <;> rfl

theorem noLost_nil : noLost [] := by
  intro c h; simp at h

theorem noLost_append (a b : List Event) (ha : noLost a) (hb : noLost b) :
    noLost (a ++ b) := by
  intro c h
  rcases List.mem_append.1 h with h | h
  · exact ha c h
  · exact hb c h

theorem noLost_reply (c : Cmd) (x : Reply) : noLost [.command c (some x)] := by
  intro c2 h; simp at h

theorem MaybeHandleRedisError_events (self : ZgwStore) (env : Env) :
    ∃ evs : List Event, (MaybeHandleRedisError self env).2.2.log = env.log ++ evs ∧
      noLost evs := by
  unfold MaybeHandleRedisError redisConnectWithTimeout
  by_cases h : self.redis_error_ = true
  · simp only [h, Bool.not_true, Bool.false_eq_true, if_false]
    refine ⟨[.connect (c_str self.redis_ip_) self.redis_port_], ?_, ?_⟩
    · cases env.conns.head?.getD .good <;> rfl
    · intro c hc; simp at hc
  · have h2 : self.redis_error_ = false := by simpa using h
    exact ⟨[], by simp [h2], noLost_nil⟩

theorem ioOutcome_prepend (exc : Bool) (log0 : List Event) (evs1 : List Event)
    (s : Status) (self1 : ZgwStore) (env1 : Env) (h1 : noLost evs1)
    (h : ioOutcome exc (log0 ++ evs1) s self1 env1) : ioOutcome exc log0 s self1 env1 := by
  obtain ⟨evs, e1, e2⟩ := h
  refine ⟨evs1 ++ evs, by rw [e1, List.append_assoc], ?_⟩
  rcases e2 with e2 | ⟨pre, c, p1, p2, p3⟩
  · exact Or.inl (noLost_append _ _ h1 e2)
  · exact Or.inr ⟨evs1 ++ pre, c, by rw [p1, List.append_assoc],
      noLost_append _ _ h1 p2, p3⟩

theorem ioOutcome_weaken (log0 : List Event) (s : Status) (self1 : ZgwStore) (env1 : Env)
    (h : ioOutcome false log0 s self1 env1) : ioOutcome true log0 s self1 env1 := by
  obtain ⟨evs, e1, e2⟩ := h
  refine ⟨evs, e1, ?_⟩
  rcases e2 with e2 | ⟨pre, c, p1, p2, p3, p4⟩
  · exact Or.inl e2
  · refine Or.inr ⟨pre, c, p1, p2, p3, ?_⟩
    rcases p4 with p4 | ⟨p4, _⟩
    · exact Or.inl p4
    · simp at p4

theorem ioOutcome_noLost (exc : Bool) (log0 evs : List Event) (s : Status)
    (self1 : ZgwStore) (env1 : Env) (h : env1.log = log0 ++ evs) (hn : noLost evs) :
    ioOutcome exc log0 s self1 env1 :=
  ⟨evs, h, Or.inl hn⟩

theorem ioOutcome_lost (exc : Bool) (log0 pre : List Event) (c : Cmd) (self1 : ZgwStore)
    (env1 : Env) (h : env1.log = log0 ++ (pre ++ [.command c none])) (hn : noLost pre)
    (hflag : self1.redis_error_ = true) :
    ioOutcome exc log0 (.IOError (site c)) self1 env1 :=
  ⟨pre ++ [.command c none], h, Or.inr ⟨pre, c, rfl, hn, hflag, Or.inl rfl⟩⟩

theorem UnLock_events (self : ZgwStore) (env : Env) :
    ∃ evs : List Event, (UnLock self env).2.2.log = env.log ++ evs ∧
      (UnLock self env).2.1.lock_name_ = self.lock_name_ ∧
      (noLost evs ∨
        ∃ pre : List Event, evs = pre ++ [.command (.eval (c_str (del_cmd self.lock_name_))) none] ∧
          noLost pre ∧ (UnLock self env).2.1.redis_error_ = true ∧
          (UnLock self env).1 = .IOError "UnLock") := by
  obtain ⟨evs1, m1, m2⟩ := MaybeHandleRedisError_events self env
  have m3 := (MaybeHandleRedisError_keeps self env).2.2
  unfold UnLock
  generalize MaybeHandleRedisError self env = m at m1 m3
  obtain ⟨b, self1, env1⟩ := m
  simp only at m1 m3
  cases b with
  | false => exact ⟨evs1, m1, m3, Or.inl m2⟩
  | true =>
    simp only
    have l1 := redisCommand_log env1 (.eval (c_str (del_cmd self1.lock_name_)))
    generalize redisCommand env1 (.eval (c_str (del_cmd self1.lock_name_))) = q at l1
    obtain ⟨rep, env2⟩ := q
    simp only at l1
    rw [m1, m3, List.append_assoc] at l1
    cases rep with
    | none => exact ⟨_, l1, m3, Or.inr ⟨evs1, rfl, m2, rfl, rfl⟩⟩
    | some x =>
      exact ⟨_, l1, m3, Or.inl (noLost_append _ _ m2 (noLost_reply _ x))⟩

theorem UnLock_io (self : ZgwStore) (env : Env) :
    ioOutcome false env.log (UnLock self env).1 (UnLock self env).2.1
      (UnLock self env).2.2 := by
  obtain ⟨evs, e1, _, e3⟩ := UnLock_events self env
  refine ⟨evs, e1, ?_⟩
  rcases e3 with e3 | ⟨pre, p1, p2, p3, p4⟩
  · exact Or.inl e3
  · exact Or.inr ⟨pre, _, p1, p2, p3, Or.inl p4⟩

theorem HandleLogicError_io (self : ZgwStore) (env : Env) (msg : String) :
    ioOutcome true env.log (HandleLogicError self env msg true).1
      (HandleLogicError self env msg true).2.1 (HandleLogicError self env msg true).2.2 := by
  obtain ⟨evs, e1, e2, e3⟩ := UnLock_events self env
  have hs : HandleLogicError self env msg true
      = (.Corruption (msg ++ ", UnLock ret: " ++ (UnLock self env).1.ToString),
          (UnLock self env).2.1, (UnLock self env).2.2) := by
    simp [HandleLogicError]
  rw [hs]
  refine ⟨evs, e1, ?_⟩
  rcases e3 with e3 | ⟨pre, p1, p2, p3, p4⟩
  · exact Or.inl e3
  · refine Or.inr ⟨pre, .eval (c_str (del_cmd self.lock_name_)), p1, p2, p3, Or.inr ⟨rfl, ?_, msg, ?_⟩⟩
    · simp only; rw [e2]
    · simp only
      rw [p4, String.append_assoc]
      rfl

theorem Lock_loop_io (self : ZgwStore) :
    ∀ (fuel : Nat) (env : Env) (x : Status × ZgwStore × Env),
      Lock.loop self fuel env = some x → ioOutcome false env.log x.1 x.2.1 x.2.2 := by
  intro fuel
  induction fuel with
  | zero => intro env x h; simp [Lock.loop] at h
  | succ n ih =>
    intro env x h
    unfold Lock.loop at h
    have l1 := redisCommand_log env (.setNxPx (c_str self.lock_name_) self.lock_ttl_)
    generalize redisCommand env (.setNxPx (c_str self.lock_name_) self.lock_ttl_) = q at h l1
    obtain ⟨rep, env1⟩ := q
    simp only at l1
    cases rep with
    | none =>
      simp only [HandleIOError, Option.some.injEq] at h
      rw [← h]
      exact ioOutcome_lost false env.log [] _ { self with redis_error_ := true } env1
        (by simpa using l1) noLost_nil rfl
    | some reply =>
      simp only at h
      by_cases hr : reply.isOK = true
      · rw [if_pos hr] at h
        simp only [Option.some.injEq] at h
        rw [← h]
        exact ioOutcome_noLost false env.log _ _ _ env1 l1 (noLost_reply _ _)
      · rw [if_neg hr] at h
        have := ih _ _ h
        have hlog : (sleep_for env1 500).log
            = env.log ++ [.command (.setNxPx (c_str self.lock_name_) self.lock_ttl_) (some reply)] := l1
        rw [hlog] at this
        exact ioOutcome_prepend false env.log _ _ _ _ (noLost_reply _ _) this

theorem Lock_io (self : ZgwStore) (fuel : Nat) (env : Env) (x : Status × ZgwStore × Env)
    (h : Lock fuel self env = some x) : ioOutcome false env.log x.1 x.2.1 x.2.2 := by
  obtain ⟨evs1, m1, m2⟩ := MaybeHandleRedisError_events self env
  unfold Lock at h
  generalize MaybeHandleRedisError self env = m at m1 h
  obtain ⟨b, self1, env1⟩ := m
  simp only at m1
  cases b with
  | false =>
    simp only [Option.some.injEq] at h
    rw [← h]
    exact ioOutcome_noLost false env.log evs1 _ _ env1 m1 m2
  | true =>
    simp only at h
    have := Lock_loop_io self1 fuel env1 x h
    rw [m1] at this
    exact ioOutcome_prepend false env.log evs1 _ _ _ m2 this

theorem AddUser_locked_io (P L : String) (u : User) (self : ZgwStore) (env : Env) :
    ioOutcome true env.log (AddUser.locked P L u self env).1
      (AddUser.locked P L u self env).2.1 (AddUser.locked P L u self env).2.2 := by
  rw [AddUser_locked_eq]
  have l1 := redisCommand_log env (.sadd L (c_str u.display_name))
  generalize redisCommand env (.sadd L (c_str u.display_name)) = q1 at l1
  obtain ⟨rep1, env1⟩ := q1
  simp only at l1
  cases rep1 with
  | none =>
    exact ioOutcome_lost true env.log [] _ { self with redis_error_ := true } env1
      (by simpa using l1) noLost_nil rfl
  | some reply =>
    simp only
    have viaUnlock : ∀ msg : String, ioOutcome true env.log
        (HandleLogicError self env1 msg true).1 (HandleLogicError self env1 msg true).2.1
        (HandleLogicError self env1 msg true).2.2 := by
      intro msg
      have := HandleLogicError_io self env1 msg
      rw [l1] at this
      exact ioOutcome_prepend true env.log _ _ _ _ (noLost_reply _ _) this
    cases reply.errStr with
    | some str => exact viaUnlock _
    | none =>
      simp only
      by_cases h0 : reply.integerVal = 0
      · rw [if_pos h0]; exact viaUnlock _
      · rw [if_neg h0]
        have l2 := redisCommand_log env1 (.del (P ++ c_str u.display_name))
        generalize redisCommand env1 (.del (P ++ c_str u.display_name)) = q2 at l2
        obtain ⟨rep2, env2⟩ := q2
        simp only at l2
        rw [l1] at l2
        cases rep2 with
        | none =>
          exact ioOutcome_lost true env.log [.command (.sadd L (c_str u.display_name)) (some reply)]
            _ { self with redis_error_ := true } env2 (by simpa using l2)
            (noLost_reply _ _) rfl
        | some r2 =>
          simp only
          have hpre2 : noLost [.command (.sadd L (c_str u.display_name)) (some reply),
              .command (.del (P ++ c_str u.display_name)) (some r2)] :=
            noLost_append [_] [_] (noLost_reply _ _) (noLost_reply _ _)
          have l3 := redisCommand_log env2 (.text (c_str (add_cmd P u)))
          generalize redisCommand env2 (.text (c_str (add_cmd P u))) = q3 at l3
          obtain ⟨rep3, env3⟩ := q3
          simp only at l3
          rw [l2] at l3
          cases rep3 with
          | none =>
            exact ioOutcome_lost true env.log
              [.command (.sadd L (c_str u.display_name)) (some reply),
               .command (.del (P ++ c_str u.display_name)) (some r2)]
              _ { self with redis_error_ := true } env3 (by simpa using l3) hpre2 rfl
          | some r3 =>
            simp only
            have hpre3 : noLost ([.command (.sadd L (c_str u.display_name)) (some reply)] ++
                [.command (.del (P ++ c_str u.display_name)) (some r2)] ++
                [.command (.text (c_str (add_cmd P u))) (some r3)]) :=
              noLost_append _ [_] hpre2 (noLost_reply _ _)
            have l3b : env3.log = env.log ++
                ([.command (.sadd L (c_str u.display_name)) (some reply)] ++
                [.command (.del (P ++ c_str u.display_name)) (some r2)] ++
                [.command (.text (c_str (add_cmd P u))) (some r3)]) := by
              simpa using l3
            cases r3.errStr with
            | some str =>
              have := HandleLogicError_io self env3 ("AddUser::HMSET ret: " ++ c_str str)
              rw [l3b] at this
              exact ioOutcome_prepend true env.log _ _ _ _ hpre3 this
            | none =>
              have := ioOutcome_weaken _ _ _ _ (UnLock_io self env3)
              rw [l3b] at this
              exact ioOutcome_prepend true env.log _ _ _ _ hpre3 this

theorem AddUser_io (P L : String) (fuel : Nat) (u : User) (self : ZgwStore) (env : Env)
    (x : Status × ZgwStore × Env) (h : AddUser P L fuel u self env = some x) :
    ioOutcome true env.log x.1 x.2.1 x.2.2 := by
  obtain ⟨evs1, m1, m2⟩ := MaybeHandleRedisError_events self env
  unfold AddUser at h
  generalize MaybeHandleRedisError self env = m at m1 h
  obtain ⟨b, self1, env1⟩ := m
  simp only at m1
  cases b with
  | false =>
    simp only [Option.some.injEq] at h
    rw [← h]
    exact ioOutcome_noLost true env.log evs1 _ _ env1 m1 m2
  | true =>
    simp only at h
    cases hl : Lock fuel self1 env1 with
    | none => simp [hl] at h
    | some y =>
      obtain ⟨s, self2, env2⟩ := y
      have hio := Lock_io self1 fuel env1 _ hl
      simp only at hio
      rw [m1] at hio
      simp only [hl] at h
      by_cases hs : s.ok = true
      · simp only [hs, Bool.not_true, Bool.false_eq_true, if_false, Option.some.injEq] at h
        rw [← h]
        have hs2 : s = .OK := by
          cases s <;> simp [Status.ok] at hs
          rfl
        obtain ⟨evs2, g1, g2⟩ := hio
        have hn2 : noLost evs2 := by
          rcases g2 with g2 | ⟨pre, c, _, _, _, p4⟩
          · exact g2
          · rw [hs2] at p4
            rcases p4 with p4 | ⟨p4, _⟩
            · simp at p4
            · simp at p4
        have := AddUser_locked_io P L u self2 env2
        rw [g1] at this
        have hh := ioOutcome_prepend true (env.log ++ evs1) evs2 _ _ _ hn2 this
        exact ioOutcome_prepend true env.log evs1 _ _ _ m2 hh
      · have hs2 : s.ok = false := by simpa using hs
        simp only [hs2, Bool.not_false, if_true, Option.some.injEq] at h
        rw [← h]
        exact ioOutcome_prepend true env.log evs1 _ _ _ m2 (ioOutcome_weaken _ _ _ _ hio)

theorem ListUsers_loop_io (order : ArgOrder) (P : String) (self : ZgwStore) :
    ∀ (names : List String) (users : List User) (env : Env),
      ioOutcome false env.log (ListUsers.loop order P self names users env).1
        (ListUsers.loop order P self names users env).2.2.1
        (ListUsers.loop order P self names users env).2.2.2 := by
  intro names
  induction names with
  | nil =>
    intro users env
    exact ioOutcome_noLost false env.log [] _ _ _ (by simp [ListUsers.loop]) noLost_nil
  | cons m rest ih =>
    intro users env
    unfold ListUsers.loop
    have l1 := redisCommand_log env (.hgetall (P ++ c_str m))
    generalize redisCommand env (.hgetall (P ++ c_str m)) = q at l1
    obtain ⟨rep, env1⟩ := q
    simp only at l1
    cases rep with
    | none =>
      exact ioOutcome_lost false env.log [] _ { self with redis_error_ := true } env1
        (by simpa using l1) noLost_nil rfl
    | some t =>
      have stop : ∀ (s : Status), ioOutcome false env.log s self env1 :=
        fun s => ioOutcome_noLost false env.log _ s self env1 l1 (noLost_reply _ _)
      have step : ∀ users2 : List User,
          ioOutcome false env.log (ListUsers.loop order P self rest users2 env1).1
            (ListUsers.loop order P self rest users2 env1).2.2.1
            (ListUsers.loop order P self rest users2 env1).2.2.2 := by
        intro users2
        have := ih users2 env1
        rw [l1] at this
        exact ioOutcome_prepend false env.log _ _ _ _ (noLost_reply _ _) this
      cases t with
      | error str => exact stop _
      | status x =>
        simp only [Reply.elems, List.length_nil, if_true]
        exact step _
      | integer n =>
        simp only [Reply.elems, List.length_nil, if_true]
        exact step _
      | nil =>
        simp only [Reply.elems, List.length_nil, if_true]
        exact step _
      | array xs =>
        simp only [Reply.elems]
        by_cases h0 : xs.length = 0
        · rw [if_pos h0]; exact step _
        · rw [if_neg h0]
          by_cases h1 : xs.length % 2 ≠ 0
          · rw [if_pos h1]; exact stop _
          · rw [if_neg h1]; exact step _

theorem ListUsers_io (order : ArgOrder) (P L : String) (self : ZgwStore) (env : Env) :
    ioOutcome false env.log (ListUsers order P L self env).1 (ListUsers order P L self env).2.2.1
      (ListUsers order P L self env).2.2.2 := by
  obtain ⟨evs1, m1, m2⟩ := MaybeHandleRedisError_events self env
  unfold ListUsers
  generalize MaybeHandleRedisError self env = m at m1
  obtain ⟨b, self1, env1⟩ := m
  simp only at m1
  cases b with
  | false => exact ioOutcome_noLost false env.log evs1 _ _ env1 m1 m2
  | true =>
    simp only
    have l1 := redisCommand_log env1 (.smembers L)
    generalize redisCommand env1 (.smembers L) = q at l1
    obtain ⟨rep, env2⟩ := q
    simp only at l1
    rw [m1, List.append_assoc] at l1
    cases rep with
    | none =>
      exact ioOutcome_lost false env.log evs1 _ { self1 with redis_error_ := true } env2
        l1 m2 rfl
    | some t =>
      have hpre : noLost (evs1 ++ [.command (.smembers L) (some t)]) :=
        noLost_append _ _ m2 (noLost_reply _ _)
      have stop : ∀ (s : Status), ioOutcome false env.log s self1 env2 :=
        fun s => ioOutcome_noLost false env.log _ s self1 env2 l1 hpre
      have step : ∀ names : List String,
          ioOutcome false env.log (ListUsers.loop order P self1 names [] env2).1
            (ListUsers.loop order P self1 names [] env2).2.2.1
            (ListUsers.loop order P self1 names [] env2).2.2.2 := by
        intro names
        have := ListUsers_loop_io order P self1 names [] env2
        rw [l1] at this
        exact ioOutcome_prepend false env.log _ _ _ _ hpre this
      cases t with
      | error str => exact stop _
      | status x => simp only [Reply.elems, List.length_nil, if_true]; exact stop _
      | integer n => simp only [Reply.elems, List.length_nil, if_true]; exact stop _
      | nil => simp only [Reply.elems, List.length_nil, if_true]; exact stop _
      | array xs =>
        simp only [Reply.elems]
        by_cases h0 : xs.length = 0
        · rw [if_pos h0]; exact stop _
        · rw [if_neg h0]; exact step _

theorem UnLock_status (self : ZgwStore) (env : Env) :
    (UnLock self env).1 = .OK ∨ (UnLock self env).1 = .IOError "Reconnect" ∨
    (UnLock self env).1 = .IOError "UnLock" := by
  unfold UnLock
  generalize MaybeHandleRedisError self env = m
  obtain ⟨b, self1, env1⟩ := m
  cases b with
  | false => exact Or.inr (Or.inl rfl)
  | true =>
    simp only
    generalize redisCommand env1 (.eval (c_str (del_cmd self1.lock_name_))) = q
    obtain ⟨rep, env2⟩ := q
    cases rep with
    | none => exact Or.inr (Or.inr rfl)
    | some x => exact Or.inl rfl

theorem Lock_loop_status (self : ZgwStore) :
    ∀ (fuel : Nat) (env : Env) (x : Status × ZgwStore × Env),
      Lock.loop self fuel env = some x →
      x.2.1.lock_name_ = self.lock_name_ ∧
      ((x.1 = .OK ∧ ((∀ f ∈ env.faults, f.plain) →
          x.2.2.redis.holder = some (c_str self.lock_name_))) ∨ x.1 = .IOError "Lock") := by
  intro fuel
  induction fuel with
  | zero => intro env x h; simp [Lock.loop] at h
  | succ n ih =>
    intro env x h
    unfold Lock.loop at h
    have h3 := redisCommand_plain env (.setNxPx (c_str self.lock_name_) self.lock_ttl_)
    have h4 := fun y => redisCommand_honest_reply env
      (.setNxPx (c_str self.lock_name_) self.lock_ttl_) y
    generalize redisCommand env (.setNxPx (c_str self.lock_name_) self.lock_ttl_) = q at h h3 h4
    obtain ⟨rep, env1⟩ := q
    simp only at h3 h4
    cases rep with
    | none =>
      simp only [HandleIOError, Option.some.injEq] at h
      rw [← h]
      exact ⟨rfl, Or.inr rfl⟩
    | some reply =>
      simp only at h
      by_cases hr : reply.isOK = true
      · rw [if_pos hr] at h
        simp only [Option.some.injEq] at h
        rw [← h]
        refine ⟨rfl, Or.inl ⟨rfl, ?_⟩⟩
        intro hp
        have hne : ∀ str, reply ≠ .error str := by
          intro str e
          rw [e, isOK_error] at hr
          exact absurd hr (by decide)
        have hx := h4 reply (head_plain env hp) rfl hne
        simp only [Redis.exec] at hx
        split at hx
        · simp only [Option.some.injEq, Prod.mk.injEq] at hx
          exact absurd hx.1.symm (hne _)
        · rename_i httl
          split at hx
          · simp only [Option.some.injEq, Prod.mk.injEq] at hx
            rw [← hx.1, isOK_nil] at hr
            exact absurd hr (by decide)
          · simp only [Option.some.injEq, Prod.mk.injEq] at hx
            simp only
            rw [← hx.2]
            exact holder_after_set _ _ _ (by omega)
      · rw [if_neg hr] at h
        obtain ⟨g1, g2⟩ := ih _ _ h
        refine ⟨g1, ?_⟩
        rcases g2 with ⟨g2, g3⟩ | g2
        · exact Or.inl ⟨g2, fun hp => g3 (h3 hp)⟩
        · exact Or.inr g2

theorem Lock_status (self : ZgwStore) (fuel : Nat) (env : Env)
    (x : Status × ZgwStore × Env) (h : Lock fuel self env = some x) :
    x.2.1.lock_name_ = self.lock_name_ ∧
    ((x.1 = .OK ∧ ((∀ f ∈ env.faults, f.plain) →
        x.2.2.redis.holder = some (c_str self.lock_name_))) ∨
      x.1 = .IOError "Lock" ∨ x.1 = .IOError "Reconnect") := by
  have hm := MaybeHandleRedisError_keeps self env
  unfold Lock at h
  generalize MaybeHandleRedisError self env = m at hm h
  obtain ⟨b, self1, env1⟩ := m
  simp only at hm
  cases b with
  | false =>
    simp only [Option.some.injEq] at h
    rw [← h]
    exact ⟨hm.2.2, Or.inr (Or.inr rfl)⟩
  | true =>
    simp only at h
    obtain ⟨g1, g2⟩ := Lock_loop_status self1 fuel env1 x h
    rw [hm.2.2] at g1 g2
    rw [hm.2.1] at g2
    refine ⟨g1, ?_⟩
    rcases g2 with g2 | g2
    · exact Or.inl g2
    · exact Or.inr (Or.inl g2)

theorem AddUser_locked_lost (P L : String) (u : User) (self : ZgwStore) (env : Env)
    (m : String)
    (hm : m = "AddUser::SADD" ∨ m = "AddUser::DEL" ∨ m = "AddUser::HMSET")
    (hs : (AddUser.locked P L u self env).1 = .IOError m) :
    (AddUser.locked P L u self env).2.2.redis.lock = env.redis.lock ∧
    (AddUser.locked P L u self env).2.2.redis.now = env.redis.now ∧
    ∃ evs : List Event, (AddUser.locked P L u self env).2.2.log = env.log ++ evs ∧
      noEval evs := by
  have hne1 : ¬ ("Reconnect" = m) := by
    rcases hm with h | h | h <;> rw [h] <;> decide
  have hne2 : ¬ ("UnLock" = m) := by
    rcases hm with h | h | h <;> rw [h] <;> decide
  rw [AddUser_locked_eq] at hs ⊢
  have l1 := redisCommand_log env (.sadd L (c_str u.display_name))
  have k1 := redisCommand_keeps_lock env (.sadd L (c_str u.display_name)) (by simp) (by simp)
  generalize redisCommand env (.sadd L (c_str u.display_name)) = q1 at hs l1 k1
  obtain ⟨rep1, env1⟩ := q1
  simp only at l1 k1
  cases rep1 with
  | none =>
    refine ⟨k1.1, k1.2, _, l1, ?_⟩
    intro h rep hmem; simp at hmem
  | some reply =>
    simp only at hs ⊢
    cases he : reply.errStr with
    | some str => simp [he, HandleLogicError] at hs
    | none =>
      simp only [he] at hs ⊢
      by_cases h0 : reply.integerVal = 0
      · simp [h0, HandleLogicError] at hs
      · rw [if_neg h0] at hs ⊢
        have l2 := redisCommand_log env1 (.del (P ++ c_str u.display_name))
        have k2 := redisCommand_keeps_lock env1 (.del (P ++ c_str u.display_name))
          (by simp) (by simp)
        generalize redisCommand env1 (.del (P ++ c_str u.display_name)) = q2 at hs l2 k2
        obtain ⟨rep2, env2⟩ := q2
        simp only at l2 k2
        rw [l1] at l2
        rw [k1.1, k1.2] at k2
        cases rep2 with
        | none =>
          refine ⟨k2.1, k2.2, _, by rw [show (HandleIOError self env2 "AddUser::DEL").2.2.log
            = env2.log from rfl, l2, List.append_assoc], ?_⟩
          intro h rep hmem; simp at hmem
        | some r2 =>
          simp only at hs ⊢
          have l3 := redisCommand_log env2 (.text (c_str (add_cmd P u)))
          have k3 := redisCommand_keeps_lock env2 (.text (c_str (add_cmd P u))) (by simp) (by simp)
          generalize redisCommand env2 (.text (c_str (add_cmd P u))) = q3 at hs l3 k3
          obtain ⟨rep3, env3⟩ := q3
          simp only at l3 k3
          rw [l2] at l3
          rw [k2.1, k2.2] at k3
          cases rep3 with
          | none =>
            refine ⟨k3.1, k3.2, _, by rw [show (HandleIOError self env3
              "AddUser::HMSET").2.2.log = env3.log from rfl, l3, List.append_assoc,
              List.append_assoc], ?_⟩
            intro h rep hmem; simp at hmem
          | some r3 =>
            simp only at hs ⊢
            cases he3 : r3.errStr with
            | some str => simp [he3, HandleLogicError] at hs
            | none =>
              simp only [he3] at hs
              rcases UnLock_status self env3 with h | h | h
              · rw [h] at hs; simp at hs
              · rw [h] at hs
                simp only [Status.IOError.injEq] at hs
                exact absurd hs hne1
              · rw [h] at hs
                simp only [Status.IOError.injEq] at hs
                exact absurd hs hne2

theorem AddUser_lost_keeps_lock (P L : String) (fuel : Nat) (u : User) (self : ZgwStore)
    (env : Env) (x : Status × ZgwStore × Env) (m : String)
    (h : AddUser P L fuel u self env = some x)
    (hp : ∀ f ∈ env.faults, f.plain)
    (hm : m = "AddUser::SADD" ∨ m = "AddUser::DEL" ∨ m = "AddUser::HMSET")
    (hs : x.1 = .IOError m) :
    x.2.2.redis.holder = some (c_str self.lock_name_) ∧
    ∃ (mid : Env) (evs : List Event), mid.redis.holder = some (c_str self.lock_name_) ∧
      x.2.2.redis.lock = mid.redis.lock ∧ x.2.2.log = mid.log ++ evs ∧ noEval evs := by
  have hne1 : ¬ ("Reconnect" = m) := by
    rcases hm with h | h | h <;> rw [h] <;> decide
  have hne2 : ¬ ("Lock" = m) := by
    rcases hm with h | h | h <;> rw [h] <;> decide
  have hmk := MaybeHandleRedisError_keeps self env
  unfold AddUser at h
  generalize MaybeHandleRedisError self env = mh at hmk h
  obtain ⟨b, self1, env1⟩ := mh
  simp only at hmk
  cases b with
  | false =>
    simp only [Option.some.injEq] at h
    rw [← h] at hs
    simp only [Status.IOError.injEq] at hs
    exact absurd hs hne1
  | true =>
    simp only at h
    cases hl : Lock fuel self1 env1 with
    | none => simp [hl] at h
    | some y =>
      obtain ⟨s, self2, env2⟩ := y
      obtain ⟨g1, g2⟩ := Lock_status self1 fuel env1 _ hl
      simp only at g1 g2
      simp only [hl] at h
      rcases g2 with ⟨g2, g3⟩ | g2 | g2
      · rw [g2] at h
        simp only [Status.ok, Bool.not_true, Bool.false_eq_true, if_false,
          Option.some.injEq] at h
        rw [← h] at hs ⊢
        obtain ⟨a1, a2, evs, a3, a4⟩ := AddUser_locked_lost P L u self2 env2 m hm hs
        have hheld : env2.redis.holder = some (c_str self.lock_name_) := by
          rw [g3 (by rw [hmk.2.1]; exact hp), hmk.2.2]
        refine ⟨?_, env2, evs, hheld, a1, a3, a4⟩
        rw [← hheld]
        exact holder_congr _ _ a1 a2
      · rw [g2] at h
        simp only [Status.ok, Bool.not_false, if_true, Option.some.injEq] at h
        rw [← h] at hs
        simp only [Status.IOError.injEq] at hs
        exact absurd hs hne2
      · rw [g2] at h
        simp only [Status.ok, Bool.not_false, if_true, Option.some.injEq] at h
        rw [← h] at hs
        simp only [Status.IOError.injEq] at hs
        exact absurd hs hne1

theorem redisCommand_setNxPx_step (env : Env) (v : String) (ttl : Int) :
    (redisCommand env (.setNxPx v ttl)).2.faults = env.faults.tail ∧
    (∀ b, env.faults.head? = some (.lost b) → (redisCommand env (.setNxPx v ttl)).1 = none) := by
  have hx : ∃ p, env.redis.exec (.setNxPx v ttl) = some p := by
    simp only [Redis.exec]
    split
    · exact ⟨_, rfl⟩
    · split <;> exact ⟨_, rfl⟩
  obtain ⟨⟨rep, r⟩, hx⟩ := hx
  unfold redisCommand
  simp only [hx]
  constructor
  · cases env.faults.head?.getD .ok <;> rfl
  · intro b hb
    simp [hb]

theorem Lock_loop_returns_on_lost (self : ZgwStore) :
    ∀ (n : Nat) (env : Env), (∃ i b, i < n ∧ env.faults[i]? = some (.lost b)) →
      (Lock.loop self n env).isSome = true := by
  intro n
  induction n with
  | zero => intro env ⟨i, b, hi, _⟩; omega
  | succ n ih =>
    intro env ⟨i, b, hi, hb⟩
    unfold Lock.loop
    obtain ⟨s1, s2⟩ := redisCommand_setNxPx_step env (c_str self.lock_name_) self.lock_ttl_
    generalize redisCommand env (.setNxPx (c_str self.lock_name_) self.lock_ttl_) = q at s1 s2
    obtain ⟨rep, env1⟩ := q
    simp only at s1 s2
    cases rep with
    | none => rfl
    | some reply =>
      simp only
      by_cases hr : reply.isOK = true
      · rw [if_pos hr]; rfl
      · rw [if_neg hr]
        cases i with
        | zero =>
          have := s2 b (by rw [List.head?_eq_getElem?]; exact hb)
          simp at this
        | succ j =>
          apply ih
          refine ⟨j, b, by omega, ?_⟩
          show env1.faults[j]? = _
          rw [s1]
          cases hfl : env.faults with
          | nil => simp [hfl] at hb
          | cons f fs => simpa [hfl] using hb

/-- C8, as stated, fails: when `AddUser` finds the name already present and the reply to
the `EVAL` sent by the `UnLock` of `HandleLogicError` is missing, `AddUser` returns a
Corruption status, not an IOError (the flag is set and the `EVAL` is the last call).
And for a client whose identity is `a`, U+0000, `b`, the lock key holds `a` when
`AddUser` returns the IOError of `SADD`: the `SET` of `Lock` sent the identity up to its
first U+0000. -/
theorem missing_reply_counterexample :
    (AddUser "user_" "list" 2 ⟨"9", "a", []⟩ (ZgwStore.mk0 "me" 1000)
      ⟨Redis.sample, [.ok, .ok, .lost false], [], []⟩).map
        (fun x => (x.1, x.1.IsIOError, x.2.1.redis_error_, x.2.2.log.getLast?))
      = some (.Corruption "User Already Exist, UnLock ret: IO error: UnLock", false, true,
          some (.command (.eval (c_str (del_cmd "me"))) none)) ∧
    (AddUser "user_" "list" 2 ⟨"9", "c", []⟩ (ZgwStore.mk0 nulName 1000)
      ⟨Redis.sample, [.ok, .lost false], [], []⟩).map
        (fun x => (x.1, x.2.2.redis.holder, decide (x.2.2.redis.holder = some nulName)))
      = some (.IOError "AddUser::SADD", some "a", false) :=
  ⟨by decide, by decide⟩

/-- C8 (amended): in `Lock`, `UnLock`, `ListUsers` and `AddUser`, a call that gets no
reply is the last event of the operation, the connection flag is set afterwards, and the
status is the IOError that names the call site; the one exception is the `EVAL` sent by
`UnLock` while `AddUser` handles a logic error, where `AddUser` returns a Corruption
whose message ends with the IOError of `UnLock`.  `Lock` returns as soon as a reply is
missing.  When `AddUser` returns the IOError of `SADD`, `DEL` or `HMSET` (the server
otherwise sending success or error replies), no `EVAL` was sent after the lock was
taken and the lock key still holds the identity of the client as the `SET` of `Lock`
sent it, which is the identity up to its first U+0000. -/
theorem missing_reply_classified (order : ArgOrder) (P L : String) (self : ZgwStore)
    (env : Env) :
    (∀ fuel x, Lock fuel self env = some x → ioOutcome false env.log x.1 x.2.1 x.2.2) ∧
    (∀ n, (∃ i b, i < n ∧ env.faults[i]? = some (.lost b)) →
      (Lock.loop self n env).isSome = true) ∧
    ioOutcome false env.log (UnLock self env).1 (UnLock self env).2.1
      (UnLock self env).2.2 ∧
    ioOutcome false env.log (ListUsers order P L self env).1 (ListUsers order P L self env).2.2.1
      (ListUsers order P L self env).2.2.2 ∧
    (∀ fuel u x, AddUser P L fuel u self env = some x →
      ioOutcome true env.log x.1 x.2.1 x.2.2 ∧
      ((∀ f ∈ env.faults, f.plain) → ∀ m : String,
        (m = "AddUser::SADD" ∨ m = "AddUser::DEL" ∨ m = "AddUser::HMSET") →
        x.1 = .IOError m →
        x.2.2.redis.holder = some (c_str self.lock_name_) ∧
        ∃ (mid : Env) (evs : List Event), mid.redis.holder = some (c_str self.lock_name_) ∧
          x.2.2.redis.lock = mid.redis.lock ∧ x.2.2.log = mid.log ++ evs ∧ noEval evs)) :=
  ⟨fun fuel x h => Lock_io self fuel env x h,
   fun n h => Lock_loop_returns_on_lost self n env h,
   UnLock_io self env,
   ListUsers_io order P L self env,
   fun fuel u x h => ⟨AddUser_io P L fuel u self env x h,
     fun hp m hm hs => AddUser_lost_keeps_lock P L fuel u self env x m h hp hm hs⟩⟩

theorem missing_reply_classified_witness :
    ioOutcome false [] (UnLock (ZgwStore.mk0 "me" 1000)
        ⟨Redis.init, [.lost true], [], []⟩).1
      (UnLock (ZgwStore.mk0 "me" 1000) ⟨Redis.init, [.lost true], [], []⟩).2.1
      (UnLock (ZgwStore.mk0 "me" 1000) ⟨Redis.init, [.lost true], [], []⟩).2.2 ∧
    (UnLock (ZgwStore.mk0 "me" 1000) ⟨Redis.init, [.lost true], [], []⟩).1
      = .IOError "UnLock" :=
  ⟨(missing_reply_classified .rightToLeft "user_" "list" (ZgwStore.mk0 "me" 1000)
      ⟨Redis.init, [.lost true], [], []⟩).2.2.1, by decide⟩

/-! ## Two clients and the lock -/

theorem Lock_loop_attempt (self : ZgwStore) (n : Nat) (env : Env) :
    Lock.loop self (n + 1) env =
      match Lock.attempt self env with
      | (none, env1) => some (HandleIOError self env1 "Lock")
      | (some reply, env1) =>
        if reply.isOK then some (.OK, self, env1)
        else Lock.loop self n (sleep_for env1 500) := by
  rw [Lock.loop]
  rfl

theorem attempt_honest (self : ZgwStore) (env : Env) (hf : env.faults = []) :
    (granted (Lock.attempt self env).1 = true ∧ env.redis.holder = none ∧
      (Lock.attempt self env).2.redis.holder = some (c_str self.lock_name_) ∧
      (Lock.attempt self env).2.faults = []) ∨
    (granted (Lock.attempt self env).1 = false ∧
      (Lock.attempt self env).1 ≠ none ∧
      (Lock.attempt self env).2.redis = env.redis ∧
      (Lock.attempt self env).2.faults = []) := by
  unfold Lock.attempt
  by_cases httl : self.lock_ttl_ ≤ 0
  · rw [redisCommand_ok env _ (.error "ERR invalid expire time in set") env.redis
      (head_ok_of_nil env hf) (by simp [Redis.exec, httl])]
    exact Or.inr ⟨rfl, by simp, rfl, after_faults_nil _ _ _ _ hf⟩
  · have hpos : 0 < self.lock_ttl_ := by omega
    cases hh : env.redis.holder with
    | none =>
      rw [redisCommand_ok env _ _ _ (head_ok_of_nil env hf)
        (exec_setNxPx_free _ _ _ hpos hh)]
      exact Or.inl ⟨isOK_status_OK, rfl, holder_after_set _ _ _ hpos,
        after_faults_nil _ _ _ _ hf⟩
    | some w =>
      rw [redisCommand_ok env _ _ _ (head_ok_of_nil env hf)
        (exec_setNxPx_held _ _ _ _ hpos hh)]
      exact Or.inr ⟨rfl, by simp, rfl, after_faults_nil _ _ _ _ hf⟩

theorem UnLock_honest_holder (self : ZgwStore) (env : Env)
    (hflag : self.redis_error_ = false) (hplain : luaPlain self.lock_name_)
    (hf : env.faults = []) :
    (UnLock self env).2.2.faults = [] ∧
    (env.redis.holder = some self.lock_name_ → (UnLock self env).2.2.redis.holder = none) ∧
    (env.redis.holder ≠ some self.lock_name_ →
      (UnLock self env).2.2.redis.holder = env.redis.holder) := by
  rw [UnLock_ok self env hflag hplain (head_ok_of_nil env hf)]
  by_cases h : env.redis.holder = some self.lock_name_
  · simp only [if_pos h]
    exact ⟨after_faults_nil _ _ _ _ hf, fun _ => by simp [Env.after, Redis.holder],
      fun h2 => absurd h h2⟩
  · simp only [if_neg h]
    exact ⟨after_faults_nil _ _ _ _ hf, fun h2 => absurd h2 h, fun _ => rfl⟩

theorem good_step (c1 c2 : ZgwStore) (h1 : c1.redis_error_ = false)
    (h2 : c2.redis_error_ = false) (hne : c1.lock_name_ ≠ c2.lock_name_)
    (hp1 : luaPlain c1.lock_name_) (hp2 : luaPlain c2.lock_name_)
    (s : LockSys) (a : LockAct) (hg : LockSys.good c1 c2 s) :
    LockSys.good c1 c2 (LockSys.step c1 c2 s a) := by
  obtain ⟨g0, g1, g2⟩ := hg
  cases a with
  | acquire1 =>
    simp only [LockSys.step]
    rcases attempt_honest c1 s.env g0 with ⟨a1, a2, a3, a4⟩ | ⟨a1, _, a3, a4⟩
    · rw [luaPlain_c_str _ hp1] at a3
      rw [if_pos a1]
      refine ⟨a4, fun _ => a3, fun h => ?_⟩
      have := g2 h
      rw [a2] at this
      simp at this
    · rw [if_neg (by rw [a1]; decide)]
      exact ⟨a4, fun h => by simp only [a3]; exact g1 h, fun h => by simp only [a3]; exact g2 h⟩
  | acquire2 =>
    simp only [LockSys.step]
    rcases attempt_honest c2 s.env g0 with ⟨a1, a2, a3, a4⟩ | ⟨a1, _, a3, a4⟩
    · rw [luaPlain_c_str _ hp2] at a3
      rw [if_pos a1]
      refine ⟨a4, fun h => ?_, fun _ => a3⟩
      have := g1 h
      rw [a2] at this
      simp at this
    · rw [if_neg (by rw [a1]; decide)]
      exact ⟨a4, fun h => by simp only [a3]; exact g1 h, fun h => by simp only [a3]; exact g2 h⟩
  | release1 =>
    simp only [LockSys.step]
    obtain ⟨u1, _, u3⟩ := UnLock_honest_holder c1 s.env h1 hp1 g0
    refine ⟨u1, fun h => by simp at h, fun h => ?_⟩
    have hh := g2 h
    rw [u3 (by rw [hh]; intro e; exact hne (Option.some.inj e).symm)]
    exact hh
  | release2 =>
    simp only [LockSys.step]
    obtain ⟨u1, _, u3⟩ := UnLock_honest_holder c2 s.env h2 hp2 g0
    refine ⟨u1, fun h => ?_, fun h => by simp at h⟩
    have hh := g1 h
    rw [u3 (by rw [hh]; intro e; exact hne (Option.some.inj e))]
    exact hh

theorem good_run (c1 c2 : ZgwStore) (h1 : c1.redis_error_ = false)
    (h2 : c2.redis_error_ = false) (hne : c1.lock_name_ ≠ c2.lock_name_)
    (hp1 : luaPlain c1.lock_name_) (hp2 : luaPlain c2.lock_name_)
    (acts : List LockAct) :
    ∀ s : LockSys, LockSys.good c1 c2 s → LockSys.good c1 c2 (LockSys.run c1 c2 s acts) := by
  induction acts with
  | nil => intro s hg; exact hg
  | cons a acts ih =>
    intro s hg
    exact ih _ (good_step c1 c2 h1 h2 hne hp1 hp2 s a hg)

/-- C6, as stated, fails: the first client has the identity `one`, the second the
identity `x" or "1"=="1`, which makes the condition of the script of `UnLock` true for
every holder.  On a server that never fails and with no time passing, the first takes
the lock, the `UnLock` of the second deletes the lock key, and the attempt of the second
then returns OK: both clients have had `Lock` return OK with no `UnLock` by the first.
The same happens with the identities `a`, U+0000, `b` and `a`, which are sent as the same
string. -/
theorem lock_mutual_exclusion_counterexample :
    (ZgwStore.mk0 "one" 1000).lock_name_ ≠ (ZgwStore.mk0 "x\" or \"1\"==\"1" 1000).lock_name_ ∧
    (LockSys.run (ZgwStore.mk0 "one" 1000) (ZgwStore.mk0 "x\" or \"1\"==\"1" 1000)
      ⟨Env.honest Redis.init, false, false⟩ [.acquire1]).env.redis.holder = some "one" ∧
    (UnLock (ZgwStore.mk0 "x\" or \"1\"==\"1" 1000)
      (LockSys.run (ZgwStore.mk0 "one" 1000) (ZgwStore.mk0 "x\" or \"1\"==\"1" 1000)
        ⟨Env.honest Redis.init, false, false⟩ [.acquire1]).env).2.2.redis.holder = none ∧
    (LockSys.run (ZgwStore.mk0 "one" 1000) (ZgwStore.mk0 "x\" or \"1\"==\"1" 1000)
      ⟨Env.honest Redis.init, false, false⟩ [.acquire1, .release2, .acquire2]).held1
        = true ∧
    (LockSys.run (ZgwStore.mk0 "one" 1000) (ZgwStore.mk0 "x\" or \"1\"==\"1" 1000)
      ⟨Env.honest Redis.init, false, false⟩ [.acquire1, .release2, .acquire2]).held2
        = true ∧
    (ZgwStore.mk0 nulName 1000).lock_name_ ≠ (ZgwStore.mk0 "a" 1000).lock_name_ ∧
    (LockSys.run (ZgwStore.mk0 nulName 1000) (ZgwStore.mk0 "a" 1000)
      ⟨Env.honest Redis.init, false, false⟩ [.acquire1, .release2, .acquire2]).held1
        = true ∧
    (LockSys.run (ZgwStore.mk0 nulName 1000) (ZgwStore.mk0 "a" 1000)
      ⟨Env.honest Redis.init, false, false⟩ [.acquire1, .release2, .acquire2]).held2
        = true :=
  ⟨by decide, by decide, by decide, by decide, by decide, by decide, by decide, by decide⟩

/-- C6 (amended): two healthy clients with different identities, neither holding a
double quote, backslash, line break or U+0000, take steps on one server that never
fails, each step an attempt of `Lock` or a call of `UnLock`, with no time passing.  From
a state where a client that holds the lock is the stored holder, after any sequence of
steps the two clients do not both hold the lock; and while the first holds it, an
attempt of the second gets a reply that is not OK, so that its `Lock` sleeps 500 ms and
tries again, and an `UnLock` by the second leaves the first as the holder. -/
theorem lock_mutual_exclusion (c1 c2 : ZgwStore) (s0 : LockSys) (acts : List LockAct)
    (h1 : c1.redis_error_ = false) (h2 : c2.redis_error_ = false)
    (hne : c1.lock_name_ ≠ c2.lock_name_)
    (hp1 : luaPlain c1.lock_name_) (hp2 : luaPlain c2.lock_name_)
    (h0 : LockSys.good c1 c2 s0) :
    ¬ ((LockSys.run c1 c2 s0 acts).held1 = true ∧
        (LockSys.run c1 c2 s0 acts).held2 = true) ∧
    ((LockSys.run c1 c2 s0 acts).held1 = true →
      granted (Lock.attempt c2 (LockSys.run c1 c2 s0 acts).env).1 = false ∧
      (Lock.attempt c2 (LockSys.run c1 c2 s0 acts).env).1 ≠ none ∧
      (∀ n, Lock.loop c2 (n + 1) (LockSys.run c1 c2 s0 acts).env
        = Lock.loop c2 n
            (sleep_for (Lock.attempt c2 (LockSys.run c1 c2 s0 acts).env).2 500)) ∧
      (UnLock c2 (LockSys.run c1 c2 s0 acts).env).2.2.redis.holder
        = some c1.lock_name_) := by
  obtain ⟨g0, g1, g2⟩ := good_run c1 c2 h1 h2 hne hp1 hp2 acts s0 h0
  generalize LockSys.run c1 c2 s0 acts = s at g0 g1 g2
  constructor
  · rintro ⟨a, b⟩
    have := g1 a
    rw [g2 b] at this
    exact hne (Option.some.inj this).symm
  · intro hheld
    have hh := g1 hheld
    rcases attempt_honest c2 s.env g0 with ⟨_, a2, _, _⟩ | ⟨a1, a2, _, _⟩
    · rw [hh] at a2; simp at a2
    · refine ⟨a1, a2, ?_, ?_⟩
      · intro n
        rw [Lock_loop_attempt]
        generalize Lock.attempt c2 s.env = q at a1 a2
        obtain ⟨rep, env1⟩ := q
        cases rep with
        | none => exact absurd rfl a2
        | some reply =>
          simp only
          have hr : ¬ reply.isOK = true := by
            intro e
            rw [show granted (some reply) = reply.isOK from rfl, e] at a1
            exact absurd a1 (by decide)
          rw [if_neg hr]
      · obtain ⟨_, _, u3⟩ := UnLock_honest_holder c2 s.env h2 hp2 g0
        rw [u3 (by rw [hh]; intro e; exact hne (Option.some.inj e))]
        exact hh

theorem lock_mutual_exclusion_witness :
    (LockSys.run (ZgwStore.mk0 "one" 1000) (ZgwStore.mk0 "two" 1000)
      ⟨Env.honest Redis.init, false, false⟩ [.acquire1, .acquire2, .release2]).held1 = true ∧
    ¬ ((LockSys.run (ZgwStore.mk0 "one" 1000) (ZgwStore.mk0 "two" 1000)
        ⟨Env.honest Redis.init, false, false⟩ [.acquire1, .acquire2, .release2]).held1 = true ∧
      (LockSys.run (ZgwStore.mk0 "one" 1000) (ZgwStore.mk0 "two" 1000)
        ⟨Env.honest Redis.init, false, false⟩ [.acquire1, .acquire2, .release2]).held2
          = true) :=
  ⟨by decide,
   (lock_mutual_exclusion (ZgwStore.mk0 "one" 1000) (ZgwStore.mk0 "two" 1000)
      ⟨Env.honest Redis.init, false, false⟩ [.acquire1, .acquire2, .release2] rfl rfl
      (by decide) (by decide) (by decide) ⟨rfl, by simp, by simp⟩).1⟩

end zgwstore
